import Mathlib

/-!
Shallow embedding of the lockless event queue core
(src/event_queue.rs, src/event_reader.rs, src/cursor.rs).

The producer mutex serializes every mutating queue operation, so the
sequential embedding executes each operation atomically on an explicit
queue state.  Chunks are kept in a Lean list in linkage order (the
first element is the head of the linked list, the last element is the
tail); the next pointer of the chunk at position k is the chunk at
position k+1, and the next pointer of the final chunk is null.  Raw
chunk pointers are represented by chunk ids, which are stable for the
lifetime of a chunk; a null pointer is represented by the value none.
Atomic counters never wrap in reachable states (the proved invariants
show they stay in range), so read_completely_times is carried as an
Int and the usize subtraction that can actually wrap in the source
(truncate_front) is modelled with an explicit mod 2 pow 64.

The chunk storage primitives (try_push, push_unchecked, extend,
len_and_epoch, set_epoch) live in dynamic_chunk.rs / chunk_state.rs,
which are not part of the given sources; they are modelled from the
specification, section 4.1, and are marked as such below.

The cfg features shrink and double_buffering are off in the default
build and are not modelled; the Settings trait is a plain structure.
-/

namespace EventQueueModel

structure Settings where
  MIN_CHUNK_SIZE : Nat
  MAX_CHUNK_SIZE : Nat
  AUTO_CLEANUP : Bool
deriving DecidableEq

/-- Modelled from "the spec" section 3 and 4.1: a chunk of the linked list.
The field slots holds the initialised prefix of the storage, so the
published length of the state word is slots.length; epoch is the high
half of the packed state word; read_completely_times is the atomic
read-completion counter and id the monotonically assigned chunk id. -/
structure Chunk (α : Type) where
  id : Nat
  capacity : Nat
  slots : List α
  epoch : Nat
  read_completely_times : Int
deriving DecidableEq

/-- Cursor from src/cursor.rs: a chunk pointer plus an in-chunk index.
The pointer is the id of the chunk, or none for a null pointer. -/
structure Cursor where
  chunk : Option Nat
  index : Nat
deriving DecidableEq

/-- EventQueue from src/event_queue.rs with the fields of the inner
List struct inlined (the Mutex disappears in the sequential embedding):
chunks is the linked list from first to last, and the remaining fields
are chunk_id_counter, penult_chunk_size, readers, start_position. -/
structure EventQueue (α : Type) where
  chunks : List (Chunk α)
  chunk_id_counter : Nat
  penult_chunk_size : Nat
  readers : Nat
  start_position : Cursor
deriving DecidableEq

/-- EventReader from src/event_reader.rs. -/
structure EventReader where
  position : Cursor
  start_position_epoch : Nat
deriving DecidableEq

variable {α : Type}

/-- Id of the head chunk (the source dereferences list.first; the list
is never empty, the default 0 is never used in reachable states). -/
def headId (q : EventQueue α) : Nat :=
  (q.chunks.head?.map Chunk.id).getD 0

/-- Epoch of the head chunk; all chunks share one epoch in reachable
states. -/
def qEpoch (q : EventQueue α) : Nat :=
  (q.chunks.head?.map Chunk.epoch).getD 0

/-- Id of the tail chunk (the source dereferences list.last). -/
def lastId (q : EventQueue α) : Nat :=
  (q.chunks.getLast?.map Chunk.id).getD 0

/-- Published length of the tail chunk. -/
def lastLen (q : EventQueue α) : Nat :=
  (q.chunks.getLast?.map (fun c => c.slots.length)).getD 0

/-- Dereference a chunk pointer: look the id up in the list.  A null or
dangling pointer yields none. -/
def findChunk? (q : EventQueue α) (oid : Option Nat) : Option (Chunk α) :=
  oid.bind (fun i => q.chunks.find? (fun c => c.id == i))

/-- read_completely_times of the chunk with the given id (0 if absent;
only used where the chunk is known to be live). -/
def rctOfId (q : EventQueue α) (i : Nat) : Int :=
  ((q.chunks.find? (fun c => c.id == i)).map Chunk.read_completely_times).getD 0

/-- The successor of the chunk with the given id in the linked list:
the model of loading its next pointer. -/
def nextInList : List (Chunk α) → Nat → Option (Chunk α)
  | [], _ => none
  | [_], _ => none
  | c :: d :: rest, i => if c.id = i then some d else nextInList (d :: rest) i

/-- Apply f to the last chunk of the list (the tail of the queue). -/
def updateLast (f : Chunk α → Chunk α) : List (Chunk α) → List (Chunk α)
  | [] => []
  | [c] => [f c]
  | c :: d :: rest => c :: updateLast f (d :: rest)

/-- The ids visited by foreach_chunk(start, end): start at the chunk
with id startId and follow next pointers, stopping just before the
chunk whose id is endId.  As in the source, if the end pointer is null
or never encountered the walk continues to the end of the list. -/
def walkIds (chunks : List (Chunk α)) (startId : Nat) (endId : Option Nat) : List Nat :=
  ((chunks.dropWhile (fun c => c.id != startId)).takeWhile
    (fun c => endId != some c.id)).map Chunk.id

/-- Add delta to read_completely_times of every chunk whose id is in
the list (the fetch_add / fetch_sub of a chunk walk). -/
def addRct (delta : Int) (ids : List Nat) (q : EventQueue α) : EventQueue α :=
  { q with chunks := q.chunks.map (fun c =>
      if c.id ∈ ids then
        { c with read_completely_times := c.read_completely_times + delta }
      else c) }

/-- Cursor comparison, src/cursor.rs Ord::cmp: compare the ids read
through the chunk pointers, then the indices.  Dereferencing a null
pointer is undefined behaviour in the source; the model returns none. -/
def cursorCmp? (a b : Cursor) : Option Ordering :=
  match a.chunk, b.chunk with
  | some i, some j =>
      some (if i < j then Ordering.lt
            else if j < i then Ordering.gt
            else compare a.index b.index)
  | _, _ => none

/-- Cursor strict comparison, src/cursor.rs PartialOrd::lt (same null
behaviour as cursorCmp?). -/
def cursorLt? (a b : Cursor) : Option Bool :=
  match a.chunk, b.chunk with
  | some i, some j =>
      some (decide (i < j ∨ (i = j ∧ a.index < b.index)))
  | _, _ => none

/-- EventQueue::new: one chunk of MIN_CHUNK_SIZE capacity, id 0,
epoch 0; start_position points at it with index 0. -/
def EventQueue.new (s : Settings) (α : Type) : EventQueue α :=
  { chunks := [{ id := 0, capacity := s.MIN_CHUNK_SIZE, slots := [],
                 epoch := 0, read_completely_times := 0 }],
    chunk_id_counter := 0,
    penult_chunk_size := 0,
    readers := 0,
    start_position := { chunk := some 0, index := 0 } }

/-- EventQueue::add_chunk: compute the new capacity from the growth
schedule, bump the id counter, construct the chunk with the epoch of
the current tail, link it and record the penultimate capacity. -/
def add_chunk (s : Settings) (q : EventQueue α) : EventQueue α :=
  match q.chunks.getLast? with
  | none => q
  | some node =>
    let new_size :=
      if q.penult_chunk_size = node.capacity then
        min (node.capacity * 2) s.MAX_CHUNK_SIZE
      else node.capacity
    let newId := q.chunk_id_counter + 1
    { q with
      chunks := q.chunks ++ [{ id := newId, capacity := new_size, slots := [],
                               epoch := node.epoch, read_completely_times := 0 }],
      chunk_id_counter := newId,
      penult_chunk_size := node.capacity }

/-- EventQueue::push.  try_push on the tail (modelled from the spec,
section 4.1: append when length is below capacity, otherwise report
full); on full, add_chunk and push_unchecked into the new tail. -/
def push (s : Settings) (q : EventQueue α) (v : α) : EventQueue α :=
  match q.chunks.getLast? with
  | none => q
  | some node =>
    if node.slots.length < node.capacity then
      { q with chunks := updateLast (fun c => { c with slots := c.slots ++ [v] }) q.chunks }
    else
      let q1 := add_chunk s q
      { q1 with chunks := updateLast (fun c => { c with slots := c.slots ++ [v] }) q1.chunks }

/-- EventQueue::extend.  DynamicChunk::extend is modelled from the
spec, section 4.4: the tail consumes input until it is full; then a
chunk is added, one value pushed unchecked, and the loop continues. -/
def extendLoop (s : Settings) (q : EventQueue α) (vs : List α) : EventQueue α :=
  match q.chunks.getLast? with
  | none => q
  | some node =>
    let room := node.capacity - node.slots.length
    if vs.length ≤ room then
      { q with chunks := updateLast (fun c => { c with slots := c.slots ++ vs }) q.chunks }
    else
      match h : vs.drop room with
      | [] => { q with chunks := updateLast (fun c => { c with slots := c.slots ++ vs.take room }) q.chunks }
      | v :: rest =>
        let filled := updateLast (fun c => { c with slots := c.slots ++ vs.take room }) q.chunks
        let q2 := add_chunk s { q with chunks := filled }
        let q3 := { q2 with chunks := updateLast (fun c => { c with slots := c.slots ++ [v] }) q2.chunks }
        extendLoop s q3 rest
termination_by vs.length
decreasing_by
  have hlen : (vs.drop room).length = vs.length - room := List.length_drop room vs
  rw [h] at hlen
  simp only [List.length_cons] at hlen
  omega

/-- EventQueue::extend, public entry. -/
def extend (s : Settings) (q : EventQueue α) (vs : List α) : EventQueue α :=
  extendLoop s q vs

/-- One pass of cleanup_impl: while the head chunk has
read_completely_times equal to the readers count and has a successor
(it is not the tail), free it and advance the head. -/
def cleanupChunks (readersCount : Nat) : List (Chunk α) → List (Chunk α)
  | [] => []
  | [c] => [c]
  | c :: d :: rest =>
    if c.read_completely_times = (readersCount : Int) then
      cleanupChunks readersCount (d :: rest)
    else c :: d :: rest

/-- EventQueue::cleanup / cleanup_impl: free the fully read prefix and
reset penult_chunk_size when only one chunk remains. -/
def cleanup (q : EventQueue α) : EventQueue α :=
  let chunks := cleanupChunks q.readers q.chunks
  { q with chunks := chunks,
           penult_chunk_size := if chunks.length ≤ 1 then 0 else q.penult_chunk_size }

/-- EventQueue::set_start_position: store the new cursor, bump the
epoch taken from the head chunk in every chunk, and when AUTO_CLEANUP
is on and there are no readers, run cleanup inline. -/
def set_start_position (s : Settings) (q : EventQueue α) (newPos : Cursor) : EventQueue α :=
  let q1 := { q with start_position := newPos }
  let newEpoch := qEpoch q1 + 1
  let q2 := { q1 with chunks := q1.chunks.map (fun c => { c with epoch := newEpoch }) }
  if s.AUTO_CLEANUP && (q2.readers == 0) then cleanup q2 else q2

/-- EventQueue::clear: set the start position to the end of the tail. -/
def clear (s : Settings) (q : EventQueue α) : EventQueue α :=
  match q.chunks.getLast? with
  | none => q
  | some last => set_start_position s q { chunk := some last.id, index := last.slots.length }

/-- Wrapping usize subtraction (the source computes
chunk_id as usize - first.id() on plain usizes). -/
def usizeSub (a b : Nat) : Nat :=
  (a + (2 ^ 64 - b % 2 ^ 64)) % 2 ^ 64

/-- EventQueue::truncate_front: compute the target id as a signed
integer; bail out at 0 when it is not positive; otherwise search the
list for the chunk with that id (the found pointer stays null when
there is none) and set the start position to its beginning, returning
the wrapping difference between the target id and the head id. -/
def truncate_front (s : Settings) (q : EventQueue α) (chunksCount : Nat) : Nat × EventQueue α :=
  let chunk_id : Int := (q.chunk_id_counter : Int) - (chunksCount : Int) + 1
  if chunk_id ≤ 0 then (0, q)
  else
    let freed_chunks := usizeSub chunk_id.toNat (headId q)
    let start_chunk : Option Nat :=
      (q.chunks.find? (fun c => c.id == chunk_id.toNat)).map Chunk.id
    (freed_chunks, set_start_position s q { chunk := start_chunk, index := 0 })

/-- EventQueue::chunks_count. -/
def chunks_count (q : EventQueue α) : Nat :=
  q.chunk_id_counter - headId q + 1

/-- EventReader::set_forward_position: walk the chunks strictly before
the target chunk starting at the reader cursor chunk, fetch_add their
read-completion counters, optionally run cleanup when some counter
reached readers - 1 before the increment, and finally store the new
cursor.  When try_cleanup is set the source dereferences the target
chunk pointer for the queue back-reference, so a null target is
undefined behaviour (none). -/
def set_forward_position (q : EventQueue α) (r : EventReader) (newPos : Cursor)
    (tryCleanup : Bool) : Option (EventQueue α × EventReader) :=
  if tryCleanup ∧ newPos.chunk = none then none
  else
    let readersCountMin1 := q.readers - 1
    let visited :=
      match r.position.chunk with
      | none => []
      | some sid => walkIds q.chunks sid newPos.chunk
    let needCleanup := tryCleanup &&
      visited.any (fun i => decide ((readersCountMin1 : Int) ≤ rctOfId q i))
    let q1 := addRct 1 visited q
    let q2 := if needCleanup then cleanup q1 else q1
    some (q2, { r with position := newPos })

/-- EventQueue::unsubscribe: withdraw the reader contribution from
every chunk before its cursor chunk and decrement the readers count. -/
def unsubscribe (q : EventQueue α) (r : EventReader) : EventQueue α :=
  let visited :=
    match q.chunks.head? with
    | none => []
    | some h => walkIds q.chunks h.id r.position.chunk
  let q1 := addRct (-1) visited q
  { q1 with readers := q1.readers - 1 }

/-- EventQueue::subscribe: bump the readers count, build a reader at
the head with the tail epoch cached, and advance it to the end of the
tail with cleanup disabled. -/
def subscribe (q : EventQueue α) : Option (EventQueue α × EventReader) :=
  let q1 := { q with readers := q.readers + 1 }
  match q1.chunks.getLast?, q1.chunks.head? with
  | some last, some first =>
    let r : EventReader :=
      { position := { chunk := some first.id, index := 0 },
        start_position_epoch := last.epoch }
    set_forward_position q1 r { chunk := some last.id, index := last.slots.length } false
  | _, _ => none

/-- EventReader::do_update_start_position_and_get_len (slow path):
copy the start position, move forward to it when strictly ahead of the
reader, and reload the length of the chunk now under the cursor.  The
cursor comparison dereferences both chunk pointers (none on null), and
the final reload dereferences the cursor chunk. -/
def do_update_start_position_and_get_len (s : Settings) (q : EventQueue α)
    (r : EventReader) : Option (EventQueue α × EventReader × Nat) :=
  let sp := q.start_position
  match cursorLt? r.position sp with
  | none => none
  | some lt =>
    let step : Option (EventQueue α × EventReader) :=
      if lt then set_forward_position q r sp s.AUTO_CLEANUP else some (q, r)
    match step with
    | none => none
    | some (q1, r1) =>
      match findChunk? q1 r1.position.chunk with
      | none => none
      | some c => some (q1, r1, c.slots.length)

/-- EventReader::update_start_position_and_get_len: read the state
word of the cursor chunk; on an epoch change cache the new epoch and
take the slow path, otherwise return the length.
The source settings carry CLEANUP : CleanupMode; the canonical mapping
(spec, section 6) is OnChunkRead exactly when AUTO_CLEANUP is true. -/
def update_start_position_and_get_len (s : Settings) (q : EventQueue α)
    (r : EventReader) : Option (EventQueue α × EventReader × Nat) :=
  match findChunk? q r.position.chunk with
  | none => none
  | some c =>
    if c.epoch != r.start_position_epoch then
      do_update_start_position_and_get_len s q { r with start_position_epoch := c.epoch }
    else some (q, r, c.slots.length)

/-- EventReader::update_position. -/
def update_position (s : Settings) (q : EventQueue α) (r : EventReader) :
    Option (EventQueue α × EventReader) :=
  (update_start_position_and_get_len s q r).map (fun x => (x.1, x.2.1))

/-- Iter: the transient cursor walker (position plus the captured
chunk length). -/
structure IterState where
  position : Cursor
  chunk_len : Nat
deriving DecidableEq

/-- Iter::new: refresh the reader and capture its cursor and the chunk
length. -/
def iterNew (s : Settings) (q : EventQueue α) (r : EventReader) :
    Option (EventQueue α × EventReader × IterState) :=
  (update_start_position_and_get_len s q r).map
    (fun x => (x.1, x.2.1, { position := x.2.1.position, chunk_len := x.2.2 }))

/-- Iter::next: emit the slot under the cursor, or at the end of the
captured length try to cross to the successor chunk exactly as the
source does.  Dereferencing an invalid cursor or reading an
uninitialised slot is undefined behaviour in the source and never
happens in well-formed states; those branches return none. -/
def iterNext (q : EventQueue α) (it : IterState) : Option α × IterState :=
  if it.position.index = it.chunk_len then
    match findChunk? q it.position.chunk with
    | none => (none, it)
    | some c =>
      match nextInList q.chunks c.id with
      | none => (none, it)
      | some d =>
        if c.slots.length ≠ it.chunk_len then (none, it)
        else
          let it1 : IterState :=
            { position := { chunk := some d.id, index := 0 }, chunk_len := d.slots.length }
          if it1.chunk_len = 0 then (none, it1)
          else
            match d.slots.get? 0 with
            | none => (none, it1)
            | some v => (some v, { it1 with position := { chunk := some d.id, index := 1 } })
  else
    match findChunk? q it.position.chunk with
    | none => (none, it)
    | some c =>
      match c.slots.get? it.position.index with
      | none => (none, it)
      | some v =>
        (some v, { it with position := { chunk := it.position.chunk, index := it.position.index + 1 } })

/-- Iter::drop: publish the iterator position back to the reader. -/
def iterDrop (s : Settings) (q : EventQueue α) (r : EventReader) (it : IterState) :
    Option (EventQueue α × EventReader) :=
  set_forward_position q r it.position s.AUTO_CLEANUP

/-- Drain the iterator: call next until it yields none, collecting the
emitted values.  fuel bounds the number of next calls. -/
def iterCollect (q : EventQueue α) (it : IterState) : Nat → List α × IterState
  | 0 => ([], it)
  | fuel + 1 =>
    match iterNext q it with
    | (none, it1) => ([], it1)
    | (some v, it1) =>
      let p := iterCollect q it1 fuel
      (v :: p.1, p.2)

/-- Sufficient fuel to drain any iterator over q: one next call per
initialised slot, one per chunk crossing, one for the final none. -/
def collectFuel (q : EventQueue α) : Nat :=
  (q.chunks.map (fun c => c.slots.length)).sum + q.chunks.length + 1

/-- One full traversal: construct an iterator, drain it, drop it. -/
def readerCollect (s : Settings) (q : EventQueue α) (r : EventReader) :
    Option (List α × EventQueue α × EventReader) :=
  match iterNew s q r with
  | none => none
  | some (q1, r1, it) =>
    let p := iterCollect q1 it (collectFuel q1)
    match iterDrop s q1 r1 p.2 with
    | none => none
    | some (q2, r2) => some (p.1, q2, r2)

/-! Well-formedness.  These predicates capture the state invariants of
the source (sections 3 and 8 of the spec); they are proved to hold in
every reachable state below. -/

/-- The chunk id under a reader cursor (reader cursors are never null
in well-formed states; the default 0 is never used there). -/
def posId (r : EventReader) : Nat := r.position.chunk.getD 0

/-- Published length of the chunk with the given id. -/
def lenOfId (q : EventQueue α) (i : Nat) : Nat :=
  ((q.chunks.find? (fun c => c.id == i)).map (fun c => c.slots.length)).getD 0

/-- Strict order on dereferenced cursors: chunk id first, then index. -/
def cursorLtP (a b : Nat × Nat) : Prop := a.1 < b.1 ∨ (a.1 = b.1 ∧ a.2 < b.2)

/-- Reflexive order on dereferenced cursors. -/
def cursorLeP (a b : Nat × Nat) : Prop := a.1 < b.1 ∨ (a.1 = b.1 ∧ a.2 ≤ b.2)

/-- Queue-shape invariant: non-empty chunk list, consecutive ids, the
tail id is the id counter, published lengths within capacity, positive
capacities, one shared epoch, and every non-tail chunk sealed at full
capacity. -/
def QWF (q : EventQueue α) : Prop :=
  q.chunks ≠ [] ∧
  q.chunks.map Chunk.id = List.range' (headId q) q.chunks.length ∧
  lastId q = q.chunk_id_counter ∧
  (∀ c ∈ q.chunks, c.slots.length ≤ c.capacity ∧ 1 ≤ c.capacity ∧ c.epoch = qEpoch q) ∧
  (∀ c ∈ q.chunks.dropLast, c.slots.length = c.capacity)

/-- Reader invariant relative to a queue: the cursor dereferences to a
live chunk, its index is within the published length, the cursor is at
most the end of the tail, and the cached epoch is no newer than the
shared chunk epoch. -/
def RWF (q : EventQueue α) (r : EventReader) : Prop :=
  r.position.chunk = some (posId r) ∧
  posId r ∈ q.chunks.map Chunk.id ∧
  r.position.index ≤ lenOfId q (posId r) ∧
  cursorLeP (posId r, r.position.index) (lastId q, lastLen q) ∧
  r.start_position_epoch ≤ qEpoch q

/-- Counter invariant: read_completely_times of every live chunk is
exactly the number of live readers whose cursor chunk is strictly
beyond it. -/
def rctOk (q : EventQueue α) (rs : List EventReader) : Prop :=
  ∀ c ∈ q.chunks, c.read_completely_times = (rs.countP (fun r => decide (c.id < posId r)) : Int)

/-- Start-position invariant body for a non-null start cursor: when it
is live it lies within the list bounds (so a reader can be forwarded to
it); when it dangles, its chunk was reclaimed from the front, so its id
is strictly below the head id and no reader cursor is ever behind it
(reader cursors point at live chunks). -/
def spOkSome (q : EventQueue α) (i : Nat) : Prop :=
  (i ∈ q.chunks.map Chunk.id →
      q.start_position.index ≤ lenOfId q i ∧
      cursorLeP (i, q.start_position.index) (lastId q, lastLen q)) ∧
  (i ∉ q.chunks.map Chunk.id → i < headId q)

/-- Start-position invariant (trivial for a null start cursor, whose
comparison is undefined behaviour; see the truncate_front claims). -/
def spOk (q : EventQueue α) : Prop :=
  ∀ i : Nat, q.start_position.chunk = some i → spOkSome q i

/-- Whole-system state: the queue and all live readers. -/
structure Sys (α : Type) where
  q : EventQueue α
  rs : List EventReader
deriving DecidableEq

/-- The full system invariant. -/
def Inv (sys : Sys α) : Prop :=
  QWF sys.q ∧
  sys.q.readers = sys.rs.length ∧
  (∀ r ∈ sys.rs, RWF sys.q r) ∧
  rctOk sys.q sys.rs ∧
  spOk sys.q

/-- The freshly constructed system: a new queue, no readers. -/
def initSys (s : Settings) (α : Type) : Sys α :=
  { q := EventQueue.new s α, rs := [] }

/-- One atomic operation of the queue or of one reader.  Each mutating
operation runs under the producer mutex in the source (the read
iterator publishes at drop, modelled inside the collect step), so the
sequential interleaving of whole operations is the reachable-state
semantics.  Reader steps require the operation to complete without a
null or dangling dereference (which would be undefined behaviour). -/
inductive Step (s : Settings) : Sys α → Sys α → Prop
  | pushStep (sys : Sys α) (v : α) :
      Step s sys { q := push s sys.q v, rs := sys.rs }
  | extendStep (sys : Sys α) (vs : List α) :
      Step s sys { q := extend s sys.q vs, rs := sys.rs }
  | subscribeStep (sys : Sys α) (q1 : EventQueue α) (r : EventReader) :
      subscribe sys.q = some (q1, r) →
      Step s sys { q := q1, rs := sys.rs ++ [r] }
  | unsubscribeStep (sys : Sys α) (A B : List EventReader) (r : EventReader) :
      sys.rs = A ++ r :: B →
      Step s sys { q := unsubscribe sys.q r, rs := A ++ B }
  | cleanupStep (sys : Sys α) :
      Step s sys { q := cleanup sys.q, rs := sys.rs }
  | clearStep (sys : Sys α) :
      Step s sys { q := clear s sys.q, rs := sys.rs }
  | truncateStep (sys : Sys α) (k : Nat) :
      Step s sys { q := (truncate_front s sys.q k).2, rs := sys.rs }
  | updatePosStep (sys : Sys α) (A B : List EventReader) (r : EventReader)
      (q1 : EventQueue α) (r1 : EventReader) :
      sys.rs = A ++ r :: B →
      update_position s sys.q r = some (q1, r1) →
      Step s sys { q := q1, rs := A ++ r1 :: B }
  | collectStep (sys : Sys α) (A B : List EventReader) (r : EventReader)
      (out : List α) (q1 : EventQueue α) (r1 : EventReader) :
      sys.rs = A ++ r :: B →
      readerCollect s sys.q r = some (out, q1, r1) →
      Step s sys { q := q1, rs := A ++ r1 :: B }

/-- Reachability from the fresh queue by any sequence of operations. -/
def Reachable (s : Settings) (sys : Sys α) : Prop :=
  Relation.ReflTransGen (Step s) (initSys s α) sys

/-- Values remaining in the queue from a dereferenced cursor onward:
the rest of the cursor chunk followed by all later chunks. -/
def suffixFrom : List (Chunk α) → Nat → Nat → List α
  | [], _, _ => []
  | c :: cs, cid, idx =>
    if c.id = cid then c.slots.drop idx ++ (cs.map Chunk.slots).flatten
    else suffixFrom cs cid idx

/-- All values currently stored in the queue, in push order. -/
def flatten (q : EventQueue α) : List α :=
  (q.chunks.map Chunk.slots).flatten

/-- Producer-side growth relation: the reader-facing fields are
unchanged, the stored values are extended by ws at the tail, the tail
end only advances, and every previously live chunk stays live with its
suffix extended by ws. -/
def Evolves (q q' : EventQueue α) (ws : List α) : Prop :=
  q'.readers = q.readers ∧
  q'.start_position = q.start_position ∧
  qEpoch q' = qEpoch q ∧
  headId q' = headId q ∧
  flatten q' = flatten q ++ ws ∧
  cursorLeP (lastId q, lastLen q) (lastId q', lastLen q') ∧
  (∀ x, x ∈ q.chunks.map Chunk.id → x ∈ q'.chunks.map Chunk.id) ∧
  (∀ x, x ∈ q.chunks.map Chunk.id → lenOfId q x ≤ lenOfId q' x) ∧
  (∀ x j, x ∈ q.chunks.map Chunk.id → j ≤ lenOfId q x →
      suffixFrom q'.chunks x j = suffixFrom q.chunks x j ++ ws)

/-- Subscribe n readers in sequence. -/
def subscribeN (q : EventQueue α) : Nat → Option (EventQueue α × List EventReader)
  | 0 => some (q, [])
  | n + 1 =>
    match subscribeN q n with
    | none => none
    | some (q1, rs) =>
      match subscribe q1 with
      | none => none
      | some (q2, r) => some (q2, rs ++ [r])

/-- Drain every reader once, in sequence, collecting each traversal. -/
def drainAll (s : Settings) (q : EventQueue α) :
    List EventReader → Option (List (List α) × EventQueue α × List EventReader)
  | [] => some ([], q, [])
  | r :: rs =>
    match readerCollect s q r with
    | none => none
    | some (out, q1, r1) =>
      match drainAll s q1 rs with
      | none => none
      | some (outs, q2, rs2) => some (out :: outs, q2, r1 :: rs2)

instance (a b : Nat × Nat) : Decidable (cursorLtP a b) := by
  unfold cursorLtP; exact inferInstance

instance (a b : Nat × Nat) : Decidable (cursorLeP a b) := by
  unfold cursorLeP; exact inferInstance

instance [DecidableEq α] (q : EventQueue α) : Decidable (QWF q) := by
  unfold QWF; exact inferInstance

instance (q : EventQueue α) (r : EventReader) : Decidable (RWF q r) := by
  unfold RWF; exact inferInstance

instance (q : EventQueue α) (rs : List EventReader) : Decidable (rctOk q rs) := by
  unfold rctOk; exact inferInstance

instance (q : EventQueue α) (i : Nat) : Decidable (spOkSome q i) := by
  unfold spOkSome; exact inferInstance

instance (q : EventQueue α) : Decidable (spOk q) :=
  match h : q.start_position.chunk with
  | none => isTrue (by intro i hi; rw [h] at hi; exact absurd hi (by simp))
  | some j =>
    if hj : spOkSome q j then
      isTrue (by
        intro i hi
        rw [h] at hi
        cases hi
        exact hj)
    else
      isFalse (fun hall => hj (hall j h))

instance [DecidableEq α] (sys : Sys α) : Decidable (Inv sys) := by
  unfold Inv; exact inferInstance

/-! Basic list lemmas. -/

theorem updateLast_spec (f : Chunk α → Chunk α) :
    ∀ (l : List (Chunk α)) (c : Chunk α), l.getLast? = some c →
      updateLast f l = l.dropLast ++ [f c]
  | [], c, h => by simp at h
  | [x], c, h => by
    simp only [List.getLast?_singleton, Option.some.injEq] at h
    simp [updateLast, h]
  | x :: y :: r, c, h => by
    rw [List.getLast?_cons_cons] at h
    have ih := updateLast_spec f (y :: r) c h
    simp only [updateLast, ih, List.dropLast_cons₂, List.cons_append]

theorem cleanupChunks_spec (m : Nat) :
    ∀ l : List (Chunk α), ∃ k,
      cleanupChunks m l = l.drop k ∧
      (∀ c ∈ l.take k, c.read_completely_times = (m : Int)) ∧
      (l ≠ [] → k < l.length)
  | [] => ⟨0, by simp [cleanupChunks]⟩
  | [c] => ⟨0, by simp [cleanupChunks]⟩
  | c :: d :: rest => by
    by_cases hc : c.read_completely_times = (m : Int)
    · obtain ⟨k, hk1, hk2, hk3⟩ := cleanupChunks_spec m (d :: rest)
      refine ⟨k + 1, ?_, ?_, ?_⟩
      · simpa [cleanupChunks, hc] using hk1
      · intro x hx
        rw [List.take_succ_cons] at hx
        rcases List.mem_cons.mp hx with hx1 | hx1
        · exact hx1 ▸ hc
        · exact hk2 x hx1
      · intro _
        have := hk3 (by simp)
        simpa using Nat.succ_lt_succ this
    · exact ⟨0, by simp [cleanupChunks, hc], by simp, fun _ => by simp⟩

/-! Lemmas about chunk lists with consecutive ids. -/

theorem ids_cons {c : Chunk α} {tl : List (Chunk α)} {a : Nat}
    (h : (c :: tl).map Chunk.id = List.range' a (c :: tl).length) :
    c.id = a ∧ tl.map Chunk.id = List.range' (a + 1) tl.length := by
  rw [List.map_cons, List.length_cons, List.range'_succ] at h
  exact ⟨by injection h, by injection h⟩

theorem mem_ids_iff {l : List (Chunk α)} {a : Nat}
    (hids : l.map Chunk.id = List.range' a l.length) (x : Nat) :
    x ∈ l.map Chunk.id ↔ a ≤ x ∧ x < a + l.length := by
  rw [hids, List.mem_range'_1]

theorem ids_drop :
    ∀ (l : List (Chunk α)) (a k : Nat),
      l.map Chunk.id = List.range' a l.length → k ≤ l.length →
      (l.drop k).map Chunk.id = List.range' (a + k) (l.length - k) := by
  intro l a k hids hk
  rw [List.map_drop, hids]
  have hsplit : List.range' a l.length = List.range' a k ++ List.range' (a + k) (l.length - k) := by
    rw [List.range'_append_1]
    congr 1
    omega
  rw [hsplit, List.drop_left' (by simp)]

theorem find_id_none {l : List (Chunk α)} {x : Nat} (h : x ∉ l.map Chunk.id) :
    l.find? (fun c => c.id == x) = none := by
  rw [List.find?_eq_none]
  intro c hc hcx
  rw [beq_iff_eq] at hcx
  exact h (hcx ▸ List.mem_map_of_mem Chunk.id hc)

theorem drop_decomp :
    ∀ (l : List (Chunk α)) (a k : Nat),
      l.map Chunk.id = List.range' a l.length → k < l.length →
      ∃ c, l.drop k = c :: l.drop (k + 1) ∧ c.id = a + k ∧
        l.find? (fun x => x.id == a + k) = some c ∧
        nextInList l (a + k) = (l.drop (k + 1)).head?
  | [], a, k, hids, hk => by simp at hk
  | c :: tl, a, k, hids, hk => by
    obtain ⟨hca, htl⟩ := ids_cons hids
    cases k with
    | zero =>
      refine ⟨c, by simp, by simpa using hca, ?_, ?_⟩
      · simp [List.find?_cons, hca]
      · cases tl with
        | nil => simp [nextInList]
        | cons d rest => simp [nextInList, hca]
    | succ k =>
      have hk' : k < tl.length := by simpa using hk
      obtain ⟨x, hx1, hx2, hx3, hx4⟩ := drop_decomp tl (a + 1) k htl hk'
      have hne : c.id ≠ a + (k + 1) := by omega
      refine ⟨x, by simpa using hx1, by omega, ?_, ?_⟩
      · rw [List.find?_cons]
        have : (c.id == a + (k + 1)) = false := by simpa using hne
        rw [this]
        have : a + 1 + k = a + (k + 1) := by omega
        rw [← this]
        exact hx3
      · cases tl with
        | nil => simp at hk'
        | cons d rest =>
          show nextInList (c :: d :: rest) (a + (k + 1)) = _
          rw [nextInList]
          simp only [if_neg hne]
          have : a + 1 + k = a + (k + 1) := by omega
          rw [← this]
          simpa using hx4

theorem dropWhile_ids :
    ∀ (l : List (Chunk α)) (a k : Nat),
      l.map Chunk.id = List.range' a l.length → k < l.length →
      l.dropWhile (fun c => c.id != a + k) = l.drop k
  | [], a, k, hids, hk => by simp at hk
  | c :: tl, a, k, hids, hk => by
    obtain ⟨hca, htl⟩ := ids_cons hids
    cases k with
    | zero =>
      rw [List.dropWhile_cons]
      simp [hca]
    | succ k =>
      have hk' : k < tl.length := by simpa using hk
      rw [List.dropWhile_cons]
      have hne : (c.id != a + (k + 1)) = true := by simp; omega
      rw [hne]
      simp only [List.drop_succ_cons]
      have : a + (k + 1) = a + 1 + k := by omega
      rw [this]
      exact dropWhile_ids tl (a + 1) k htl hk'

theorem takeWhile_ids :
    ∀ (l : List (Chunk α)) (b e : Nat),
      l.map Chunk.id = List.range' b l.length → b ≤ e → e ≤ b + l.length →
      (l.takeWhile (fun c => some e != some c.id)).map Chunk.id = List.range' b (e - b)
  | [], b, e, hids, hbe, heb => by
    have : e = b := by simpa using Nat.le_antisymm (by simpa using heb) hbe
    simp [this]
  | c :: tl, b, e, hids, hbe, heb => by
    obtain ⟨hcb, htl⟩ := ids_cons hids
    rw [List.takeWhile_cons]
    by_cases hbe' : e = b
    · subst hbe'
      simp [hcb]
    · have hlt : b < e := by omega
      have hpred : (some e != some c.id) = true := by simp [hcb]; omega
      rw [if_pos hpred]
      simp only [List.map_cons]
      rw [takeWhile_ids tl (b + 1) e htl (by omega) (by simp at heb ⊢; omega)]
      have : e - b = (e - (b + 1)) + 1 := by omega
      rw [this, List.range'_succ, hcb]

theorem walkIds_spec (l : List (Chunk α)) (a k e : Nat)
    (hids : l.map Chunk.id = List.range' a l.length)
    (hk : k < l.length) (hke : a + k ≤ e) (he : e ≤ a + l.length) :
    walkIds l (a + k) (some e) = List.range' (a + k) (e - (a + k)) := by
  unfold walkIds
  rw [dropWhile_ids l a k hids hk]
  exact takeWhile_ids (l.drop k) (a + k) e
    (by simpa using ids_drop l a k hids (Nat.le_of_lt hk)) hke
    (by simp; omega)

theorem countP_id_lt :
    ∀ (l : List (Chunk α)) (a x : Nat),
      l.map Chunk.id = List.range' a l.length → a ≤ x → x ≤ a + l.length →
      l.countP (fun c => decide (c.id < x)) = x - a
  | [], a, x, hids, hax, hxa => by
    have : x = a := by simpa using Nat.le_antisymm (by simpa using hxa) hax
    simp [this]
  | c :: tl, a, x, hids, hax, hxa => by
    obtain ⟨hca, htl⟩ := ids_cons hids
    by_cases hxe : x = a
    · subst hxe
      rw [Nat.sub_self, List.countP_eq_zero]
      intro d hd
      have hdm : d.id ∈ (c :: tl).map Chunk.id := List.mem_map_of_mem Chunk.id hd
      rw [mem_ids_iff hids] at hdm
      simp
      omega
    · have hlt : a < x := by omega
      rw [List.countP_cons_of_pos _ _ (by simp [hca]; omega)]
      rw [countP_id_lt tl (a + 1) x htl (by omega) (by simp at hxa ⊢; omega)]
      omega

theorem lastId_ids {l : List (Chunk α)} {a : Nat}
    (hids : l.map Chunk.id = List.range' a l.length) (hne : l ≠ []) :
    (l.getLast?.map Chunk.id) = some (a + l.length - 1) := by
  rw [← List.getLast?_map, hids, List.getLast?_range']
  simp [List.length_eq_zero.not.mpr hne]

theorem headId_ids {l : List (Chunk α)} {a : Nat}
    (hids : l.map Chunk.id = List.range' a l.length) (hne : l ≠ []) :
    (l.head?.map Chunk.id) = some a := by
  rw [← List.head?_map, hids, List.head?_range']
  simp [List.length_eq_zero.not.mpr hne]

/-! Transport of the shape predicates through the chunk-list rewrites
the operations perform: pointwise maps (counter and epoch updates),
prefix drops (cleanup) and tail appends (push). -/

theorem getLast?_drop_of_ne_nil {l : List (Chunk α)} {k : Nat} (h : l.drop k ≠ []) :
    (l.drop k).getLast? = l.getLast? := by
  conv_rhs => rw [← List.take_append_drop k l]
  rw [List.getLast?_append]
  cases hl : (l.drop k).getLast? with
  | none => exact absurd (List.getLast?_eq_none_iff.mp hl) h
  | some y => simp

theorem map_chunks_fields {f : Chunk α → Chunk α}
    (hid : ∀ c, (f c).id = c.id) (hslots : ∀ c, (f c).slots = c.slots)
    {q q' : EventQueue α} (hc : q'.chunks = q.chunks.map f) :
    q'.chunks.map Chunk.id = q.chunks.map Chunk.id ∧
    headId q' = headId q ∧ lastId q' = lastId q ∧ lastLen q' = lastLen q ∧
    (∀ x, lenOfId q' x = lenOfId q x) ∧
    (∀ x j, suffixFrom q'.chunks x j = suffixFrom q.chunks x j) := by
  have hidcomp : (Chunk.id ∘ f) = Chunk.id := funext (fun c => hid c)
  have hbeqcomp : ∀ x : Nat, ((fun c : Chunk α => c.id == x) ∘ f) = (fun c => c.id == x) :=
    fun x => funext (fun c => by simp [Function.comp, hid])
  have hslotscomp : ((fun c : Chunk α => c.slots.length) ∘ f) = (fun c => c.slots.length) :=
    funext (fun c => by simp [Function.comp, hslots])
  have hmapid : q'.chunks.map Chunk.id = q.chunks.map Chunk.id := by
    rw [hc, List.map_map, hidcomp]
  have hfind : ∀ x, q'.chunks.find? (fun c => c.id == x) =
      (q.chunks.find? (fun c => c.id == x)).map f := by
    intro x
    rw [hc, List.find?_map, hbeqcomp x]
  refine ⟨hmapid, ?_, ?_, ?_, ?_, ?_⟩
  · unfold headId
    rw [hc, List.head?_map, Option.map_map, hidcomp]
  · unfold lastId
    rw [hc, List.getLast?_map, Option.map_map, hidcomp]
  · unfold lastLen
    rw [hc, List.getLast?_map, Option.map_map, hslotscomp]
  · intro x
    unfold lenOfId
    rw [hfind x]
    cases q.chunks.find? (fun c => c.id == x) with
    | none => rfl
    | some c => simp [hslots]
  · intro x j
    rw [hc]
    clear hc hmapid hfind
    induction q.chunks with
    | nil => rfl
    | cons c cs ih =>
      rw [List.map_cons]
      unfold suffixFrom
      rw [hid c]
      by_cases hcx : c.id = x
      · rw [if_pos hcx, if_pos hcx, hslots c, List.map_map]
        have : List.map (Chunk.slots ∘ f) cs = List.map Chunk.slots cs :=
          List.map_congr_left (fun d _ => hslots d)
        rw [this]
      · rw [if_neg hcx, if_neg hcx]
        exact ih

theorem QWF_map {f : Chunk α → Chunk α}
    (hid : ∀ c, (f c).id = c.id) (hcap : ∀ c, (f c).capacity = c.capacity)
    (hslots : ∀ c, (f c).slots = c.slots)
    (hep : (∀ c, (f c).epoch = c.epoch) ∨ (∃ C, ∀ c, (f c).epoch = C))
    {q q' : EventQueue α} (hc : q'.chunks = q.chunks.map f)
    (hcnt : q'.chunk_id_counter = q.chunk_id_counter)
    (hw : QWF q) : QWF q' := by
  obtain ⟨hne, hids, hlast, hall, hseal⟩ := hw
  obtain ⟨hmapid, hhead, hlastid, hlastlen, hlen, hsuf⟩ := map_chunks_fields hid hslots hc
  have hne' : q'.chunks ≠ [] := by
    rw [hc]
    simpa using hne
  have hlen' : q'.chunks.length = q.chunks.length := by
    rw [hc, List.length_map]
  have hepoch' : ∀ c ∈ q'.chunks, c.epoch = qEpoch q' := by
    intro c hcmem
    rw [hc] at hcmem
    obtain ⟨d, hd, rfl⟩ := List.mem_map.mp hcmem
    have hQ : qEpoch q' = (f d).epoch := by
      rcases hep with hconst | ⟨C, hC⟩
      · unfold qEpoch
        rw [hc, List.head?_map]
        cases hh : q.chunks.head? with
        | none => exact absurd (List.head?_eq_none_iff.mp hh) hne
        | some h0 =>
          have h0mem : h0 ∈ q.chunks := List.mem_of_mem_head? hh
          simp only [Option.map_map, Option.map, Function.comp]
          show ((Option.map (fun c => (f c).epoch) (some h0)).getD 0) = (f d).epoch
          simp [hconst, (hall h0 h0mem).2.2, (hall d hd).2.2]
      · unfold qEpoch
        rw [hc, List.head?_map]
        cases hh : q.chunks.head? with
        | none => exact absurd (List.head?_eq_none_iff.mp hh) hne
        | some h0 =>
          show ((Option.map Chunk.epoch (Option.map f (some h0))).getD 0) = (f d).epoch
          simp [Option.map_map, Function.comp, hC]
    exact hQ.symm
  refine ⟨hne', ?_, ?_, ?_, ?_⟩
  · rw [hmapid, hhead, hlen']
    exact hids
  · rw [hlastid, hcnt]
    exact hlast
  · intro c hcmem
    rw [hc] at hcmem
    obtain ⟨d, hd, rfl⟩ := List.mem_map.mp hcmem
    obtain ⟨h1, h2, _⟩ := hall d hd
    exact ⟨by rw [hslots, hcap]; exact h1, by rw [hcap]; exact h2,
      hepoch' (f d) (by rw [hc]; exact List.mem_map_of_mem f hd)⟩
  · intro c hcmem
    rw [hc, ← List.map_dropLast] at hcmem
    obtain ⟨d, hd, rfl⟩ := List.mem_map.mp hcmem
    rw [hslots, hcap]
    exact hseal d hd

theorem ids_take (l : List (Chunk α)) (a k : Nat)
    (hids : l.map Chunk.id = List.range' a l.length) (hk : k ≤ l.length) :
    (l.take k).map Chunk.id = List.range' a k := by
  rw [List.map_take, hids]
  have hsplit : List.range' a l.length = List.range' a k ++ List.range' (a + k) (l.length - k) := by
    rw [List.range'_append_1]
    congr 1
    omega
  rw [hsplit, List.take_left' (by simp)]

theorem suffixFrom_drop :
    ∀ (l : List (Chunk α)) (a k x j : Nat),
      l.map Chunk.id = List.range' a l.length → k ≤ l.length → a + k ≤ x →
      suffixFrom (l.drop k) x j = suffixFrom l x j
  | l, a, 0, x, j, hids, hk, hx => by simp
  | [], a, k+1, x, j, hids, hk, hx => by simp at hk
  | c :: tl, a, k+1, x, j, hids, hk, hx => by
    obtain ⟨hca, htl⟩ := ids_cons hids
    have hcne : c.id ≠ x := by omega
    rw [List.drop_succ_cons,
      suffixFrom_drop tl (a+1) k x j htl (by simpa using hk) (by omega)]
    simp only [suffixFrom, if_neg hcne]

theorem find_id_drop :
    ∀ (l : List (Chunk α)) (a k x : Nat),
      l.map Chunk.id = List.range' a l.length → k ≤ l.length → a + k ≤ x →
      (l.drop k).find? (fun c => c.id == x) = l.find? (fun c => c.id == x)
  | l, a, 0, x, hids, hk, hx => by simp
  | [], a, k+1, x, hids, hk, hx => by simp at hk
  | c :: tl, a, k+1, x, hids, hk, hx => by
    obtain ⟨hca, htl⟩ := ids_cons hids
    have hcne : (c.id == x) = false := by simp; omega
    rw [List.drop_succ_cons,
      find_id_drop tl (a+1) k x htl (by simpa using hk) (by omega),
      List.find?_cons, hcne]

theorem dropLast_drop_comm (l : List (Chunk α)) (k : Nat) :
    (l.drop k).dropLast = l.dropLast.drop k := by
  rw [List.dropLast_eq_take, List.dropLast_eq_take, List.drop_take]
  congr 1
  simp
  omega

theorem cleanup_pres {q : EventQueue α} {rs : List EventReader}
    (hinv : Inv (Sys.mk q rs)) :
    Inv (Sys.mk (cleanup q) rs) ∧
    (cleanup q).readers = q.readers ∧
    (cleanup q).start_position = q.start_position ∧
    (cleanup q).chunk_id_counter = q.chunk_id_counter ∧
    qEpoch (cleanup q) = qEpoch q ∧
    lastId (cleanup q) = lastId q ∧
    lastLen (cleanup q) = lastLen q ∧
    headId q ≤ headId (cleanup q) ∧
    (∀ x, x ∈ (cleanup q).chunks.map Chunk.id → lenOfId (cleanup q) x = lenOfId q x) ∧
    (∀ x j, x ∈ (cleanup q).chunks.map Chunk.id →
        suffixFrom (cleanup q).chunks x j = suffixFrom q.chunks x j) ∧
    (∀ c ∈ q.chunks, c ∉ (cleanup q).chunks → c.read_completely_times = (q.readers : Int)) ∧
    (∀ x, x ∈ (cleanup q).chunks.map Chunk.id → x ∈ q.chunks.map Chunk.id) := by
  obtain ⟨⟨hne, hids, hlast, hall, hseal⟩, hcount, hrwf, hrct, hsp⟩ := hinv
  dsimp only at hne hids hlast hall hseal hcount hrwf hrct hsp
  obtain ⟨k, hk1, hk2, hk3⟩ := cleanupChunks_spec q.readers q.chunks
  have hkn : k < q.chunks.length := hk3 hne
  have hchunks : (cleanup q).chunks = q.chunks.drop k := by
    simp only [cleanup]
    exact hk1
  have hflds : (cleanup q).readers = q.readers ∧
      (cleanup q).start_position = q.start_position ∧
      (cleanup q).chunk_id_counter = q.chunk_id_counter := ⟨rfl, rfl, rfl⟩
  have hne' : (cleanup q).chunks ≠ [] := by
    rw [hchunks]
    apply List.ne_nil_of_length_pos
    rw [List.length_drop]
    omega
  have hids' : (cleanup q).chunks.map Chunk.id =
      List.range' (headId q + k) (q.chunks.length - k) := by
    rw [hchunks]
    exact ids_drop q.chunks (headId q) k hids (Nat.le_of_lt hkn)
  have hlen' : (cleanup q).chunks.length = q.chunks.length - k := by
    rw [hchunks, List.length_drop]
  have hids2 : (cleanup q).chunks.map Chunk.id =
      List.range' (headId q + k) (cleanup q).chunks.length := by
    rw [hlen']
    exact hids'
  have hheadId' : headId (cleanup q) = headId q + k := by
    have := headId_ids hids2 hne'
    unfold headId
    rw [this]
    rfl
  have hlastId' : lastId (cleanup q) = lastId q := by
    unfold lastId
    rw [hchunks, getLast?_drop_of_ne_nil (hchunks ▸ hne')]
  have hlastLen' : lastLen (cleanup q) = lastLen q := by
    unfold lastLen
    rw [hchunks, getLast?_drop_of_ne_nil (hchunks ▸ hne')]
  have hsub : ∀ c ∈ (cleanup q).chunks, c ∈ q.chunks := by
    intro c hc
    rw [hchunks] at hc
    exact List.drop_subset _ _ hc
  have hqe' : qEpoch (cleanup q) = qEpoch q := by
    cases hh : (cleanup q).chunks.head? with
    | none => exact absurd (List.head?_eq_none_iff.mp hh) hne'
    | some c0 =>
      have hc0 : c0 ∈ (cleanup q).chunks := List.mem_of_mem_head? hh
      have he := (hall c0 (hsub c0 hc0)).2.2
      unfold qEpoch
      rw [hh]
      simpa [qEpoch] using he
  have hmem' : ∀ x, x ∈ (cleanup q).chunks.map Chunk.id ↔
      headId q + k ≤ x ∧ x < headId q + q.chunks.length := by
    intro x
    rw [mem_ids_iff hids2 x, hlen']
    omega
  have hlenOf : ∀ x, x ∈ (cleanup q).chunks.map Chunk.id →
      lenOfId (cleanup q) x = lenOfId q x := by
    intro x hx
    unfold lenOfId
    rw [hchunks, find_id_drop q.chunks (headId q) k x hids (Nat.le_of_lt hkn)
      ((hmem' x).mp hx).1]
  have hsuf : ∀ x j, x ∈ (cleanup q).chunks.map Chunk.id →
      suffixFrom (cleanup q).chunks x j = suffixFrom q.chunks x j := by
    intro x j hx
    rw [hchunks]
    exact suffixFrom_drop q.chunks (headId q) k x j hids (Nat.le_of_lt hkn)
      ((hmem' x).mp hx).1
  have hdropped : ∀ c ∈ q.chunks, c ∉ (cleanup q).chunks →
      c.read_completely_times = (q.readers : Int) := by
    intro c hc hnc
    rw [hchunks] at hnc
    have : c ∈ q.chunks.take k ++ q.chunks.drop k := by
      rw [List.take_append_drop]
      exact hc
    rcases List.mem_append.mp this with h1 | h1
    · exact hk2 c h1
    · exact absurd h1 hnc
  have hposIn : ∀ r ∈ rs, posId r ∈ (cleanup q).chunks.map Chunk.id := by
    intro r hr
    obtain ⟨_, hmem, _, _, _⟩ := hrwf r hr
    rw [mem_ids_iff hids (posId r)] at hmem
    rw [hmem' (posId r)]
    refine ⟨?_, hmem.2⟩
    by_contra hlt
    push_neg at hlt
    have hple : posId r - headId q < k := by omega
    have : posId r ∈ (q.chunks.take k).map Chunk.id := by
      rw [ids_take q.chunks (headId q) k hids (Nat.le_of_lt hkn)]
      rw [List.mem_range'_1]
      omega
    obtain ⟨x, hxtake, hxid⟩ := List.mem_map.mp this
    have hxall : x.read_completely_times = (q.readers : Int) := hk2 x hxtake
    have hxcnt := hrct x (List.take_subset k q.chunks hxtake)
    rw [hxall, hcount] at hxcnt
    have hcntlen : rs.countP (fun r2 => decide (x.id < posId r2)) = rs.length := by
      exact_mod_cast hxcnt.symm
    have := List.countP_eq_length.mp hcntlen r hr
    rw [hxid] at this
    simp at this
  have hidsub : ∀ x, x ∈ (cleanup q).chunks.map Chunk.id → x ∈ q.chunks.map Chunk.id := by
    intro x hx
    obtain ⟨c, hc, rfl⟩ := List.mem_map.mp hx
    exact List.mem_map_of_mem Chunk.id (hsub c hc)
  refine ⟨⟨⟨hne', ?_, ?_, ?_, ?_⟩, ?_, ?_, ?_, ?_⟩,
    hflds.1, hflds.2.1, hflds.2.2, hqe', hlastId', hlastLen', by omega, hlenOf, hsuf, hdropped,
    hidsub⟩
  · rw [hids', hheadId', hlen']
  · rw [hlastId']
    exact hlast
  · intro c hc
    obtain ⟨h1, h2, h3⟩ := hall c (hsub c hc)
    exact ⟨h1, h2, by rw [hqe']; exact h3⟩
  · intro c hc
    rw [hchunks, dropLast_drop_comm] at hc
    exact hseal c (List.drop_subset _ _ hc)
  · rw [hflds.1, hcount]
  · intro r hr
    obtain ⟨h1, h2, h3, h4, h5⟩ := hrwf r hr
    refine ⟨h1, hposIn r hr, ?_, ?_, ?_⟩
    · rw [hlenOf (posId r) (hposIn r hr)]
      exact h3
    · rw [hlastId', hlastLen']
      exact h4
    · rw [hqe']
      exact h5
  · intro c hc
    exact hrct c (hsub c hc)
  · intro i hi
    rw [hflds.2.1] at hi
    obtain ⟨hlive, hdang⟩ := hsp i hi
    constructor
    · intro hmem
      have hmemq : i ∈ q.chunks.map Chunk.id := by
        rw [mem_ids_iff hids i]
        rw [hmem' i] at hmem
        omega
      obtain ⟨hl1, hl2⟩ := hlive hmemq
      refine ⟨?_, ?_⟩
      · rw [hflds.2.1, hlenOf i hmem]
        exact hl1
      · rw [hflds.2.1, hlastId', hlastLen']
        exact hl2
    · intro hmem
      rw [hheadId']
      by_cases hq : i ∈ q.chunks.map Chunk.id
      · rw [mem_ids_iff hids i] at hq
        rw [hmem' i] at hmem
        omega
      · have := hdang hq
        omega

theorem qEpoch_map {f : Chunk α → Chunk α} (hep : ∀ c, (f c).epoch = c.epoch)
    {q q' : EventQueue α} (hc : q'.chunks = q.chunks.map f) :
    qEpoch q' = qEpoch q := by
  have hcomp : (Chunk.epoch ∘ f) = Chunk.epoch := funext hep
  unfold qEpoch
  rw [hc, List.head?_map, Option.map_map, hcomp]

theorem countP_append_cons (A B : List EventReader) (r : EventReader)
    (p : EventReader → Bool) :
    (A ++ r :: B).countP p =
      A.countP p + B.countP p + (if p r then 1 else 0) := by
  rw [List.countP_append, List.countP_cons]
  omega

theorem addRct_range_chunks (δ : Int) (s m : Nat) (q : EventQueue α) :
    (addRct δ (List.range' s m) q).chunks =
      q.chunks.map (fun c =>
        if s ≤ c.id ∧ c.id < s + m then
          { c with read_completely_times := c.read_completely_times + δ }
        else c) := by
  show q.chunks.map _ = _
  apply List.map_congr_left
  intro c _
  by_cases h : s ≤ c.id ∧ c.id < s + m
  · rw [if_pos (List.mem_range'_1.mpr h), if_pos h]
  · rw [if_neg (fun hm => h (List.mem_range'_1.mp hm)), if_neg h]

theorem set_forward_pres {q : EventQueue α} {A B : List EventReader} {r : EventReader}
    (hinv : Inv (Sys.mk q (A ++ r :: B))) (e ix : Nat) (flag : Bool)
    (he : e ∈ q.chunks.map Chunk.id)
    (hix : ix ≤ lenOfId q e)
    (hfwd : cursorLeP (posId r, r.position.index) (e, ix))
    (hend : cursorLeP (e, ix) (lastId q, lastLen q)) :
    ∃ q',
      set_forward_position q r { chunk := some e, index := ix } flag =
        some (q', { r with position := { chunk := some e, index := ix } }) ∧
      Inv (Sys.mk q' (A ++ { r with position := { chunk := some e, index := ix } } :: B)) ∧
      q'.readers = q.readers ∧
      q'.start_position = q.start_position ∧
      q'.chunk_id_counter = q.chunk_id_counter ∧
      qEpoch q' = qEpoch q ∧
      lastId q' = lastId q ∧ lastLen q' = lastLen q ∧ headId q ≤ headId q' ∧
      (∀ x, x ∈ q'.chunks.map Chunk.id → x ∈ q.chunks.map Chunk.id) ∧
      (∀ x, x ∈ q'.chunks.map Chunk.id → lenOfId q' x = lenOfId q x) ∧
      (∀ x j, x ∈ q'.chunks.map Chunk.id →
          suffixFrom q'.chunks x j = suffixFrom q.chunks x j) := by
  obtain ⟨hqwf, hcount, hrwf, hrct, hsp⟩ := hinv
  dsimp only at hqwf hcount hrwf hrct hsp
  have hrmem : r ∈ A ++ r :: B := by simp
  obtain ⟨hr1, hr2, hr3, hr4, hr5⟩ := hrwf r hrmem
  obtain ⟨hne, hids, hlast, hall, hseal⟩ := hqwf
  have hpmem := (mem_ids_iff hids (posId r)).mp hr2
  have hemem := (mem_ids_iff hids e).mp he
  have hpe : posId r ≤ e := by
    rcases hfwd with h | h
    · exact Nat.le_of_lt h
    · exact Nat.le_of_eq h.1
  have hvis : walkIds q.chunks (posId r) (some e) =
      List.range' (posId r) (e - posId r) := by
    have hkp : posId r - headId q < q.chunks.length := by omega
    have hw := walkIds_spec q.chunks (headId q) (posId r - headId q) e hids hkp
      (by omega) (by omega)
    rw [Nat.add_sub_cancel' hpmem.1] at hw
    exact hw
  set r' : EventReader := { r with position := { chunk := some e, index := ix } } with hr'
  have hpr' : posId r' = e := rfl
  set g : Chunk α → Chunk α := fun c =>
    if posId r ≤ c.id ∧ c.id < e then
      { c with read_completely_times := c.read_completely_times + 1 }
    else c with hg
  have hgid : ∀ c, (g c).id = c.id := by
    intro c
    rw [hg]
    dsimp only
    split <;> rfl
  have hgslots : ∀ c, (g c).slots = c.slots := by
    intro c
    rw [hg]
    dsimp only
    split <;> rfl
  have hgcap : ∀ c, (g c).capacity = c.capacity := by
    intro c
    rw [hg]
    dsimp only
    split <;> rfl
  have hgep : ∀ c, (g c).epoch = c.epoch := by
    intro c
    rw [hg]
    dsimp only
    split <;> rfl
  set qb := addRct 1 (List.range' (posId r) (e - posId r)) q with hqb
  have hbchunks : qb.chunks = q.chunks.map g := by
    rw [hqb, addRct_range_chunks]
    apply List.map_congr_left
    intro c _
    rw [hg]
    dsimp only
    by_cases h : posId r ≤ c.id ∧ c.id < e
    · rw [if_pos (by omega), if_pos h]
    · rw [if_neg (by omega), if_neg h]
  have hbflds : qb.readers = q.readers ∧ qb.start_position = q.start_position ∧
      qb.chunk_id_counter = q.chunk_id_counter := ⟨rfl, rfl, rfl⟩
  obtain ⟨hbmapid, hbhead, hblastid, hblastlen, hblen, hbsuf⟩ :=
    map_chunks_fields hgid hgslots hbchunks
  have hbqe : qEpoch qb = qEpoch q := qEpoch_map hgep hbchunks
  have hbqwf : QWF qb :=
    QWF_map hgid hgcap hgslots (Or.inl hgep) hbchunks rfl ⟨hne, hids, hlast, hall, hseal⟩
  have hbinv : Inv (Sys.mk qb (A ++ r' :: B)) := by
    refine ⟨hbqwf, ?_, ?_, ?_, ?_⟩
    · dsimp only
      rw [hbflds.1, hcount]
      simp
    · intro r2 hr2m
      dsimp only at hr2m
      rcases List.mem_append.mp hr2m with h2 | h2
      · obtain ⟨ha1, ha2, ha3, ha4, ha5⟩ := hrwf r2 (List.mem_append_left _ h2)
        refine ⟨ha1, by rw [hbmapid]; exact ha2, ?_, ?_, ?_⟩
        · rw [hblen (posId r2)]
          exact ha3
        · rw [hblastid, hblastlen]
          exact ha4
        · rw [hbqe]
          exact ha5
      · rcases List.mem_cons.mp h2 with h3 | h3
        · subst h3
          refine ⟨rfl, by rw [hbmapid, hpr']; exact he, ?_, ?_, ?_⟩
          · rw [hpr', hblen e]
            exact hix
          · rw [hpr', hblastid, hblastlen]
            exact hend
          · rw [hbqe]
            exact hr5
        · obtain ⟨ha1, ha2, ha3, ha4, ha5⟩ :=
            hrwf r2 (List.mem_append_right _ (List.mem_cons_of_mem _ h3))
          refine ⟨ha1, by rw [hbmapid]; exact ha2, ?_, ?_, ?_⟩
          · rw [hblen (posId r2)]
            exact ha3
          · rw [hblastid, hblastlen]
            exact ha4
          · rw [hbqe]
            exact ha5
    · intro c' hc'
      dsimp only at hc' ⊢
      rw [hbchunks] at hc'
      obtain ⟨c, hc, rfl⟩ := List.mem_map.mp hc'
      have hcnt := hrct c hc
      have hcm := (mem_ids_iff hids c.id).mp (List.mem_map_of_mem Chunk.id hc)
      rw [countP_append_cons] at hcnt
      have hwid : (g c).id = c.id := hgid c
      rw [hwid, countP_append_cons]
      by_cases hcond : posId r ≤ c.id ∧ c.id < e
      · have hgc : g c = { c with read_completely_times := c.read_completely_times + 1 } := by
          rw [hg]
          dsimp only
          rw [if_pos hcond]
        rw [hgc]
        dsimp only
        have hc1 : (decide (c.id < posId r') = true) := by
          simp only [decide_eq_true_eq, hpr']
          omega
        have hc2 : ¬ (decide (c.id < posId r) = true) := by
          simp only [decide_eq_true_eq]
          omega
        rw [if_pos hc1]
        rw [if_neg hc2] at hcnt
        push_cast at hcnt ⊢
        omega
      · have hgc : g c = c := by
          rw [hg]
          dsimp only
          rw [if_neg hcond]
        rw [hgc]
        by_cases hlt : c.id < posId r
        · have hc1 : (decide (c.id < posId r') = true) := by
            simp only [decide_eq_true_eq, hpr']
            omega
          have hc2 : (decide (c.id < posId r) = true) := by
            simp only [decide_eq_true_eq]
            omega
          rw [if_pos hc1]
          rw [if_pos hc2] at hcnt
          exact hcnt
        · have hc1 : ¬ (decide (c.id < posId r') = true) := by
            simp only [decide_eq_true_eq, hpr']
            omega
          have hc2 : ¬ (decide (c.id < posId r) = true) := by
            simp only [decide_eq_true_eq]
            omega
          rw [if_neg hc1]
          rw [if_neg hc2] at hcnt
          exact hcnt
    · intro i hi
      dsimp only at hi ⊢
      rw [hbflds.2.1] at hi
      obtain ⟨hlive, hdang⟩ := hsp i hi
      constructor
      · intro hmem
        rw [hbmapid] at hmem
        obtain ⟨hl1, hl2⟩ := hlive hmem
        refine ⟨?_, ?_⟩
        · rw [hbflds.2.1, hblen i]
          exact hl1
        · rw [hbflds.2.1, hblastid, hblastlen]
          exact hl2
      · intro hmem
        rw [hbmapid] at hmem
        rw [hbhead]
        exact hdang hmem
  have hbsub : ∀ x, x ∈ qb.chunks.map Chunk.id → x ∈ q.chunks.map Chunk.id := by
    intro x hx
    rw [hbmapid] at hx
    exact hx
  have hstep : ∃ nc : Bool,
      set_forward_position q r { chunk := some e, index := ix } flag =
        some ((if nc then cleanup qb else qb), r') := by
    refine ⟨flag && (List.range' (posId r) (e - posId r)).any
      (fun i => decide (((q.readers - 1 : Nat) : Int) ≤ rctOfId q i)), ?_⟩
    rw [hqb]
    unfold set_forward_position
    rw [if_neg (by simp)]
    simp only [hr1, hvis]
  obtain ⟨nc, hnc⟩ := hstep
  cases nc with
  | false =>
    refine ⟨qb, by simpa using hnc, hbinv, hbflds.1, hbflds.2.1, hbflds.2.2, hbqe,
      hblastid, hblastlen, by rw [hbhead], hbsub, fun x _ => hblen x,
      fun x j hx => hbsuf x j⟩
  | true =>
    obtain ⟨hinv2, hf1, hf2, hf3, hf4, hf5, hf6, hf7, hf8, hf9, _, hf10⟩ := cleanup_pres hbinv
    refine ⟨cleanup qb, by simpa using hnc, hinv2, ?_, ?_, ?_, ?_, ?_, ?_, ?_, ?_, ?_, ?_⟩
    · rw [hf1, hbflds.1]
    · rw [hf2, hbflds.2.1]
    · rw [hf3, hbflds.2.2]
    · rw [hf4, hbqe]
    · rw [hf5, hblastid]
    · rw [hf6, hblastlen]
    · rw [hbhead] at hf7
      omega
    · intro x hx
      exact hbsub x (hf10 x hx)
    · intro x hx
      rw [hf8 x hx, hblen x]
    · intro x j hx
      rw [hf9 x j hx, hbsuf x j]

theorem find_id_mem {l : List (Chunk α)} {x : Nat} (h : x ∈ l.map Chunk.id) :
    ∃ c, l.find? (fun c => c.id == x) = some c ∧ c.id = x ∧ c ∈ l := by
  induction l with
  | nil => simp at h
  | cons c tl ih =>
    by_cases hcx : c.id = x
    · exact ⟨c, List.find?_cons_of_pos _ (by simpa using hcx), hcx, by simp⟩
    · have : x ∈ tl.map Chunk.id := by
        rcases List.mem_map.mp h with ⟨d, hd, hdx⟩
        rcases List.mem_cons.mp hd with h1 | h1
        · exact absurd (h1 ▸ hdx) hcx
        · exact hdx ▸ List.mem_map_of_mem Chunk.id h1
      obtain ⟨d, hd1, hd2, hd3⟩ := ih this
      exact ⟨d, by rw [List.find?_cons_of_neg _ (by simpa using hcx)]; exact hd1, hd2,
        List.mem_cons_of_mem _ hd3⟩

theorem lenOfId_eq_of_find {q : EventQueue α} {x : Nat} {c : Chunk α}
    (h : q.chunks.find? (fun c => c.id == x) = some c) :
    lenOfId q x = c.slots.length := by
  unfold lenOfId
  rw [h]
  rfl

/-- Inversion of the reader refresh: whenever
update_start_position_and_get_len succeeds, the invariant carries over,
the queue is only reduced (counters bumped, a fully-read prefix
possibly reclaimed), the reader has moved forward to at most the start
position, its cached epoch agrees with the shared epoch, and the
returned length is the published length of its cursor chunk. -/
theorem update_len_pres {q q1 : EventQueue α} {A B : List EventReader}
    {r r1 : EventReader} {len : Nat} (s : Settings)
    (hinv : Inv (Sys.mk q (A ++ r :: B)))
    (hsome : update_start_position_and_get_len s q r = some (q1, r1, len)) :
    Inv (Sys.mk q1 (A ++ r1 :: B)) ∧
    q1.readers = q.readers ∧
    q1.start_position = q.start_position ∧
    q1.chunk_id_counter = q.chunk_id_counter ∧
    qEpoch q1 = qEpoch q ∧
    lastId q1 = lastId q ∧ lastLen q1 = lastLen q ∧ headId q ≤ headId q1 ∧
    (∀ x, x ∈ q1.chunks.map Chunk.id → x ∈ q.chunks.map Chunk.id) ∧
    (∀ x, x ∈ q1.chunks.map Chunk.id → lenOfId q1 x = lenOfId q x) ∧
    (∀ x j, x ∈ q1.chunks.map Chunk.id →
        suffixFrom q1.chunks x j = suffixFrom q.chunks x j) ∧
    cursorLeP (posId r, r.position.index) (posId r1, r1.position.index) ∧
    r1.start_position_epoch = qEpoch q ∧
    len = lenOfId q1 (posId r1) ∧
    (r.start_position_epoch = qEpoch q → q1 = q ∧ r1 = r ∧ len = lenOfId q (posId r)) ∧
    (r.start_position_epoch ≠ qEpoch q → ∀ e ix,
        q.start_position = Cursor.mk (some e) ix →
        cursorLeP (posId r, r.position.index) (e, ix) →
        posId r1 = e ∧ r1.position.index = ix) := by
  have hinv0 := hinv
  obtain ⟨hqwf, hcount, hrwf, hrct, hsp⟩ := hinv
  dsimp only at hqwf hcount hrwf hrct hsp
  have hrmem : r ∈ A ++ r :: B := by simp
  obtain ⟨hr1, hr2, hr3, hr4, hr5⟩ := hrwf r hrmem
  obtain ⟨c, hfind, hcid, hcmem⟩ := find_id_mem hr2
  have hclen : lenOfId q (posId r) = c.slots.length := lenOfId_eq_of_find hfind
  have hcep : c.epoch = qEpoch q := (hqwf.2.2.2.1 c hcmem).2.2
  have hfind' : findChunk? q r.position.chunk = some c := by
    unfold findChunk?
    rw [hr1]
    exact hfind
  rw [update_start_position_and_get_len, hfind'] at hsome
  dsimp only at hsome
  by_cases hfast : c.epoch = r.start_position_epoch
  · rw [if_neg (by simp [hfast])] at hsome
    obtain ⟨h1, h2, h3⟩ : q = q1 ∧ r = r1 ∧ c.slots.length = len := by
      simpa using hsome
    subst h1
    subst h2
    subst h3
    refine ⟨hinv0, rfl, rfl, rfl, rfl, rfl, rfl, Nat.le_refl _, fun x hx => hx,
      fun x _ => rfl, fun x j _ => rfl, Or.inr ⟨rfl, Nat.le_refl _⟩, by rw [← hfast, hcep],
      hclen.symm, fun _ => ⟨rfl, rfl, hclen.symm⟩,
      fun hne => absurd (hfast.symm.trans hcep) hne⟩
  · rw [if_pos (by simp [hfast])] at hsome
    set r2 : EventReader := { r with start_position_epoch := c.epoch } with hr2def
    have hinv2 : Inv (Sys.mk q (A ++ r2 :: B)) := by
      refine ⟨hqwf, by simpa using hcount, ?_, ?_, hsp⟩
      · intro r4 hr4m
        dsimp only at hr4m
        rcases List.mem_append.mp hr4m with h3 | h3
        · exact hrwf r4 (List.mem_append_left _ h3)
        · rcases List.mem_cons.mp h3 with h4 | h4
          · subst h4
            exact ⟨hr1, hr2, hr3, hr4, le_of_eq hcep⟩
          · exact hrwf r4 (List.mem_append_right _ (List.mem_cons_of_mem _ h4))
      · intro ch hch
        have := hrct ch hch
        rw [this, countP_append_cons, countP_append_cons]
        rfl
    rw [do_update_start_position_and_get_len] at hsome
    cases hspc : q.start_position.chunk with
    | none =>
      have hltnone : cursorLt? r2.position q.start_position = none := by
        unfold cursorLt?
        have hpos2 : r2.position = r.position := rfl
        rw [hpos2, hr1, hspc]
      rw [hltnone] at hsome
      simp at hsome
    | some spid =>
      obtain ⟨hlive, hdang⟩ := hsp spid hspc
      have hlt? : cursorLt? r2.position q.start_position =
          some (decide (posId r < spid ∨
            (posId r = spid ∧ r.position.index < q.start_position.index))) := by
        unfold cursorLt?
        have hpos2 : r2.position = r.position := rfl
        rw [hpos2, hr1, hspc]
      rw [hlt?] at hsome
      by_cases hmove : posId r < spid ∨
          (posId r = spid ∧ r.position.index < q.start_position.index)
      · have hspmem : spid ∈ q.chunks.map Chunk.id := by
          by_contra hno
          have := hdang hno
          have hpm := (mem_ids_iff hqwf.2.1 (posId r)).mp hr2
          omega
        obtain ⟨hsp1, hsp2⟩ := hlive hspmem
        have hfwd2 : cursorLeP (posId r2, r2.position.index) (spid, q.start_position.index) := by
          have hpid2 : posId r2 = posId r := rfl
          rw [hpid2]
          rcases hmove with h | h
          · exact Or.inl h
          · exact Or.inr ⟨h.1, Nat.le_of_lt h.2⟩
        obtain ⟨q', hq'eq, hq'inv, hq'r, hq'sp, hq'cnt, hq'qe, hq'li, hq'll, hq'hd,
          hq'sub, hq'len, hq'suf⟩ :=
          set_forward_pres hinv2 spid q.start_position.index s.AUTO_CLEANUP hspmem hsp1 hfwd2 hsp2
        have hspeta : ({ chunk := some spid, index := q.start_position.index } : Cursor) =
            q.start_position := by
          cases hq : q.start_position with
          | mk ch ix =>
            rw [hq] at hspc
            dsimp only at hspc
            rw [hspc]
        rw [decide_eq_true_eq.mpr hmove] at hsome
        dsimp only at hsome
        rw [hspeta] at hq'eq
        rw [hq'eq] at hsome
        simp only [reduceIte] at hsome
        have hinv3 : Inv (Sys.mk q' (A ++
            ({ position := q.start_position, start_position_epoch := c.epoch } : EventReader) :: B)) := by
          have hh := hq'inv
          rw [hspeta] at hh
          exact hh
        have hpidr :
            posId ({ position := q.start_position, start_position_epoch := c.epoch } : EventReader) = spid := by
          unfold posId
          dsimp only
          rw [hspc]
          rfl
        have hr3mem : spid ∈ q'.chunks.map Chunk.id := by
          have hrwf3 := hinv3.2.2.1
            ({ position := q.start_position, start_position_epoch := c.epoch } : EventReader)
            (by simp)
          have hmm := hrwf3.2.1
          rwa [hpidr] at hmm
        obtain ⟨c', hfindc', hc'id, hc'mem⟩ := find_id_mem hr3mem
        have hfc : findChunk? q' q.start_position.chunk = some c' := by
          unfold findChunk?
          rw [hspc]
          exact hfindc'
        rw [hfc] at hsome
        dsimp only at hsome
        obtain ⟨h1, h2, h3⟩ : q' = q1 ∧
            ({ position := q.start_position, start_position_epoch := c.epoch } : EventReader) = r1 ∧
            c'.slots.length = len := by
          simpa using hsome
        subst h1
        subst h3
        have hpid1 : posId r1 = spid := by
          rw [← h2]
          exact hpidr
        refine ⟨by rw [← h2]; exact hinv3, hq'r, hq'sp, hq'cnt, hq'qe, hq'li, hq'll, hq'hd,
          hq'sub, hq'len, hq'suf, ?_, ?_, ?_, ?_, ?_⟩
        · rw [hpid1]
          have hidx : r1.position.index = q.start_position.index := by
            rw [← h2]
          rcases hmove with h | h
          · exact Or.inl h
          · exact Or.inr ⟨h.1, by rw [hidx]; exact Nat.le_of_lt h.2⟩
        · rw [← h2]
          exact hcep
        · rw [hpid1]
          exact (lenOfId_eq_of_find hfindc').symm
        · intro hep
          exact absurd (hcep.trans hep.symm) hfast
        · intro hne e ix hspe hle
          have hspc2 := hspc
          rw [hspe] at hspc2
          dsimp only at hspc2
          injection hspc2 with hee
          constructor
          · rw [hpid1, ← hee]
          · rw [← h2]
            dsimp only
            rw [hspe]
      · rw [decide_eq_false hmove] at hsome
        dsimp only at hsome
        rw [if_neg (by simp)] at hsome
        dsimp only at hsome
        rw [hfind'] at hsome
        dsimp only at hsome
        obtain ⟨h1, h2, h3⟩ : q = q1 ∧ r2 = r1 ∧ c.slots.length = len := by
          simpa using hsome
        subst h1
        subst h2
        subst h3
        refine ⟨hinv2, rfl, rfl, rfl, rfl, rfl, rfl, Nat.le_refl _, fun x hx => hx,
          fun x _ => rfl, fun x j _ => rfl, Or.inr ⟨rfl, Nat.le_refl _⟩, hcep,
          hclen.symm, ?_, ?_⟩
        · intro hep
          exact absurd (hcep.trans hep.symm) hfast
        · intro hne e ix hspe hle
          have hspc2 := hspc
          rw [hspe] at hspc2
          dsimp only at hspc2
          injection hspc2 with hee
          have hix : q.start_position.index = ix := by rw [hspe]
          rcases hle with hh | hh
          · exact absurd (hee ▸ hh) (fun hlt => hmove (Or.inl hlt))
          · refine ⟨hh.1, ?_⟩
            by_cases hii : r.position.index = ix
            · exact hii
            · have hlt : r.position.index < ix := Nat.lt_of_le_of_ne hh.2 hii
              exact absurd (Or.inr ⟨hh.1.trans hee,
                (by rw [hix]; exact hlt : r.position.index < q.start_position.index)⟩) hmove

theorem mem_dropLast_of_suffix {l : List (Chunk α)} {m : Nat} {d : Chunk α}
    {rest : List (Chunk α)} (h : l.drop m = d :: rest) (hr : rest ≠ []) :
    d ∈ l.dropLast := by
  have h1 : (l.drop m).dropLast = l.dropLast.drop m := dropLast_drop_comm l m
  rw [h] at h1
  have hd : d ∈ (d :: rest).dropLast := by
    cases rest with
    | nil => exact absurd rfl hr
    | cons e es => simp [List.dropLast]
  rw [h1] at hd
  exact List.drop_subset _ _ hd

theorem getLast_of_drop {q : EventQueue α} {k : Nat} {l' : List (Chunk α)}
    (h : q.chunks.drop k = l') (hne : l' ≠ []) :
    q.chunks.getLast? = l'.getLast? := by
  rw [← h, getLast?_drop_of_ne_nil (h ▸ hne)]

theorem drop_succ_of_drop {l : List (Chunk α)} {k : Nat} {c : Chunk α}
    {rest : List (Chunk α)} (h : l.drop k = c :: rest) :
    l.drop (k + 1) = rest := by
  have : l.drop (k + 1) = (l.drop k).drop 1 := by
    rw [List.drop_drop]
  rw [this, h]
  rfl

/-- Draining an iterator over a quiescent well-formed queue returns
exactly the values from its cursor to the end of the queue, and leaves
the iterator parked at the end of the tail chunk. -/
theorem iterCollect_run (q : EventQueue α) (hqwf : QWF q) :
    ∀ (fuel k idx : Nat) (c : Chunk α) (rest : List (Chunk α)),
      q.chunks.drop k = c :: rest → idx ≤ c.slots.length →
      (c.slots.length - idx) + ((rest.map Chunk.slots).flatten).length + rest.length + 1 ≤ fuel →
      iterCollect q (IterState.mk (Cursor.mk (some c.id) idx) c.slots.length) fuel =
        (c.slots.drop idx ++ (rest.map Chunk.slots).flatten,
         IterState.mk (Cursor.mk (some (lastId q)) (lastLen q)) (lastLen q)) := by
  intro fuel
  induction fuel with
  | zero =>
    intro k idx c rest hdrop hidx hfuel
    omega
  | succ fuel ih =>
    intro k idx c rest hdrop hidx hfuel
    obtain ⟨hne, hids, hlast, hall, hseal⟩ := hqwf
    have hkn : k < q.chunks.length := by
      by_contra hk
      push_neg at hk
      rw [List.drop_eq_nil_of_le hk] at hdrop
      simp at hdrop
    obtain ⟨c', hdrop', hc'id, hfind, hnext⟩ :=
      drop_decomp q.chunks (headId q) k hids hkn
    have hcc : c' = c := by
      rw [hdrop] at hdrop'
      injection hdrop' with h1 h2
      exact h1.symm
    rw [hcc] at hc'id hfind
    have hrest : q.chunks.drop (k + 1) = rest := drop_succ_of_drop hdrop
    rw [← hc'id] at hfind hnext
    have hfindC : findChunk? q (some c.id) = some c := by
      unfold findChunk?
      simpa using hfind
    by_cases hix : idx = c.slots.length
    · subst hix
      rw [iterCollect]
      have hnx : nextInList q.chunks c.id = rest.head? := by
        rw [hnext, hrest]
      cases hrest' : rest with
      | nil =>
        have hlastc : q.chunks.getLast? = some c := by
          rw [getLast_of_drop hdrop (by simp)]
          rw [hrest']
          rfl
        have hstep : iterNext q (IterState.mk (Cursor.mk (some c.id) c.slots.length) c.slots.length) =
            (none, IterState.mk (Cursor.mk (some c.id) c.slots.length) c.slots.length) := by
          rw [iterNext, if_pos rfl, hfindC]
          dsimp only
          rw [hnx, hrest']
          rfl
        rw [hstep]
        dsimp only
        have hli : lastId q = c.id := by
          unfold lastId
          rw [hlastc]
          rfl
        have hll : lastLen q = c.slots.length := by
          unfold lastLen
          rw [hlastc]
          rfl
        rw [hli, hll]
        simp [hrest']
      | cons d rest' =>
        have hdmem : d ∈ q.chunks := by
          have : d ∈ q.chunks.drop k := by
            rw [hdrop, hrest']
            simp
          exact List.drop_subset _ _ this
        by_cases hdz : d.slots.length = 0
        · have hrest'nil : rest' = [] := by
            by_contra hr'
            have hdl : d ∈ q.chunks.dropLast := by
              apply @mem_dropLast_of_suffix α q.chunks (k + 1) d rest'
              · rw [hrest, hrest']
              · exact hr'
            have := hseal d hdl
            have hcap := (hall d hdmem).2.1
            omega
          have hlastd : q.chunks.getLast? = some d := by
            rw [getLast_of_drop hdrop (by simp)]
            rw [hrest', hrest'nil]
            rfl
          have hli : lastId q = d.id := by
            unfold lastId
            rw [hlastd]
            rfl
          have hll : lastLen q = 0 := by
            unfold lastLen
            rw [hlastd]
            simp [hdz]
          have hstep : iterNext q (IterState.mk (Cursor.mk (some c.id) c.slots.length) c.slots.length) =
              (none, IterState.mk (Cursor.mk (some d.id) 0) d.slots.length) := by
            rw [iterNext, if_pos rfl, hfindC]
            dsimp only
            rw [hnx, hrest']
            simp [hdz]
          rw [hstep]
          dsimp only
          rw [hli, hll]
          simp [hrest', hrest'nil, hdz, List.length_eq_zero.mp hdz]
        · have hd0 : ∃ v, d.slots.get? 0 = some v := by
            cases hv : d.slots.get? 0 with
            | none =>
              rw [List.get?_eq_none] at hv
              omega
            | some v => exact ⟨v, rfl⟩
          obtain ⟨v, hv⟩ := hd0
          have hv2 : d.slots[0]? = some v := by
            rw [← List.get?_eq_getElem?]
            exact hv
          have hstep : iterNext q (IterState.mk (Cursor.mk (some c.id) c.slots.length) c.slots.length) =
              (some v, IterState.mk (Cursor.mk (some d.id) 1) d.slots.length) := by
            rw [iterNext, if_pos rfl, hfindC]
            dsimp only
            rw [hnx, hrest']
            simp [hdz, hv2]
          rw [hstep]
          dsimp only
          have hrec := ih (k + 1) 1 d rest' (by rw [hrest, hrest']) (by omega) (by
            rw [hrest'] at hfuel
            simp only [List.map_cons, List.flatten_cons, List.length_append,
              List.length_cons] at hfuel
            omega)
          rw [hrec]
          have hdslots : d.slots = v :: d.slots.drop 1 := by
            have := List.get?_eq_some.mp hv
            obtain ⟨hlt, hget⟩ := this
            cases hds : d.slots with
            | nil => simp [hds] at hv
            | cons w ws =>
              rw [hds] at hv
              simp at hv
              rw [hv]
              rfl
          dsimp only
          rw [List.drop_eq_nil_of_le (Nat.le_refl c.slots.length), List.map_cons,
            List.flatten_cons, List.nil_append]
          conv_rhs => rw [hdslots]
          rfl
    · have hlt : idx < c.slots.length := by omega
      have hv : ∃ v, c.slots.get? idx = some v := by
        cases hv : c.slots.get? idx with
        | none =>
          rw [List.get?_eq_none] at hv
          omega
        | some v => exact ⟨v, rfl⟩
      obtain ⟨v, hv⟩ := hv
      rw [iterCollect]
      have hstep : iterNext q (IterState.mk (Cursor.mk (some c.id) idx) c.slots.length) =
          (some v, IterState.mk (Cursor.mk (some c.id) (idx + 1)) c.slots.length) := by
        rw [iterNext, if_neg (by dsimp only; omega), hfindC]
        dsimp only
        rw [hv]
      rw [hstep]
      dsimp only
      have hrec := ih k (idx + 1) c rest hdrop (by omega) (by omega)
      rw [hrec]
      have hcs : c.slots.drop idx = v :: c.slots.drop (idx + 1) := by
        have := List.drop_eq_getElem_cons hlt
        rw [this]
        congr 1
        have := List.get?_eq_some.mp hv
        obtain ⟨hlt2, hget⟩ := this
        rw [← hget]
        simp
      rw [hcs]
      rfl

theorem suffixFrom_eq_drop {q : EventQueue α} (hqwf : QWF q) {k idx : Nat}
    {c : Chunk α} {rest : List (Chunk α)} (hdrop : q.chunks.drop k = c :: rest) :
    suffixFrom q.chunks c.id idx = c.slots.drop idx ++ (rest.map Chunk.slots).flatten := by
  obtain ⟨hne, hids, hlast, hall, hseal⟩ := hqwf
  have hkn : k < q.chunks.length := by
    by_contra hk
    push_neg at hk
    rw [List.drop_eq_nil_of_le hk] at hdrop
    simp at hdrop
  obtain ⟨c', hdrop', hc'id, hfind, hnext⟩ := drop_decomp q.chunks (headId q) k hids hkn
  have hcc : c' = c := by
    rw [hdrop] at hdrop'
    injection hdrop' with h1 h2
    exact h1.symm
  rw [hcc] at hc'id
  have hsfx := suffixFrom_drop q.chunks (headId q) k c.id idx hids (Nat.le_of_lt hkn)
    (by omega)
  rw [← hsfx, hdrop]
  simp [suffixFrom]

theorem last_chunk_facts {q : EventQueue α} (hqwf : QWF q) :
    lastId q ∈ q.chunks.map Chunk.id ∧
    lenOfId q (lastId q) = lastLen q ∧
    nextInList q.chunks (lastId q) = none ∧
    suffixFrom q.chunks (lastId q) (lastLen q) = [] ∧
    q.chunks.find? (fun c => c.id == lastId q) = some (q.chunks.getLast hqwf.1) := by
  obtain ⟨hne, hids, hlast, hall, hseal⟩ := hqwf
  have hn : 0 < q.chunks.length := List.length_pos.mpr hne
  have hli : lastId q = headId q + q.chunks.length - 1 := by
    have := lastId_ids hids hne
    unfold lastId
    rw [this]
    rfl
  obtain ⟨c, hdrop, hcid, hfind, hnext⟩ :=
    drop_decomp q.chunks (headId q) (q.chunks.length - 1) hids (by omega)
  have hdropn : q.chunks.drop (q.chunks.length - 1 + 1) = [] :=
    List.drop_eq_nil_of_le (by omega)
  rw [hdropn] at hdrop hnext
  have hcidlast : c.id = lastId q := by omega
  have hgl : q.chunks.getLast? = some c := by
    rw [getLast_of_drop hdrop (by simp)]
    rfl
  have hglast : q.chunks.getLast hne = c := by
    have := List.getLast?_eq_getLast q.chunks hne
    rw [hgl] at this
    injection this with h1
    exact h1.symm
  have hll : lastLen q = c.slots.length := by
    unfold lastLen
    rw [hgl]
    rfl
  have hfind' : q.chunks.find? (fun x => x.id == lastId q) = some c := by
    rw [← hcidlast]
    have heq : (headId q + (q.chunks.length - 1)) = c.id := by omega
    rw [← heq]
    exact hfind
  refine ⟨?_, ?_, ?_, ?_, ?_⟩
  · rw [← hcidlast]
    exact List.mem_map_of_mem Chunk.id (List.drop_subset _ _ (by rw [hdrop]; simp))
  · rw [lenOfId_eq_of_find hfind', hll]
  · rw [← hcidlast]
    have heq : (headId q + (q.chunks.length - 1)) = c.id := by omega
    rw [← heq]
    rw [hnext]
    rfl
  · rw [← hcidlast]
    rw [suffixFrom_eq_drop ⟨hne, hids, hlast, hall, hseal⟩ hdrop]
    rw [hll]
    simp
  · rw [hglast]
    exact hfind'

theorem iterNext_at_end {q : EventQueue α} (hqwf : QWF q) :
    iterNext q (IterState.mk (Cursor.mk (some (lastId q)) (lastLen q)) (lastLen q)) =
      (none, IterState.mk (Cursor.mk (some (lastId q)) (lastLen q)) (lastLen q)) := by
  obtain ⟨hmem, hlen, hnext, hsfx, hfind⟩ := last_chunk_facts hqwf
  have hfindC : findChunk? q (some (lastId q)) = some (q.chunks.getLast hqwf.1) := by
    unfold findChunk?
    simpa using hfind
  rw [iterNext, if_pos rfl, hfindC]
  dsimp only
  have hcid : (q.chunks.getLast hqwf.1).id = lastId q := by
    have := List.find?_some hfind
    simpa using this
  rw [hcid, hnext]

theorem update_len_fast {q : EventQueue α} {A B : List EventReader} {r : EventReader}
    (hinv : Inv (Sys.mk q (A ++ r :: B)))
    (hep : r.start_position_epoch = qEpoch q) (s : Settings) :
    update_start_position_and_get_len s q r = some (q, r, lenOfId q (posId r)) := by
  obtain ⟨hqwf, hcount, hrwf, hrct, hsp⟩ := hinv
  dsimp only at hqwf hrwf
  obtain ⟨hr1, hr2, hr3, hr4, hr5⟩ := hrwf r (by simp)
  obtain ⟨c, hfind, hcid, hcmem⟩ := find_id_mem hr2
  have hcep : c.epoch = qEpoch q := (hqwf.2.2.2.1 c hcmem).2.2
  have hfind' : findChunk? q r.position.chunk = some c := by
    unfold findChunk?
    rw [hr1]
    exact hfind
  rw [update_start_position_and_get_len, hfind']
  dsimp only
  rw [if_neg (by simp [hcep, hep])]
  rw [lenOfId_eq_of_find hfind]

theorem update_len_total {q : EventQueue α} {A B : List EventReader} {r : EventReader}
    (hinv : Inv (Sys.mk q (A ++ r :: B))) (s : Settings)
    (hspc : r.start_position_epoch ≠ qEpoch q → q.start_position.chunk ≠ none) :
    ∃ x, update_start_position_and_get_len s q r = some x := by
  by_cases hep : r.start_position_epoch = qEpoch q
  · exact ⟨(q, r, lenOfId q (posId r)), update_len_fast hinv hep s⟩
  · have hinv0 := hinv
    obtain ⟨hqwf, hcount, hrwf, hrct, hsp⟩ := hinv
    dsimp only at hqwf hcount hrwf hrct hsp
    obtain ⟨hr1, hr2, hr3, hr4, hr5⟩ := hrwf r (by simp)
    obtain ⟨c, hfind, hcid, hcmem⟩ := find_id_mem hr2
    have hcep : c.epoch = qEpoch q := (hqwf.2.2.2.1 c hcmem).2.2
    have hfind' : findChunk? q r.position.chunk = some c := by
      unfold findChunk?
      rw [hr1]
      exact hfind
    have hbne : (c.epoch != r.start_position_epoch) = true := by
      rw [hcep]
      simpa using fun hh => hep hh.symm
    set r2 : EventReader := { r with start_position_epoch := c.epoch } with hr2def
    have hinv2 : Inv (Sys.mk q (A ++ r2 :: B)) := by
      refine ⟨hqwf, by simpa using hcount, ?_, ?_, hsp⟩
      · intro r4 hr4m
        dsimp only at hr4m
        rcases List.mem_append.mp hr4m with h3 | h3
        · exact hrwf r4 (List.mem_append_left _ h3)
        · rcases List.mem_cons.mp h3 with h4 | h4
          · subst h4
            exact ⟨hr1, hr2, hr3, hr4, le_of_eq hcep⟩
          · exact hrwf r4 (List.mem_append_right _ (List.mem_cons_of_mem _ h4))
      · intro ch hch
        have := hrct ch hch
        rw [this, countP_append_cons, countP_append_cons]
        rfl
    rw [update_start_position_and_get_len, hfind']
    dsimp only
    rw [if_pos hbne]
    rw [do_update_start_position_and_get_len]
    cases hspcc : q.start_position.chunk with
    | none => exact absurd hspcc (hspc hep)
    | some spid =>
      obtain ⟨hlive, hdang⟩ := hsp spid hspcc
      have hlt? : cursorLt? r2.position q.start_position =
          some (decide (posId r < spid ∨
            (posId r = spid ∧ r.position.index < q.start_position.index))) := by
        unfold cursorLt?
        have hpos2 : r2.position = r.position := rfl
        rw [hpos2, hr1, hspcc]
      rw [hlt?]
      by_cases hmove : posId r < spid ∨
          (posId r = spid ∧ r.position.index < q.start_position.index)
      · have hspmem : spid ∈ q.chunks.map Chunk.id := by
          by_contra hno
          have := hdang hno
          have hpm := (mem_ids_iff hqwf.2.1 (posId r)).mp hr2
          omega
        obtain ⟨hsp1, hsp2⟩ := hlive hspmem
        have hfwd2 : cursorLeP (posId r2, r2.position.index) (spid, q.start_position.index) := by
          have hpid2 : posId r2 = posId r := rfl
          rw [hpid2]
          rcases hmove with h | h
          · exact Or.inl h
          · exact Or.inr ⟨h.1, Nat.le_of_lt h.2⟩
        obtain ⟨q', hq'eq, hq'inv, hq'r, hq'sp, hq'cnt, hq'qe, hq'li, hq'll, hq'hd,
          hq'sub, hq'len, hq'suf⟩ :=
          set_forward_pres hinv2 spid q.start_position.index s.AUTO_CLEANUP hspmem hsp1 hfwd2 hsp2
        have hspeta : ({ chunk := some spid, index := q.start_position.index } : Cursor) =
            q.start_position := by
          cases hq : q.start_position with
          | mk ch ix =>
            rw [hq] at hspcc
            dsimp only at hspcc
            rw [hspcc]
        rw [hspeta] at hq'eq
        have hinv3 : Inv (Sys.mk q' (A ++
            ({ position := q.start_position, start_position_epoch := c.epoch } : EventReader) :: B)) := by
          have hh := hq'inv
          rw [hspeta] at hh
          exact hh
        have hpidr :
            posId ({ position := q.start_position, start_position_epoch := c.epoch } : EventReader) = spid := by
          unfold posId
          dsimp only
          rw [hspcc]
          rfl
        have hr3mem : spid ∈ q'.chunks.map Chunk.id := by
          have hrwf3 := hinv3.2.2.1
            ({ position := q.start_position, start_position_epoch := c.epoch } : EventReader)
            (by simp)
          exact hpidr ▸ hrwf3.2.1
        obtain ⟨c', hfindc', hc'id, hc'mem⟩ := find_id_mem hr3mem
        have hfc : findChunk? q' q.start_position.chunk = some c' := by
          unfold findChunk?
          rw [hspcc]
          exact hfindc'
        refine ⟨(q', { r2 with position := q.start_position }, c'.slots.length), ?_⟩
        dsimp only
        rw [decide_eq_true_eq.mpr hmove]
        simp only [reduceIte]
        rw [hq'eq]
        dsimp only
        rw [hfc]
      · refine ⟨(q, r2, c.slots.length), ?_⟩
        dsimp only
        rw [decide_eq_false hmove]
        rw [if_neg (by simp)]
        dsimp only
        rw [hfind']

theorem readerCollect_total {q : EventQueue α} {A B : List EventReader} {r : EventReader}
    (hinv : Inv (Sys.mk q (A ++ r :: B))) (s : Settings)
    (hspc : r.start_position_epoch ≠ qEpoch q → q.start_position.chunk ≠ none) :
    ∃ x, readerCollect s q r = some x := by
  obtain ⟨⟨qa, ra, len⟩, hu⟩ := update_len_total hinv s hspc
  obtain ⟨hainv, har, hasp, hacnt, haqe, hali, hall2, hahd, hasub, halen, hasuf,
    hafwd, haep, halenval, hafast, halands⟩ := update_len_pres s hinv hu
  have hrwfa := hainv.2.2.1 ra (by simp)
  obtain ⟨ha1, ha2, ha3, ha4, ha5⟩ := hrwfa
  have haqwf : QWF qa := hainv.1
  obtain ⟨hane, haids, halast, haall, haseal⟩ := haqwf
  dsimp only at ha2 ha3 ha4
  have hamem := (mem_ids_iff haids (posId ra)).mp ha2
  have hkn : posId ra - headId qa < qa.chunks.length := by omega
  obtain ⟨c, hdrop, hcid, hfind, hnext⟩ :=
    drop_decomp qa.chunks (headId qa) (posId ra - headId qa) haids hkn
  have hcid2 : c.id = posId ra := by omega
  have hfind2 : qa.chunks.find? (fun x => x.id == posId ra) = some c := by
    rw [← hcid2]
    have heq : headId qa + (posId ra - headId qa) = c.id := by omega
    rw [← heq]
    exact hfind
  have hclen : lenOfId qa (posId ra) = c.slots.length := lenOfId_eq_of_find hfind2
  have hidx : ra.position.index ≤ c.slots.length := by
    rw [← hclen]
    exact ha3
  have hfuel : (c.slots.length - ra.position.index) +
      ((List.drop (posId ra - headId qa + 1) qa.chunks).map Chunk.slots).flatten.length +
      (List.drop (posId ra - headId qa + 1) qa.chunks).length + 1 ≤ collectFuel qa := by
    unfold collectFuel
    have hsplit : qa.chunks = qa.chunks.take (posId ra - headId qa) ++
        (c :: List.drop (posId ra - headId qa + 1) qa.chunks) := by
      rw [← hdrop, List.take_append_drop]
    have hlensum : ((List.drop (posId ra - headId qa + 1) qa.chunks).map Chunk.slots).flatten.length =
        ((List.drop (posId ra - headId qa + 1) qa.chunks).map (fun c => c.slots.length)).sum := by
      rw [List.length_flatten, List.map_map]
      rfl
    conv_rhs => rw [hsplit]
    rw [List.map_append, List.sum_append, List.length_append, List.map_cons,
      List.sum_cons, List.length_cons]
    rw [hlensum]
    omega
  have hrun := iterCollect_run qa ⟨hane, haids, halast, haall, haseal⟩
    (collectFuel qa) (posId ra - headId qa) ra.position.index c
    (List.drop (posId ra - headId qa + 1) qa.chunks) hdrop hidx hfuel
  have hposeta : (Cursor.mk (some c.id) ra.position.index) = ra.position := by
    cases hp : ra.position with
    | mk ch ix =>
      rw [hp] at ha1
      dsimp only at ha1
      dsimp only
      rw [hcid2, ha1]
  rw [hposeta] at hrun
  obtain ⟨hlm, hle', hln, hls, hlf⟩ := last_chunk_facts ⟨hane, haids, halast, haall, haseal⟩
  obtain ⟨q', hq'eq, hq'inv, hq'r, hq'sp, hq'cnt, hq'qe, hq'li, hq'll, hq'hd,
    hq'sub, hq'len, hq'suf⟩ :=
    set_forward_pres hainv (lastId qa) (lastLen qa) s.AUTO_CLEANUP hlm
      (by rw [hle']) ha4 (Or.inr ⟨rfl, Nat.le_refl _⟩)
  refine ⟨(c.slots.drop ra.position.index ++
      ((List.drop (posId ra - headId qa + 1) qa.chunks).map Chunk.slots).flatten, q',
      { ra with position := { chunk := some (lastId qa), index := lastLen qa } }), ?_⟩
  rw [readerCollect, iterNew, hu]
  dsimp only [Option.map]
  rw [halenval, hclen, hrun]
  dsimp only
  rw [iterDrop]
  dsimp only
  rw [hq'eq]

/-- Inversion of one full reader traversal (iter, drain, drop): the
invariant carries over, the queue is only reduced, the reader parks at
the end of the tail, and when the reader epoch was already current the
returned values are exactly the remaining suffix of the queue. -/
theorem readerCollect_pres {q q1 : EventQueue α} {A B : List EventReader}
    {r r1 : EventReader} {out : List α} (s : Settings)
    (hinv : Inv (Sys.mk q (A ++ r :: B)))
    (hsome : readerCollect s q r = some (out, q1, r1)) :
    Inv (Sys.mk q1 (A ++ r1 :: B)) ∧
    q1.readers = q.readers ∧
    q1.start_position = q.start_position ∧
    q1.chunk_id_counter = q.chunk_id_counter ∧
    qEpoch q1 = qEpoch q ∧
    lastId q1 = lastId q ∧ lastLen q1 = lastLen q ∧ headId q ≤ headId q1 ∧
    (∀ x, x ∈ q1.chunks.map Chunk.id → x ∈ q.chunks.map Chunk.id) ∧
    (∀ x, x ∈ q1.chunks.map Chunk.id → lenOfId q1 x = lenOfId q x) ∧
    (∀ x j, x ∈ q1.chunks.map Chunk.id →
        suffixFrom q1.chunks x j = suffixFrom q.chunks x j) ∧
    r1.position = Cursor.mk (some (lastId q)) (lastLen q) ∧
    r1.start_position_epoch = qEpoch q ∧
    (r.start_position_epoch = qEpoch q →
        out = suffixFrom q.chunks (posId r) r.position.index) ∧
    (r.start_position_epoch ≠ qEpoch q → ∀ e ix,
        q.start_position = Cursor.mk (some e) ix →
        cursorLeP (posId r, r.position.index) (e, ix) →
        out = suffixFrom q.chunks e ix) := by
  rw [readerCollect] at hsome
  cases hnew : iterNew s q r with
  | none =>
    rw [hnew] at hsome
    simp at hsome
  | some x =>
    obtain ⟨qa, ra, it⟩ := x
    rw [hnew] at hsome
    dsimp only at hsome
    rw [iterNew] at hnew
    cases hu : update_start_position_and_get_len s q r with
    | none =>
      rw [hu] at hnew
      simp at hnew
    | some y =>
      obtain ⟨qa', ra', len⟩ := y
      rw [hu] at hnew
      dsimp only [Option.map] at hnew
      obtain ⟨h1, h2, h3⟩ : qa' = qa ∧ ra' = ra ∧
          (IterState.mk ra'.position len) = it := by
        injection hnew with hh
        injection hh with hh1 hh2
        injection hh2 with hh3 hh4
        exact ⟨hh1, hh3, hh4⟩
      subst h1
      subst h2
      subst h3
      obtain ⟨hainv, har, hasp, hacnt, haqe, hali, hall2, hahd, hasub, halen, hasuf,
        hafwd, haep, halenval, hafast, halands⟩ := update_len_pres s hinv hu
      -- decompose the queue at the reader position
      have hrwfa := hainv.2.2.1 ra' (by simp)
      obtain ⟨ha1, ha2, ha3, ha4, ha5⟩ := hrwfa
      have haqwf : QWF qa' := hainv.1
      obtain ⟨hane, haids, halast, haall, haseal⟩ := haqwf
      have hamem := (mem_ids_iff haids (posId ra')).mp ha2
      have hkn : posId ra' - headId qa' < qa'.chunks.length := by omega
      obtain ⟨c, hdrop, hcid, hfind, hnext⟩ :=
        drop_decomp qa'.chunks (headId qa') (posId ra' - headId qa') haids hkn
      have hcid2 : c.id = posId ra' := by omega
      have hfind2 : qa'.chunks.find? (fun x => x.id == posId ra') = some c := by
        rw [← hcid2]
        have heq : headId qa' + (posId ra' - headId qa') = c.id := by omega
        rw [← heq]
        exact hfind
      have hclen : lenOfId qa' (posId ra') = c.slots.length := lenOfId_eq_of_find hfind2
      have hidx : ra'.position.index ≤ c.slots.length := by
        rw [← hclen]
        exact ha3
      -- enough fuel
      have hfuel : (c.slots.length - ra'.position.index) +
          ((List.drop (posId ra' - headId qa' + 1) qa'.chunks).map Chunk.slots).flatten.length +
          (List.drop (posId ra' - headId qa' + 1) qa'.chunks).length + 1 ≤ collectFuel qa' := by
        unfold collectFuel
        have hsplit : qa'.chunks = qa'.chunks.take (posId ra' - headId qa') ++
            (c :: List.drop (posId ra' - headId qa' + 1) qa'.chunks) := by
          rw [← hdrop, List.take_append_drop]
        have hlensum : ((List.drop (posId ra' - headId qa' + 1) qa'.chunks).map Chunk.slots).flatten.length =
            ((List.drop (posId ra' - headId qa' + 1) qa'.chunks).map (fun c => c.slots.length)).sum := by
          rw [List.length_flatten, List.map_map]
          rfl
        conv_rhs => rw [hsplit]
        rw [List.map_append, List.sum_append, List.length_append, List.map_cons,
          List.sum_cons, List.length_cons]
        rw [hlensum]
        omega
      have hrun := iterCollect_run qa' ⟨hane, haids, halast, haall, haseal⟩
        (collectFuel qa') (posId ra' - headId qa') ra'.position.index c
        (List.drop (posId ra' - headId qa' + 1) qa'.chunks) hdrop hidx hfuel
      -- the iterator state fed to the run is the reader cursor
      have hposeta : (Cursor.mk (some c.id) ra'.position.index) = ra'.position := by
        cases hp : ra'.position with
        | mk ch ix =>
          rw [hp] at ha1
          dsimp only at ha1
          dsimp only
          rw [hcid2, ha1]
      rw [hposeta] at hrun
      rw [halenval, hclen] at hsome
      rw [hrun] at hsome
      -- the drop
      cases hdropop : iterDrop s qa' ra'
          (IterState.mk (Cursor.mk (some (lastId qa')) (lastLen qa')) (lastLen qa')) with
      | none =>
        rw [hdropop] at hsome
        simp at hsome
      | some z =>
        obtain ⟨qb, rb⟩ := z
        rw [hdropop] at hsome
        dsimp only at hsome
        obtain ⟨ho1, ho2, ho3⟩ : c.slots.drop ra'.position.index ++
            ((List.drop (posId ra' - headId qa' + 1) qa'.chunks).map Chunk.slots).flatten = out ∧
            qb = q1 ∧ rb = r1 := by
          injection hsome with hh
          injection hh with hh1 hh2
          injection hh2 with hh3 hh4
          exact ⟨hh1, hh3, hh4⟩
        subst ho2
        subst ho3
        -- invert the set_forward_position of the drop
        obtain ⟨hlm, hle, hln, hls, hlf⟩ := last_chunk_facts ⟨hane, haids, halast, haall, haseal⟩
        obtain ⟨q', hq'eq, hq'inv, hq'r, hq'sp, hq'cnt, hq'qe, hq'li, hq'll, hq'hd,
          hq'sub, hq'len, hq'suf⟩ :=
          set_forward_pres hainv (lastId qa') (lastLen qa') s.AUTO_CLEANUP hlm
            (by rw [hle]) ha4 (Or.inr ⟨rfl, Nat.le_refl _⟩)
        rw [iterDrop] at hdropop
        rw [hq'eq] at hdropop
        injection hdropop with hh
        injection hh with hh1 hh2
        subst hh1
        subst hh2
        refine ⟨hq'inv, by rw [hq'r, har], by rw [hq'sp, hasp], by rw [hq'cnt, hacnt],
          by rw [hq'qe, haqe], by rw [hq'li, hali], by rw [hq'll, hall2], ?_, ?_, ?_, ?_,
          ?_, ?_, ?_, ?_⟩
        · have := hq'hd
          omega
        · intro x hx
          exact hasub x (hq'sub x hx)
        · intro x hx
          rw [hq'len x hx, halen x (hq'sub x hx)]
        · intro x j hx
          rw [hq'suf x j hx, hasuf x j (hq'sub x hx)]
        · rw [hali, hall2]
        · exact haep
        · intro hep
          obtain ⟨he1, he2, he3⟩ := hafast hep
          subst he1
          have hsfx2 : suffixFrom qa'.chunks c.id ra'.position.index =
              c.slots.drop ra'.position.index ++
              ((List.drop (posId ra' - headId qa' + 1) qa'.chunks).map Chunk.slots).flatten :=
            suffixFrom_eq_drop hainv.1 hdrop
          rw [← ho1, ← he2, ← hsfx2, hcid2]
        · intro hne e ix hspe hle
          obtain ⟨hpe, hpix⟩ := halands hne e ix hspe hle
          have hsfx2 : suffixFrom qa'.chunks c.id ra'.position.index =
              c.slots.drop ra'.position.index ++
              ((List.drop (posId ra' - headId qa' + 1) qa'.chunks).map Chunk.slots).flatten :=
            suffixFrom_eq_drop hainv.1 hdrop
          have hmem2 : e ∈ List.map Chunk.id qa'.chunks := by
            rw [← hpe]
            dsimp only at ha2
            exact ha2
          rw [← ho1, ← hsfx2, hcid2, hpe, hpix]
          exact hasuf e ix hmem2

theorem headId_eq_of_ids {q q' : EventQueue α}
    (h : q'.chunks.map Chunk.id = q.chunks.map Chunk.id) : headId q' = headId q := by
  unfold headId
  rw [← List.head?_map, ← List.head?_map, h]

theorem lastId_eq_of_ids {q q' : EventQueue α}
    (h : q'.chunks.map Chunk.id = q.chunks.map Chunk.id) : lastId q' = lastId q := by
  unfold lastId
  rw [← List.getLast?_map, ← List.getLast?_map, h]

theorem cursorLeP_trans {a b c : Nat × Nat} (h1 : cursorLeP a b) (h2 : cursorLeP b c) :
    cursorLeP a c := by
  rcases h1 with h1 | h1 <;> rcases h2 with h2 | h2
  · exact Or.inl (h1.trans h2)
  · exact Or.inl (by rw [← h2.1]; exact h1)
  · exact Or.inl (by rw [h1.1]; exact h2)
  · exact Or.inr ⟨h1.1.trans h2.1, h1.2.trans h2.2⟩

theorem Evolves_refl (q : EventQueue α) : Evolves q q [] := by
  refine ⟨rfl, rfl, rfl, rfl, by simp [flatten], Or.inr ⟨rfl, Nat.le_refl _⟩,
    fun x hx => hx, fun x _ => Nat.le_refl _, fun x j _ _ => by simp⟩

theorem Evolves_trans {q1 q2 q3 : EventQueue α} {ws1 ws2 : List α}
    (h1 : Evolves q1 q2 ws1) (h2 : Evolves q2 q3 ws2) : Evolves q1 q3 (ws1 ++ ws2) := by
  obtain ⟨a1, a2, a3, a4, a5, a6, a7, a8, a9⟩ := h1
  obtain ⟨b1, b2, b3, b4, b5, b6, b7, b8, b9⟩ := h2
  refine ⟨b1.trans a1, b2.trans a2, b3.trans a3, b4.trans a4, ?_, cursorLeP_trans a6 b6,
    fun x hx => b7 x (a7 x hx), fun x hx => (a8 x hx).trans (b8 x (a7 x hx)), ?_⟩
  · rw [b5, a5, List.append_assoc]
  · intro x j hx hj
    rw [b9 x j (a7 x hx) (hj.trans (a8 x hx)), a9 x j hx hj, List.append_assoc]

theorem suffixFrom_append (l2 : List (Chunk α)) :
    ∀ (l : List (Chunk α)) (x j : Nat), x ∈ l.map Chunk.id →
      suffixFrom (l ++ l2) x j = suffixFrom l x j ++ (l2.map Chunk.slots).flatten
  | [], x, j, hx => by simp at hx
  | c :: t, x, j, hx => by
    rw [List.cons_append]
    unfold suffixFrom
    by_cases hcx : c.id = x
    · rw [if_pos hcx, if_pos hcx, List.map_append, List.flatten_append, List.append_assoc]
    · rw [if_neg hcx, if_neg hcx]
      have hxt : x ∈ t.map Chunk.id := by
        rcases List.mem_map.mp hx with ⟨d, hd, hdx⟩
        rcases List.mem_cons.mp hd with h1 | h1
        · exact absurd (h1 ▸ hdx) hcx
        · exact hdx ▸ List.mem_map_of_mem Chunk.id h1
      exact suffixFrom_append l2 t x j hxt

theorem suffixFrom_concat_ext (node : Chunk α) (ws : List α) :
    ∀ (l : List (Chunk α)) (x j : Nat),
      x ∈ (l ++ [node]).map Chunk.id →
      (x = node.id → j ≤ node.slots.length) →
      suffixFrom (l ++ [{ node with slots := node.slots ++ ws }]) x j =
        suffixFrom (l ++ [node]) x j ++ ws
  | [], x, j, hx, hj => by
    have hxn : x = node.id := by simpa using hx
    subst hxn
    simp only [List.nil_append]
    unfold suffixFrom
    rw [if_pos rfl, if_pos rfl]
    rw [List.drop_append_eq_append_drop]
    have hj0 : j - node.slots.length = 0 := by
      have := hj rfl
      omega
    rw [hj0]
    simp
  | c :: t, x, j, hx, hj => by
    rw [List.cons_append, List.cons_append]
    unfold suffixFrom
    by_cases hcx : c.id = x
    · rw [if_pos hcx, if_pos hcx]
      simp [List.append_assoc]
    · rw [if_neg hcx, if_neg hcx]
      have hxt : x ∈ (t ++ [node]).map Chunk.id := by
        rcases List.mem_map.mp hx with ⟨d, hd, hdx⟩
        rcases List.mem_cons.mp (by simpa using hd : d ∈ c :: (t ++ [node])) with h1 | h1
        · exact absurd (h1 ▸ hdx) hcx
        · exact hdx ▸ List.mem_map_of_mem Chunk.id h1
      exact suffixFrom_concat_ext node ws t x j hxt hj

/-- Appending ws into the tail chunk within its capacity (try_push and
push_unchecked on a non-full tail, and the bulk step of extend)
preserves the invariant and grows the queue by exactly ws. -/
theorem fill_pres {q : EventQueue α} {rs : List EventReader} {node : Chunk α}
    (hinv : Inv (Sys.mk q rs)) (hlastq : q.chunks.getLast? = some node) (ws : List α)
    (hroom : node.slots.length + ws.length ≤ node.capacity) :
    Inv (Sys.mk { q with chunks := updateLast (fun c => { c with slots := c.slots ++ ws }) q.chunks } rs) ∧
    Evolves q { q with chunks := updateLast (fun c => { c with slots := c.slots ++ ws }) q.chunks } ws ∧
    { q with chunks := updateLast (fun c => { c with slots := c.slots ++ ws }) q.chunks }.chunks.getLast? =
      some { node with slots := node.slots ++ ws } := by
  obtain ⟨hqwf, hcount, hrwf, hrct, hsp⟩ := hinv
  dsimp only at hqwf hcount hrwf hrct hsp
  obtain ⟨hne, hids, hlast, hall, hseal⟩ := hqwf
  set q' := { q with chunks := updateLast (fun c => { c with slots := c.slots ++ ws }) q.chunks } with hq'def
  have hupd : q'.chunks = q.chunks.dropLast ++ [{ node with slots := node.slots ++ ws }] :=
    updateLast_spec _ q.chunks node hlastq
  have hgl : q.chunks.getLast hne = node := by
    have hh := (List.getLast?_eq_getLast q.chunks hne).symm.trans hlastq
    exact Option.some_injective _ hh
  have hdecomp : q.chunks = q.chunks.dropLast ++ [node] := by
    conv_lhs => rw [← List.dropLast_append_getLast hne, hgl]
  have hids' : q'.chunks.map Chunk.id = q.chunks.map Chunk.id := by
    rw [hupd]
    conv_rhs => rw [hdecomp]
    rw [List.map_append, List.map_append]
    rfl
  have hlen0 : q'.chunks.length = q.chunks.length := by
    have hh := congrArg List.length hids'
    simpa using hh
  have hhead : headId q' = headId q := headId_eq_of_ids hids'
  have hlastid : lastId q' = lastId q := lastId_eq_of_ids hids'
  have hlast' : q'.chunks.getLast? = some { node with slots := node.slots ++ ws } := by
    rw [hupd, List.getLast?_concat]
  have hll' : lastLen q' = node.slots.length + ws.length := by
    unfold lastLen
    rw [hlast']
    simp
  have hllq : lastLen q = node.slots.length := by
    unfold lastLen
    rw [hlastq]
    rfl
  have hqe : qEpoch q' = qEpoch q := by
    unfold qEpoch
    rw [hupd]
    conv_rhs => rw [hdecomp]
    cases hdl : q.chunks.dropLast with
    | nil => rfl
    | cons y t => rfl
  have hfindapp : ∀ x : Nat, q'.chunks.find? (fun c => c.id == x) =
      ((q.chunks.dropLast.find? (fun c => c.id == x)).or
        ([{ node with slots := node.slots ++ ws }].find? (fun c => c.id == x))) := by
    intro x
    rw [hupd, List.find?_append]
  have hfindappq : ∀ x : Nat, q.chunks.find? (fun c => c.id == x) =
      ((q.chunks.dropLast.find? (fun c => c.id == x)).or
        ([node].find? (fun c => c.id == x))) := by
    intro x
    conv_lhs => rw [hdecomp]
    rw [List.find?_append]
  have hlen' : ∀ x, lenOfId q x ≤ lenOfId q' x := by
    intro x
    unfold lenOfId
    rw [hfindapp x, hfindappq x]
    cases hdf : q.chunks.dropLast.find? (fun c => c.id == x) with
    | some c => simp [Option.or]
    | none =>
      by_cases hnx : node.id = x
      · rw [List.find?_cons_of_pos _ (by simpa using hnx),
          List.find?_cons_of_pos _ (by simpa using hnx)]
        simp [Option.or]
      · rw [List.find?_cons_of_neg _ (by simpa using hnx),
          List.find?_cons_of_neg _ (by simpa using hnx)]
  have hnid : node.id = lastId q := by
    unfold lastId
    rw [hlastq]
    rfl
  have hlennode : lenOfId q node.id = node.slots.length := by
    unfold lenOfId
    rw [hfindappq]
    have hdlnone : q.chunks.dropLast.find? (fun c => c.id == node.id) = none := by
      apply find_id_none
      intro hmem
      have hmapdl : q.chunks.dropLast.map Chunk.id =
          List.range' (headId q) (q.chunks.length - 1) := by
        rw [List.map_dropLast, hids]
        cases hn : q.chunks.length with
        | zero => simp
        | succ m =>
          have hr : List.range' (headId q) (m + 1) 1 =
              List.range' (headId q) m 1 ++ [headId q + 1 * m] := List.range'_concat _ m
          simp only [one_mul] at hr
          rw [hr, List.dropLast_concat]
          simp
      rw [hmapdl, List.mem_range'_1] at hmem
      have hlid := lastId_ids hids hne
      have hlidv : lastId q = headId q + q.chunks.length - 1 := by
        unfold lastId
        rw [hlid]
        rfl
      have hposlen : 0 < q.chunks.length := List.length_pos.mpr hne
      omega
    rw [hdlnone]
    rw [List.find?_cons_of_pos _ (by simp)]
    rfl
  have hrwf' : ∀ r ∈ rs, RWF q' r := by
    intro r hr
    obtain ⟨h1, h2, h3, h4, h5⟩ := hrwf r hr
    refine ⟨h1, by rw [hids']; exact h2, h3.trans (hlen' _), ?_, by rw [hqe]; exact h5⟩
    rcases h4 with h | h
    · exact Or.inl (by rw [hlastid]; exact h)
    · exact Or.inr ⟨by rw [hlastid]; exact h.1, by rw [hll']; omega⟩
  have hrct' : rctOk q' rs := by
    intro c hc
    rw [hupd] at hc
    rcases List.mem_append.mp hc with hc1 | hc1
    · exact hrct c (List.dropLast_subset _ hc1)
    · have hceq : c = { node with slots := node.slots ++ ws } := by simpa using hc1
      subst hceq
      exact hrct node (List.mem_of_getLast?_eq_some hlastq)
  have hsp' : spOk q' := by
    intro i hi
    obtain ⟨hliv, hdang⟩ := hsp i hi
    constructor
    · intro hmem
      rw [hids'] at hmem
      obtain ⟨ha, hb⟩ := hliv hmem
      refine ⟨ha.trans (hlen' i), ?_⟩
      rcases hb with h | h
      · exact Or.inl (by rw [hlastid]; exact h)
      · refine Or.inr ⟨by rw [hlastid]; exact h.1, ?_⟩
        rw [hll']
        have hix : q'.start_position.index = q.start_position.index := rfl
        omega
    · intro hmem
      rw [hids'] at hmem
      rw [hhead]
      exact hdang hmem
  have hqwf' : QWF q' := by
    refine ⟨?_, ?_, ?_, ?_, ?_⟩
    · rw [hupd]
      simp
    · rw [hids', hhead, hlen0]
      exact hids
    · rw [hlastid]
      exact hlast
    · intro c hc
      rw [hupd] at hc
      rcases List.mem_append.mp hc with hc1 | hc1
      · have := hall c (List.dropLast_subset _ hc1)
        exact ⟨this.1, this.2.1, by rw [hqe]; exact this.2.2⟩
      · have hceq : c = { node with slots := node.slots ++ ws } := by simpa using hc1
        subst hceq
        have hn := hall node (List.mem_of_getLast?_eq_some hlastq)
        refine ⟨?_, hn.2.1, by rw [hqe]; exact hn.2.2⟩
        dsimp only
        rw [List.length_append]
        exact hroom
    · intro c hc
      rw [hupd, List.dropLast_concat] at hc
      exact hseal c hc
  refine ⟨⟨hqwf', hcount, hrwf', hrct', hsp'⟩, ⟨rfl, rfl, hqe, hhead, ?_, ?_,
    fun x hx => by rw [hids']; exact hx, fun x _ => hlen' x, ?_⟩, hlast'⟩
  · unfold flatten
    rw [hupd]
    conv_rhs => rw [hdecomp]
    rw [List.map_append, List.map_append, List.flatten_append, List.flatten_append]
    simp [List.append_assoc]
  · exact Or.inr ⟨hlastid.symm, by rw [hll', hllq]; omega⟩
  · intro x j hx hj
    rw [hupd]
    conv_rhs => rw [hdecomp]
    have hx2 : x ∈ (q.chunks.dropLast ++ [node]).map Chunk.id := by
      rw [← hdecomp]
      exact hx
    refine suffixFrom_concat_ext node ws _ x j hx2 ?_
    intro hxn
    rw [hxn, hlennode] at hj
    exact hj

theorem head?_append_left {l l2 : List (Chunk α)} (h : l ≠ []) :
    (l ++ l2).head? = l.head? := by
  cases l with
  | nil => exact absurd rfl h
  | cons x t => rfl

/-- EventQueue::add_chunk on a full tail preserves the invariant and
stores nothing; the new tail is empty, has positive capacity and takes
the next id. -/
theorem add_pres {q : EventQueue α} {rs : List EventReader} {node : Chunk α}
    (hinv : Inv (Sys.mk q rs)) (hlastq : q.chunks.getLast? = some node)
    (hfull : node.slots.length = node.capacity) (s : Settings)
    (hmax : 1 ≤ s.MAX_CHUNK_SIZE) :
    Inv (Sys.mk (add_chunk s q) rs) ∧ Evolves q (add_chunk s q) [] ∧
    ∃ d : Chunk α, (add_chunk s q).chunks.getLast? = some d ∧ d.slots = [] ∧
      1 ≤ d.capacity ∧ (add_chunk s q).chunk_id_counter = q.chunk_id_counter + 1 := by
  obtain ⟨hqwf, hcount, hrwf, hrct, hsp⟩ := hinv
  dsimp only at hqwf hcount hrwf hrct hsp
  obtain ⟨hne, hids, hlast, hall, hseal⟩ := hqwf
  have hnodemem : node ∈ q.chunks := List.mem_of_getLast?_eq_some hlastq
  have hnodefacts := hall node hnodemem
  set nsz := if q.penult_chunk_size = node.capacity then
      min (node.capacity * 2) s.MAX_CHUNK_SIZE else node.capacity with hnsz
  set newC : Chunk α := Chunk.mk (q.chunk_id_counter + 1) nsz [] node.epoch 0 with hnewC
  have hqeq : add_chunk s q = EventQueue.mk (q.chunks ++ [newC])
      (q.chunk_id_counter + 1) node.capacity q.readers q.start_position := by
    rw [add_chunk, hlastq]
  rw [hqeq]
  set q' : EventQueue α := EventQueue.mk (q.chunks ++ [newC])
      (q.chunk_id_counter + 1) node.capacity q.readers q.start_position with hq'def
  have hchq' : q'.chunks = q.chunks ++ [newC] := rfl
  have hnc : 1 ≤ nsz := by
    rw [hnsz]
    by_cases hp : q.penult_chunk_size = node.capacity
    · rw [if_pos hp]
      have := hnodefacts.2.1
      omega
    · rw [if_neg hp]
      exact hnodefacts.2.1
  have hposlen : 0 < q.chunks.length := List.length_pos.mpr hne
  have hlidv : lastId q = headId q + q.chunks.length - 1 := by
    unfold lastId
    rw [lastId_ids hids hne]
    rfl
  have hcntv : q.chunk_id_counter = headId q + q.chunks.length - 1 := by
    rw [← hlast]
    exact hlidv
  have hhead' : headId q' = headId q := by
    unfold headId
    rw [hchq', head?_append_left hne]
  have hqe' : qEpoch q' = qEpoch q := by
    unfold qEpoch
    rw [hchq', head?_append_left hne]
  have hlastid' : lastId q' = q.chunk_id_counter + 1 := by
    unfold lastId
    rw [hchq', List.getLast?_concat]
    rfl
  have hll' : lastLen q' = 0 := by
    unfold lastLen
    rw [hchq', List.getLast?_concat]
    rfl
  have hids' : q'.chunks.map Chunk.id = q.chunks.map Chunk.id ++ [q.chunk_id_counter + 1] := by
    rw [hchq', List.map_append]
    rfl
  have hlenpres : ∀ x, x ∈ q.chunks.map Chunk.id → lenOfId q' x = lenOfId q x := by
    intro x hx
    obtain ⟨c, hfind, hc1, hc2⟩ := find_id_mem hx
    unfold lenOfId
    rw [hchq', List.find?_append, hfind]
    simp [Option.or]
  have hgl : q.chunks.getLast hne = node := by
    have hh := (List.getLast?_eq_getLast q.chunks hne).symm.trans hlastq
    exact Option.some_injective _ hh
  have hdecomp : q.chunks = q.chunks.dropLast ++ [node] := by
    conv_lhs => rw [← List.dropLast_append_getLast hne, hgl]
  have hqwf' : QWF q' := by
    refine ⟨?_, ?_, ?_, ?_, ?_⟩
    · rw [hchq']
      simp
    · rw [hids', hids, hhead']
      have hlen1 : q'.chunks.length = q.chunks.length + 1 := by
        rw [hchq', List.length_append]
        rfl
      rw [hlen1]
      have hr : List.range' (headId q) (q.chunks.length + 1) 1 =
          List.range' (headId q) q.chunks.length 1 ++ [headId q + 1 * q.chunks.length] :=
        List.range'_concat _ _
      simp only [one_mul] at hr
      rw [hr]
      congr 2
      omega
    · rw [hlastid']
    · intro c hc
      rw [hchq'] at hc
      rcases List.mem_append.mp hc with hc1 | hc1
      · have := hall c hc1
        exact ⟨this.1, this.2.1, by rw [hqe']; exact this.2.2⟩
      · have hceq : c = newC := by simpa using hc1
        subst hceq
        refine ⟨by simp, hnc, ?_⟩
        rw [hqe']
        exact hnodefacts.2.2
    · intro c hc
      rw [hchq', List.dropLast_concat] at hc
      conv at hc => rw [hdecomp]
      rcases List.mem_append.mp hc with hc1 | hc1
      · exact hseal c hc1
      · have hceq : c = node := by simpa using hc1
        subst hceq
        exact hfull
  have hrwf' : ∀ r ∈ rs, RWF q' r := by
    intro r hr
    obtain ⟨h1, h2, h3, h4, h5⟩ := hrwf r hr
    refine ⟨h1, by rw [hids']; exact List.mem_append_left _ h2,
      by rw [hlenpres _ h2]; exact h3, ?_, by rw [hqe']; exact h5⟩
    refine Or.inl ?_
    rw [hlastid']
    rcases h4 with h | h
    · omega
    · omega
  have hrct' : rctOk q' rs := by
    intro c hc
    rw [hchq'] at hc
    rcases List.mem_append.mp hc with hc1 | hc1
    · exact hrct c hc1
    · have hceq : c = newC := by simpa using hc1
      subst hceq
      have hz : rs.countP (fun r => decide (newC.id < posId r)) = 0 := by
        rw [List.countP_eq_zero]
        intro r hr
        obtain ⟨h1, h2, h3, h4, h5⟩ := hrwf r hr
        simp only [decide_eq_true_eq]
        have : posId r ≤ lastId q := by
          rcases h4 with h | h
          · exact Nat.le_of_lt h
          · exact Nat.le_of_eq h.1
        have hni : newC.id = q.chunk_id_counter + 1 := rfl
        omega
      rw [hz]
      rfl
  have hsp' : spOk q' := by
    intro i hi
    have hi2 : q.start_position.chunk = some i := hi
    obtain ⟨hliv, hdang⟩ := hsp i hi2
    constructor
    · intro hmem
      rw [hids'] at hmem
      rcases List.mem_append.mp hmem with hm | hm
      · obtain ⟨ha, hb⟩ := hliv hm
        have hix : q'.start_position.index = q.start_position.index := rfl
        refine ⟨by rw [hlenpres _ hm, hix]; exact ha, Or.inl ?_⟩
        rw [hlastid']
        rcases hb with h | h
        · omega
        · omega
      · have him : i = q.chunk_id_counter + 1 := by simpa using hm
        by_cases hiq : i ∈ q.chunks.map Chunk.id
        · have := (mem_ids_iff hids i).mp hiq
          omega
        · have := hdang hiq
          omega
    · intro hmem
      rw [hids'] at hmem
      have hiq : i ∉ q.chunks.map Chunk.id := fun hh => hmem (List.mem_append_left _ hh)
      rw [hhead']
      exact hdang hiq
  refine ⟨⟨hqwf', hcount, hrwf', hrct', hsp'⟩, ⟨rfl, rfl, hqe', hhead', ?_, ?_,
    fun x hx => by rw [hids']; exact List.mem_append_left _ hx,
    fun x hx => by rw [hlenpres _ hx], ?_⟩,
    newC, by rw [hchq', List.getLast?_concat], rfl, hnc, rfl⟩
  · unfold flatten
    rw [hchq', List.map_append, List.flatten_append]
    simp
  · refine Or.inl ?_
    rw [hlastid']
    omega
  · intro x j hx hj
    rw [hchq', suffixFrom_append [newC] q.chunks x j hx]
    simp

/-- EventQueue::push preserves the invariant and appends exactly v. -/
theorem push_pres {q : EventQueue α} {rs : List EventReader}
    (hinv : Inv (Sys.mk q rs)) (s : Settings) (hmax : 1 ≤ s.MAX_CHUNK_SIZE) (v : α) :
    Inv (Sys.mk (push s q v) rs) ∧ Evolves q (push s q v) [v] := by
  have hne : q.chunks ≠ [] := hinv.1.1
  cases hlastq : q.chunks.getLast? with
  | none =>
    rw [List.getLast?_eq_none_iff] at hlastq
    exact absurd hlastq hne
  | some node =>
    have hfactsnode := hinv.1.2.2.2.1 node (List.mem_of_getLast?_eq_some hlastq)
    rw [push, hlastq]
    dsimp only
    by_cases hroom : node.slots.length < node.capacity
    · rw [if_pos hroom]
      have hfill := fill_pres hinv hlastq [v] (by simp; omega)
      exact ⟨hfill.1, hfill.2.1⟩
    · rw [if_neg hroom]
      have hfull : node.slots.length = node.capacity :=
        Nat.le_antisymm hfactsnode.1 (Nat.le_of_not_lt hroom)
      obtain ⟨hinv1, hev1, d, hd1, hd2, hd3, hd4⟩ := add_pres hinv hlastq hfull s hmax
      have hfill := fill_pres hinv1 hd1 [v] (by rw [hd2]; simpa using hd3)
      refine ⟨hfill.1, ?_⟩
      have hcomp := Evolves_trans hev1 hfill.2.1
      simpa using hcomp

/-- Repeated pushes preserve the invariant and append the pushed list. -/
theorem foldl_push_pres {s : Settings} (hmax : 1 ≤ s.MAX_CHUNK_SIZE) :
    ∀ (vs : List α) (q : EventQueue α) (rs : List EventReader), Inv (Sys.mk q rs) →
      Inv (Sys.mk (List.foldl (push s) q vs) rs) ∧ Evolves q (List.foldl (push s) q vs) vs
  | [], q, rs, hinv => ⟨by simpa using hinv, by simpa using Evolves_refl q⟩
  | v :: vs, q, rs, hinv => by
    rw [List.foldl_cons]
    obtain ⟨h1, h2⟩ := push_pres hinv s hmax v
    obtain ⟨h3, h4⟩ := foldl_push_pres hmax vs (push s q v) rs h1
    exact ⟨h3, by simpa using Evolves_trans h2 h4⟩

/-- EventQueue::extend preserves the invariant and appends exactly the
input list, chunk by chunk. -/
theorem extendLoop_pres (s : Settings) (hmax : 1 ≤ s.MAX_CHUNK_SIZE) :
    ∀ (n : Nat) (vs : List α), vs.length ≤ n →
      ∀ (q : EventQueue α) (rs : List EventReader), Inv (Sys.mk q rs) →
      Inv (Sys.mk (extendLoop s q vs) rs) ∧ Evolves q (extendLoop s q vs) vs := by
  intro n
  induction n with
  | zero =>
    intro vs hlen q rs hinv
    have hvs : vs = [] := List.length_eq_zero.mp (Nat.le_zero.mp hlen)
    subst hvs
    have hne : q.chunks ≠ [] := hinv.1.1
    cases hlastq : q.chunks.getLast? with
    | none =>
      rw [List.getLast?_eq_none_iff] at hlastq
      exact absurd hlastq hne
    | some node =>
      rw [extendLoop, hlastq]
      dsimp only
      rw [if_pos (by simp)]
      have hcap := hinv.1.2.2.2.1 node (List.mem_of_getLast?_eq_some hlastq)
      have hfill := fill_pres hinv hlastq [] (by simpa using hcap.1)
      exact ⟨hfill.1, hfill.2.1⟩
  | succ n ih =>
    intro vs hlen q rs hinv
    have hne : q.chunks ≠ [] := hinv.1.1
    cases hlastq : q.chunks.getLast? with
    | none =>
      rw [List.getLast?_eq_none_iff] at hlastq
      exact absurd hlastq hne
    | some node =>
      have hfactsnode := hinv.1.2.2.2.1 node (List.mem_of_getLast?_eq_some hlastq)
      rw [extendLoop, hlastq]
      dsimp only
      set room := node.capacity - node.slots.length with hroomdef
      by_cases hsm : vs.length ≤ room
      · rw [if_pos hsm]
        have hfill := fill_pres hinv hlastq vs (by omega)
        exact ⟨hfill.1, hfill.2.1⟩
      · rw [if_neg hsm]
        split
        · rename_i hdr
          have hdl : (vs.drop room).length = vs.length - room := List.length_drop room vs
          rw [hdr] at hdl
          simp at hdl
          exact absurd (by omega) hsm
        · rename_i v rest hdr
          have htake : (vs.take room).length = room := by
            rw [List.length_take]
            omega
          obtain ⟨hinvf, hevf, hlastf⟩ := fill_pres hinv hlastq (vs.take room)
            (by rw [htake]; omega)
          have hfullf : ({ node with slots := node.slots ++ vs.take room } : Chunk α).slots.length =
              ({ node with slots := node.slots ++ vs.take room } : Chunk α).capacity := by
            dsimp only
            rw [List.length_append, htake]
            omega
          obtain ⟨hinva, heva, d, hd1, hd2, hd3, hd4⟩ := add_pres hinvf hlastf hfullf s hmax
          obtain ⟨hinv3, hev3, hlast3⟩ := fill_pres hinva hd1 [v] (by rw [hd2]; simpa using hd3)
          have hrest : rest.length ≤ n := by
            have hdl : (vs.drop room).length = vs.length - room := List.length_drop room vs
            rw [hdr] at hdl
            simp only [List.length_cons] at hdl
            omega
          obtain ⟨hinv4, hev4⟩ := ih rest hrest _ rs hinv3
          have hev := Evolves_trans (Evolves_trans (Evolves_trans hevf heva) hev3) hev4
          have hws : (((vs.take room ++ []) ++ [v]) ++ rest) = vs := by
            simp only [List.append_nil, List.append_assoc, List.singleton_append]
            rw [← hdr, List.take_append_drop]
          rw [hws] at hev
          exact ⟨hinv4, hev⟩

theorem extend_pres {q : EventQueue α} {rs : List EventReader}
    (hinv : Inv (Sys.mk q rs)) (s : Settings) (hmax : 1 ≤ s.MAX_CHUNK_SIZE) (vs : List α) :
    Inv (Sys.mk (extend s q vs) rs) ∧ Evolves q (extend s q vs) vs :=
  extendLoop_pres s hmax vs.length vs (Nat.le_refl _) q rs hinv

/-- EventQueue::subscribe on a well-formed queue: the readers count is
bumped, the new reader parks at the end of the tail with the tail
epoch cached, and the queue shape is untouched. -/
theorem subscribe_pres {q : EventQueue α} {rs : List EventReader}
    (hinv : Inv (Sys.mk q rs)) :
    ∃ q1 r, subscribe q = some (q1, r) ∧
      Inv (Sys.mk q1 (rs ++ [r])) ∧
      r.position = Cursor.mk (some (lastId q)) (lastLen q) ∧
      r.start_position_epoch = qEpoch q ∧
      q1.readers = q.readers + 1 ∧
      q1.start_position = q.start_position ∧
      q1.chunk_id_counter = q.chunk_id_counter ∧
      qEpoch q1 = qEpoch q ∧ lastId q1 = lastId q ∧ lastLen q1 = lastLen q := by
  obtain ⟨hqwf, hcount, hrwf, hrct, hsp⟩ := hinv
  dsimp only at hqwf hcount hrwf hrct hsp
  obtain ⟨hne, hids, hlast, hall, hseal⟩ := hqwf
  obtain ⟨hlm, hlen2, hnext2, hsfx2, hfindlast⟩ :=
    last_chunk_facts ⟨hne, hids, hlast, hall, hseal⟩
  have hn1 : 0 < q.chunks.length := List.length_pos.mpr hne
  have hlidv : lastId q = headId q + q.chunks.length - 1 := by
    unfold lastId
    rw [lastId_ids hids hne]
    rfl
  cases hlastc : q.chunks.getLast? with
  | none =>
    rw [List.getLast?_eq_none_iff] at hlastc
    exact absurd hlastc hne
  | some lastc =>
  cases hheadc : q.chunks.head? with
  | none =>
    rw [List.head?_eq_none_iff] at hheadc
    exact absurd hheadc hne
  | some firstc =>
  have hlid' : lastId q = lastc.id := by
    unfold lastId
    rw [hlastc]
    rfl
  have hlen3' : lastLen q = lastc.slots.length := by
    unfold lastLen
    rw [hlastc]
    rfl
  have hfid' : headId q = firstc.id := by
    unfold headId
    rw [hheadc]
    rfl
  have hlcmem : lastc ∈ q.chunks := List.mem_of_getLast?_eq_some hlastc
  set qp : EventQueue α := { q with readers := q.readers + 1 } with hqp
  set r0 : EventReader := { position := { chunk := some firstc.id, index := 0 }, start_position_epoch := lastc.epoch } with hr0
  have hinvP : Inv (Sys.mk qp (rs ++ r0 :: [])) := by
    refine ⟨⟨hne, hids, hlast, hall, hseal⟩, ?_, ?_, ?_, hsp⟩
    · show q.readers + 1 = (rs ++ r0 :: []).length
      rw [hcount]
      simp
    · intro r hr
      dsimp only at hr
      rcases List.mem_append.mp hr with h3 | h3
      · exact hrwf r h3
      · have hre : r = r0 := by simpa using h3
        subst hre
        refine ⟨rfl, ?_, Nat.zero_le _, ?_, ?_⟩
        · show firstc.id ∈ q.chunks.map Chunk.id
          rw [← hfid']
          rw [mem_ids_iff hids]
          omega
        · show cursorLeP (firstc.id, 0) (lastId q, lastLen q)
          by_cases heq : firstc.id = lastId q
          · exact Or.inr ⟨heq, Nat.zero_le _⟩
          · exact Or.inl (by omega)
        · exact le_of_eq (hall lastc hlcmem).2.2
    · intro c hc
      have hold := hrct c hc
      have hcz : (r0 :: []).countP (fun r => decide (c.id < posId r)) = 0 := by
        rw [List.countP_eq_zero]
        intro r hr
        have hre : r = r0 := by simpa using hr
        subst hre
        show ¬(decide (c.id < firstc.id) = true)
        have hcm : c.id ∈ q.chunks.map Chunk.id := List.mem_map_of_mem Chunk.id hc
        rw [mem_ids_iff hids] at hcm
        simp only [decide_eq_true_eq]
        omega
      rw [List.countP_append, hcz]
      simpa using hold
  have hlmemq : lastc.id ∈ qp.chunks.map Chunk.id := by
    show lastc.id ∈ q.chunks.map Chunk.id
    rw [← hlid']
    exact hlm
  have hixq : lastc.slots.length ≤ lenOfId qp lastc.id := by
    show lastc.slots.length ≤ lenOfId q lastc.id
    rw [← hlid', hlen2, hlen3']
  have hfwd0 : cursorLeP (posId r0, r0.position.index) (lastc.id, lastc.slots.length) := by
    show cursorLeP (firstc.id, 0) (lastc.id, lastc.slots.length)
    by_cases heq : firstc.id = lastc.id
    · exact Or.inr ⟨heq, Nat.zero_le _⟩
    · exact Or.inl (by omega)
  have hend0 : cursorLeP (lastc.id, lastc.slots.length) (lastId qp, lastLen qp) := by
    show cursorLeP (lastc.id, lastc.slots.length) (lastId q, lastLen q)
    exact Or.inr ⟨hlid'.symm, le_of_eq hlen3'.symm⟩
  obtain ⟨q', hq'eq, hq'inv, hq'r, hq'sp, hq'cnt, hq'qe, hq'li, hq'll, hq'hd,
    hq'sub, hq'len, hq'suf⟩ :=
    set_forward_pres hinvP lastc.id lastc.slots.length false hlmemq hixq hfwd0 hend0
  refine ⟨q', { r0 with position := { chunk := some lastc.id, index := lastc.slots.length } },
    ?_, ?_, ?_, ?_, ?_, ?_, ?_, ?_, ?_, ?_⟩
  · rw [subscribe]
    dsimp only
    rw [hlastc, hheadc]
    exact hq'eq
  · exact hq'inv
  · dsimp only
    rw [hlid', hlen3']
  · exact (hall lastc hlcmem).2.2
  · rw [hq'r]
  · rw [hq'sp]
  · rw [hq'cnt]
  · rw [hq'qe]
    rfl
  · rw [hq'li]
    rfl
  · rw [hq'll]
    rfl

/-- EventQueue::unsubscribe withdraws the reader contribution from the
counters of the chunks before its cursor, decrements the readers count
and preserves the invariant for the remaining readers. -/
theorem unsubscribe_pres {q : EventQueue α} {A B : List EventReader} {r : EventReader}
    (hinv : Inv (Sys.mk q (A ++ r :: B))) :
    Inv (Sys.mk (unsubscribe q r) (A ++ B)) := by
  obtain ⟨hqwf, hcount, hrwf, hrct, hsp⟩ := hinv
  dsimp only at hqwf hcount hrwf hrct hsp
  obtain ⟨hr1, hr2, hr3, hr4, hr5⟩ := hrwf r (by simp)
  obtain ⟨hne, hids, hlast, hall, hseal⟩ := hqwf
  have hpm := (mem_ids_iff hids (posId r)).mp hr2
  cases hheadc : q.chunks.head? with
  | none =>
    rw [List.head?_eq_none_iff] at hheadc
    exact absurd hheadc hne
  | some firstc =>
  have hfid' : headId q = firstc.id := by
    unfold headId
    rw [hheadc]
    rfl
  have hvis : walkIds q.chunks firstc.id r.position.chunk =
      List.range' (headId q) (posId r - headId q) := by
    rw [hr1, ← hfid']
    have hw := walkIds_spec q.chunks (headId q) 0 (posId r) hids (by omega) (by omega)
      (by omega)
    simpa using hw
  rw [unsubscribe]
  rw [hheadc]
  dsimp only
  rw [hvis]
  set g : Chunk α → Chunk α := fun c =>
    if headId q ≤ c.id ∧ c.id < posId r then
      { c with read_completely_times := c.read_completely_times + (-1) }
    else c with hg
  have hgid : ∀ c, (g c).id = c.id := by
    intro c
    rw [hg]
    dsimp only
    split <;> rfl
  have hgslots : ∀ c, (g c).slots = c.slots := by
    intro c
    rw [hg]
    dsimp only
    split <;> rfl
  have hgcap : ∀ c, (g c).capacity = c.capacity := by
    intro c
    rw [hg]
    dsimp only
    split <;> rfl
  have hgep : ∀ c, (g c).epoch = c.epoch := by
    intro c
    rw [hg]
    dsimp only
    split <;> rfl
  set qb := addRct (-1) (List.range' (headId q) (posId r - headId q)) q with hqb
  have hbchunks : qb.chunks = q.chunks.map g := by
    rw [hqb, addRct_range_chunks]
    apply List.map_congr_left
    intro c _
    rw [hg]
    dsimp only
    by_cases h : headId q ≤ c.id ∧ c.id < posId r
    · rw [if_pos (by omega), if_pos h]
    · rw [if_neg (by omega), if_neg h]
  set qB : EventQueue α := { qb with readers := qb.readers - 1 } with hqB
  have hBchunks : qB.chunks = q.chunks.map g := hbchunks
  obtain ⟨hbmapid, hbhead, hblastid, hblastlen, hblen, hbsuf⟩ :=
    map_chunks_fields hgid hgslots hBchunks
  have hbqe : qEpoch qB = qEpoch q := qEpoch_map hgep hBchunks
  have hbqwf : QWF qB :=
    QWF_map hgid hgcap hgslots (Or.inl hgep) hBchunks rfl ⟨hne, hids, hlast, hall, hseal⟩
  refine ⟨hbqwf, ?_, ?_, ?_, ?_⟩
  · show q.readers - 1 = (A ++ B).length
    rw [hcount]
    simp [List.length_append]
  · intro r2 hr2m
    dsimp only at hr2m
    have hr2m' : r2 ∈ A ++ r :: B := by
      rcases List.mem_append.mp hr2m with h2 | h2
      · exact List.mem_append_left _ h2
      · exact List.mem_append_right _ (List.mem_cons_of_mem _ h2)
    obtain ⟨ha1, ha2, ha3, ha4, ha5⟩ := hrwf r2 hr2m'
    refine ⟨ha1, by rw [hbmapid]; exact ha2, ?_, ?_, ?_⟩
    · rw [hblen (posId r2)]
      exact ha3
    · rw [hblastid, hblastlen]
      exact ha4
    · rw [hbqe]
      exact ha5
  · intro c' hc'
    dsimp only at hc' ⊢
    rw [hbchunks] at hc'
    obtain ⟨c, hc, rfl⟩ := List.mem_map.mp hc'
    have hcnt := hrct c hc
    have hcm := (mem_ids_iff hids c.id).mp (List.mem_map_of_mem Chunk.id hc)
    rw [countP_append_cons] at hcnt
    have hwid : (g c).id = c.id := hgid c
    rw [hwid, List.countP_append]
    by_cases hcond : headId q ≤ c.id ∧ c.id < posId r
    · have hgc : g c = { c with read_completely_times := c.read_completely_times + (-1) } := by
        rw [hg]
        dsimp only
        rw [if_pos hcond]
      rw [hgc]
      dsimp only
      rw [if_pos (by simp only [decide_eq_true_eq]; omega)] at hcnt
      push_cast at hcnt ⊢
      omega
    · have hgc : g c = c := by
        rw [hg]
        dsimp only
        rw [if_neg hcond]
      rw [hgc]
      rw [if_neg (by simp only [decide_eq_true_eq]; omega)] at hcnt
      push_cast at hcnt ⊢
      omega
  · intro i hi
    have hi2 : q.start_position.chunk = some i := hi
    obtain ⟨hliv, hdang⟩ := hsp i hi2
    constructor
    · intro hmem
      rw [hbmapid] at hmem
      obtain ⟨ha, hb⟩ := hliv hmem
      refine ⟨?_, ?_⟩
      · rw [hblen i]
        exact ha
      · rw [hblastid, hblastlen]
        exact hb
    · intro hmem
      rw [hbmapid] at hmem
      rw [hbhead]
      exact hdang hmem

/-- EventQueue::set_start_position bumps the shared epoch, stores the
new cursor and optionally cleans up inline; the invariant is preserved
whenever the new cursor respects the queue bounds. -/
theorem set_start_position_pres {q : EventQueue α} {rs : List EventReader}
    (hinv : Inv (Sys.mk q rs)) (s : Settings) (newPos : Cursor)
    (hpos : ∀ i, newPos.chunk = some i →
      (i ∈ q.chunks.map Chunk.id →
        newPos.index ≤ lenOfId q i ∧ cursorLeP (i, newPos.index) (lastId q, lastLen q)) ∧
      (i ∉ q.chunks.map Chunk.id → i < headId q)) :
    Inv (Sys.mk (set_start_position s q newPos) rs) ∧
    (set_start_position s q newPos).start_position = newPos ∧
    (set_start_position s q newPos).readers = q.readers ∧
    (set_start_position s q newPos).chunk_id_counter = q.chunk_id_counter ∧
    qEpoch (set_start_position s q newPos) = qEpoch q + 1 ∧
    lastId (set_start_position s q newPos) = lastId q ∧
    lastLen (set_start_position s q newPos) = lastLen q ∧
    headId q ≤ headId (set_start_position s q newPos) ∧
    (rs ≠ [] →
      (set_start_position s q newPos).chunks.map Chunk.id = q.chunks.map Chunk.id ∧
      headId (set_start_position s q newPos) = headId q ∧
      (∀ x, lenOfId (set_start_position s q newPos) x = lenOfId q x) ∧
      (∀ x j, suffixFrom (set_start_position s q newPos).chunks x j = suffixFrom q.chunks x j)) := by
  obtain ⟨hqwf, hcount, hrwf, hrct, hsp⟩ := hinv
  dsimp only at hqwf hcount hrwf hrct hsp
  obtain ⟨hne, hids, hlast, hall, hseal⟩ := hqwf
  set f : Chunk α → Chunk α := fun c => { c with epoch := qEpoch q + 1 } with hf
  set qm : EventQueue α := EventQueue.mk (q.chunks.map f)
      q.chunk_id_counter q.penult_chunk_size q.readers newPos with hqm
  have hq2 : set_start_position s q newPos =
      (if s.AUTO_CLEANUP && (q.readers == 0) then cleanup qm else qm) := by
    rfl
  have hmchunks : qm.chunks = q.chunks.map f := rfl
  have hfid : ∀ c, (f c).id = c.id := fun c => rfl
  have hfslots : ∀ c, (f c).slots = c.slots := fun c => rfl
  have hfcap : ∀ c, (f c).capacity = c.capacity := fun c => rfl
  have hfep : ∀ c, (f c).epoch = qEpoch q + 1 := fun c => rfl
  obtain ⟨hmmapid, hmhead, hmlastid, hmlastlen, hmlen, hmsuf⟩ :=
    map_chunks_fields hfid hfslots hmchunks
  have hmqwf : QWF qm :=
    QWF_map hfid hfcap hfslots (Or.inr ⟨qEpoch q + 1, hfep⟩) hmchunks rfl
      ⟨hne, hids, hlast, hall, hseal⟩
  have hqeqm : qEpoch qm = qEpoch q + 1 := by
    unfold qEpoch
    rw [hmchunks, List.head?_map]
    cases hh : q.chunks.head? with
    | none =>
      rw [List.head?_eq_none_iff] at hh
      exact absurd hh hne
    | some h =>
      show qEpoch q + 1 = h.epoch + 1
      have hq0 : qEpoch q = h.epoch := by
        unfold qEpoch
        rw [hh]
        rfl
      rw [hq0]
  have hminv : Inv (Sys.mk qm rs) := by
    refine ⟨hmqwf, hcount, ?_, ?_, ?_⟩
    · intro r2 hr2m
      obtain ⟨ha1, ha2, ha3, ha4, ha5⟩ := hrwf r2 hr2m
      refine ⟨ha1, by rw [hmmapid]; exact ha2, ?_, ?_, ?_⟩
      · rw [hmlen (posId r2)]
        exact ha3
      · rw [hmlastid, hmlastlen]
        exact ha4
      · rw [hqeqm]
        omega
    · intro c' hc'
      dsimp only at hc'
      obtain ⟨c, hc, rfl⟩ := List.mem_map.mp hc'
      exact hrct c hc
    · intro i hi
      have hi2 : newPos.chunk = some i := hi
      obtain ⟨hliv, hdang⟩ := hpos i hi2
      constructor
      · intro hmem
        rw [hmmapid] at hmem
        obtain ⟨ha, hb⟩ := hliv hmem
        refine ⟨?_, ?_⟩
        · rw [hmlen i]
          exact ha
        · rw [hmlastid, hmlastlen]
          exact hb
      · intro hmem
        rw [hmmapid] at hmem
        rw [hmhead]
        exact hdang hmem
  rw [hq2]
  cases hcond : (s.AUTO_CLEANUP && (q.readers == 0)) with
  | false =>
    rw [if_neg (by simp [hcond])]
    refine ⟨hminv, rfl, rfl, rfl, hqeqm, hmlastid, hmlastlen, le_of_eq hmhead.symm, ?_⟩
    intro _
    exact ⟨hmmapid, hmhead, hmlen, hmsuf⟩
  | true =>
    rw [if_pos (by simp [hcond])]
    obtain ⟨hcinv, hcr, hcsp, hccnt, hcqe, hcli, hcll, hchd, hclen, hcsuf, hcdrop, hcsub⟩ :=
      cleanup_pres hminv
    have hrs0 : rs = [] := by
      have hz : q.readers = 0 := by
        have hh := hcond
        simp only [Bool.and_eq_true, beq_iff_eq] at hh
        exact hh.2
      rw [hz] at hcount
      exact (List.length_eq_zero.mp hcount.symm)
    refine ⟨hcinv, by rw [hcsp], by rw [hcr], by rw [hccnt], by rw [hcqe]; exact hqeqm,
      by rw [hcli]; exact hmlastid, by rw [hcll]; exact hmlastlen, ?_, ?_⟩
    · rw [← hmhead]
      exact hchd
    · intro hrsne
      exact absurd hrs0 hrsne

/-- EventQueue::clear stores the end of the tail as the start position
and preserves the invariant; with live readers no inline cleanup runs,
so the chunks keep their ids, lengths and contents. -/
theorem clear_pres {q : EventQueue α} {rs : List EventReader}
    (hinv : Inv (Sys.mk q rs)) (s : Settings) :
    Inv (Sys.mk (clear s q) rs) ∧
    (clear s q).start_position = Cursor.mk (some (lastId q)) (lastLen q) ∧
    (clear s q).readers = q.readers ∧
    (clear s q).chunk_id_counter = q.chunk_id_counter ∧
    qEpoch (clear s q) = qEpoch q + 1 ∧
    lastId (clear s q) = lastId q ∧ lastLen (clear s q) = lastLen q ∧
    headId q ≤ headId (clear s q) ∧
    (rs ≠ [] →
      (clear s q).chunks.map Chunk.id = q.chunks.map Chunk.id ∧
      headId (clear s q) = headId q ∧
      (∀ x, lenOfId (clear s q) x = lenOfId q x) ∧
      (∀ x j, suffixFrom (clear s q).chunks x j = suffixFrom q.chunks x j)) := by
  have hne : q.chunks ≠ [] := hinv.1.1
  obtain ⟨hlm, hlen2, hnext2, hsfx2b, hfindlast⟩ := last_chunk_facts hinv.1
  cases hlastc : q.chunks.getLast? with
  | none =>
    rw [List.getLast?_eq_none_iff] at hlastc
    exact absurd hlastc hne
  | some lastc =>
  have hlid' : lastId q = lastc.id := by
    unfold lastId
    rw [hlastc]
    rfl
  have hlen3' : lastLen q = lastc.slots.length := by
    unfold lastLen
    rw [hlastc]
    rfl
  rw [clear, hlastc]
  have hp := set_start_position_pres hinv s
    (Cursor.mk (some lastc.id) lastc.slots.length) ?hpos
  case hpos =>
    intro i hi
    have hie : i = lastc.id := by
      have hh : some lastc.id = some i := hi
      exact (Option.some_injective _ hh).symm
    subst hie
    constructor
    · intro hmem
      refine ⟨?_, ?_⟩
      · show lastc.slots.length ≤ lenOfId q lastc.id
        rw [← hlid', hlen2, hlen3']
      · exact Or.inr ⟨hlid'.symm, le_of_eq hlen3'.symm⟩
    · intro hmem
      rw [← hlid'] at hmem
      exact absurd hlm hmem
  obtain ⟨h1, h2, h3, h4, h5, h6, h7, h8, h9⟩ := hp
  exact ⟨h1, by rw [h2, hlid', hlen3'], h3, h4, h5, h6, h7, h8, h9⟩

/-- EventQueue::truncate_front preserves the invariant: it either
leaves the queue unchanged or calls set_start_position with the id of
the found chunk (null when there is none). -/
theorem truncate_pres {q : EventQueue α} {rs : List EventReader}
    (hinv : Inv (Sys.mk q (rs : List EventReader))) (s : Settings) (k : Nat) :
    Inv (Sys.mk (truncate_front s q k).2 rs) := by
  obtain ⟨hne, hids, hlast, hall, hseal⟩ := hinv.1
  dsimp only at hne hids hlast hall hseal
  have hn1 : 0 < q.chunks.length := List.length_pos.mpr hne
  have hlidv : lastId q = headId q + q.chunks.length - 1 := by
    unfold lastId
    rw [lastId_ids hids hne]
    rfl
  rw [truncate_front]
  by_cases hle : ((q.chunk_id_counter : Int) - (k : Int) + 1 ≤ 0)
  · rw [if_pos hle]
    exact hinv
  · rw [if_neg hle]
    dsimp only
    refine (set_start_position_pres hinv s _ ?_).1
    intro i hi
    dsimp only at hi
    cases hfind : q.chunks.find? (fun c => c.id == ((q.chunk_id_counter : Int) - (k : Int) + 1).toNat) with
    | none =>
      rw [hfind] at hi
      simp at hi
    | some c =>
      rw [hfind] at hi
      have hie : i = c.id := by
        have hh : some c.id = some i := hi
        exact (Option.some_injective _ hh).symm
      subst hie
      have hcmem : c ∈ q.chunks := List.mem_of_find?_eq_some hfind
      have hcm := (mem_ids_iff hids c.id).mp (List.mem_map_of_mem Chunk.id hcmem)
      constructor
      · intro hmem
        refine ⟨Nat.zero_le _, ?_⟩
        by_cases heq : c.id = lastId q
        · exact Or.inr ⟨heq, Nat.zero_le _⟩
        · exact Or.inl (by omega)
      · intro hmem
        exact absurd (List.mem_map_of_mem Chunk.id hcmem) hmem

/-- The freshly constructed queue satisfies the invariant. -/
theorem init_inv (s : Settings) (hmin : 1 ≤ s.MIN_CHUNK_SIZE) (α : Type) :
    Inv (initSys s α) := by
  refine ⟨⟨?_, ?_, ?_, ?_, ?_⟩, rfl, ?_, ?_, ?_⟩
  · simp [initSys, EventQueue.new]
  · rfl
  · rfl
  · intro c hc
    have hce : c = Chunk.mk 0 s.MIN_CHUNK_SIZE [] 0 0 := by
      simpa [initSys, EventQueue.new] using hc
    subst hce
    exact ⟨Nat.zero_le _, hmin, rfl⟩
  · intro c hc
    simp [initSys, EventQueue.new] at hc
  · intro r hr
    simp [initSys] at hr
  · intro c hc
    have hce : c = Chunk.mk 0 s.MIN_CHUNK_SIZE [] 0 0 := by
      simpa [initSys, EventQueue.new] using hc
    subst hce
    rfl
  · intro i hi
    have hie : i = 0 := by
      have hh : some 0 = some i := hi
      exact (Option.some_injective _ hh).symm
    subst hie
    exact ⟨fun _ => ⟨Nat.zero_le _, Or.inr ⟨rfl, Nat.le_refl _⟩⟩,
      fun hm => absurd (by simp [initSys, EventQueue.new, headId]) hm⟩

/-- Every state reachable by any sequence of operations satisfies the
full system invariant. -/
theorem reachable_inv {s : Settings} (hmin : 1 ≤ s.MIN_CHUNK_SIZE)
    (hmax : 1 ≤ s.MAX_CHUNK_SIZE) {sys : Sys α} (hreach : Reachable s sys) :
    Inv sys := by
  unfold Reachable at hreach
  induction hreach with
  | refl => exact init_inv s hmin α
  | tail hsteps hstep ih =>
    rename_i mid fin
    have ih2 : Inv (Sys.mk mid.q mid.rs) := ih
    cases hstep with
    | pushStep v => exact (push_pres ih2 s hmax v).1
    | extendStep vs => exact (extend_pres ih2 s hmax vs).1
    | subscribeStep q1 r hsub =>
      obtain ⟨q1', r', heq, hinv', hrest⟩ := subscribe_pres ih2
      rw [hsub] at heq
      obtain ⟨h1, h2⟩ : q1 = q1' ∧ r = r' := by
        injection heq with hh
        injection hh with ha hb
        exact ⟨ha, hb⟩
      subst h1
      subst h2
      exact hinv'
    | unsubscribeStep A B r hrs =>
      rw [hrs] at ih2
      exact unsubscribe_pres ih2
    | cleanupStep => exact (cleanup_pres ih2).1
    | clearStep => exact (clear_pres ih2 s).1
    | truncateStep k => exact truncate_pres ih2 s k
    | updatePosStep A B r q1 r1 hrs hupd =>
      rw [hrs] at ih2
      cases hu : update_start_position_and_get_len s mid.q r with
      | none =>
        rw [update_position, hu] at hupd
        simp at hupd
      | some y =>
        obtain ⟨qq, rr, len⟩ := y
        rw [update_position, hu] at hupd
        dsimp only [Option.map] at hupd
        obtain ⟨h1, h2⟩ : qq = q1 ∧ rr = r1 := by
          injection hupd with hh
          injection hh with ha hb
          exact ⟨ha, hb⟩
        subst h1
        subst h2
        exact (update_len_pres s ih2 hu).1
    | collectStep A B r out q1 r1 hrs hcol =>
      rw [hrs] at ih2
      exact (readerCollect_pres s ih2 hcol).1

/-- With consecutive ids, a member chunk is exactly what find? locates
for its id. -/
theorem find_id_of_mem {l : List (Chunk α)} {a : Nat}
    (hids : l.map Chunk.id = List.range' a l.length) {c : Chunk α} (hc : c ∈ l) :
    l.find? (fun x => x.id == c.id) = some c := by
  obtain ⟨i, hget⟩ := List.get_of_mem hc
  have hil : (i : Nat) < l.length := i.isLt
  have hcid : c.id = a + (i : Nat) := by
    have hil2 : (i : Nat) < (l.map Chunk.id).length := by simpa using hil
    have h1 : (l.map Chunk.id)[(i : Nat)] = c.id := by
      simp only [List.getElem_map]
      exact congrArg Chunk.id hget
    rw [List.getElem_of_eq hids] at h1
    simpa [List.getElem_range'] using h1.symm
  obtain ⟨c', hdrop, hc'id, hfind, hnext⟩ := drop_decomp l a (i : Nat) hids hil
  have hcc : c' = c := by
    have hh : (l.drop (i : Nat)).head? = some c' := by
      rw [hdrop]
      rfl
    rw [List.head?_drop, List.getElem?_eq_getElem hil] at hh
    have hgc : l[(i : Nat)] = c := hget
    rw [hgc] at hh
    exact (Option.some_injective _ hh).symm
  rw [hcid]
  rw [hcc] at hfind
  exact hfind

/-- With consecutive ids, a chunk with a non-null next pointer is not
the last chunk. -/
theorem next_imp_dropLast {l : List (Chunk α)} {a : Nat}
    (hids : l.map Chunk.id = List.range' a l.length) {c : Chunk α} (hc : c ∈ l)
    (hnx : nextInList l c.id ≠ none) : c ∈ l.dropLast := by
  obtain ⟨i, hget⟩ := List.get_of_mem hc
  have hil : (i : Nat) < l.length := i.isLt
  have hcid : c.id = a + (i : Nat) := by
    have hil2 : (i : Nat) < (l.map Chunk.id).length := by simpa using hil
    have h1 : (l.map Chunk.id)[(i : Nat)] = c.id := by
      simp only [List.getElem_map]
      exact congrArg Chunk.id hget
    rw [List.getElem_of_eq hids] at h1
    simpa [List.getElem_range'] using h1.symm
  obtain ⟨c', hdrop, hc'id, hfind, hnext⟩ := drop_decomp l a (i : Nat) hids hil
  rw [hcid, hnext] at hnx
  have hne2 : l.drop ((i : Nat) + 1) ≠ [] := by
    intro hh
    rw [hh] at hnx
    exact hnx rfl
  have hlt : (i : Nat) + 1 < l.length := by
    have hh := List.length_drop ((i : Nat) + 1) l
    by_contra hcon
    push_neg at hcon
    rw [List.drop_eq_nil_of_le (by omega)] at hne2
    exact hne2 rfl
  rw [List.dropLast_eq_take]
  have hb : (i : Nat) < (l.take (l.length - 1)).length := by
    simp
    omega
  have hmem : (l.take (l.length - 1))[(i : Nat)] ∈ l.take (l.length - 1) :=
    List.getElem_mem _
  rw [List.getElem_take l] at hmem
  rw [show l[(i : Nat)] = c from hget] at hmem
  exact hmem

/-- With consecutive ids, the successor id is one more than the id of
the chunk it follows, and the successor is live. -/
theorem next_id_succ {l : List (Chunk α)} {a : Nat}
    (hids : l.map Chunk.id = List.range' a l.length) {c d : Chunk α} (hc : c ∈ l)
    (hnx : nextInList l c.id = some d) : d.id = c.id + 1 ∧ d ∈ l := by
  obtain ⟨i, hget⟩ := List.get_of_mem hc
  have hil : (i : Nat) < l.length := i.isLt
  have hcid : c.id = a + (i : Nat) := by
    have hil2 : (i : Nat) < (l.map Chunk.id).length := by simpa using hil
    have h1 : (l.map Chunk.id)[(i : Nat)] = c.id := by
      simp only [List.getElem_map]
      exact congrArg Chunk.id hget
    rw [List.getElem_of_eq hids] at h1
    simpa [List.getElem_range'] using h1.symm
  obtain ⟨c', hdrop, hc'id, hfind, hnext⟩ := drop_decomp l a (i : Nat) hids hil
  rw [hcid, hnext, List.head?_drop] at hnx
  have hlt : (i : Nat) + 1 < l.length := by
    by_contra hcon
    push_neg at hcon
    rw [List.getElem?_eq_none (by omega)] at hnx
    exact Option.noConfusion hnx
  rw [List.getElem?_eq_getElem hlt] at hnx
  have hd : l[(i : Nat) + 1] = d := Option.some_injective _ hnx
  have hdid : d.id = a + ((i : Nat) + 1) := by
    have hlt2 : (i : Nat) + 1 < (l.map Chunk.id).length := by simpa using hlt
    have h1 : (l.map Chunk.id)[(i : Nat) + 1] = d.id := by
      simp only [List.getElem_map]
      exact congrArg Chunk.id hd
    rw [List.getElem_of_eq hids] at h1
    simpa [List.getElem_range'] using h1.symm
  refine ⟨by omega, ?_⟩
  rw [← hd]
  exact List.getElem_mem hlt

/-- Subscribing n readers in sequence succeeds, parks every new reader
at the end of the tail with the current epoch cached, and leaves the
queue contents untouched. -/
theorem subscribeN_pres {q : EventQueue α} {rs : List EventReader}
    (hinv : Inv (Sys.mk q rs)) :
    ∀ n, ∃ q1 rs1, subscribeN q n = some (q1, rs1) ∧ rs1.length = n ∧
      Inv (Sys.mk q1 (rs ++ rs1)) ∧
      q1.start_position = q.start_position ∧
      q1.chunk_id_counter = q.chunk_id_counter ∧
      qEpoch q1 = qEpoch q ∧ lastId q1 = lastId q ∧ lastLen q1 = lastLen q ∧
      q1.readers = q.readers + n ∧
      (∀ r ∈ rs1, r.position = Cursor.mk (some (lastId q)) (lastLen q) ∧
        r.start_position_epoch = qEpoch q)
  | 0 => ⟨q, [], rfl, rfl, by simpa using hinv, rfl, rfl, rfl, rfl, rfl, rfl, by simp⟩
  | n + 1 => by
    obtain ⟨q1, rs1, heq, hlen, hinv1, hsp1, hcnt1, hqe1, hli1, hll1, hrd1, hpos1⟩ :=
      subscribeN_pres hinv n
    obtain ⟨q2, r2, heq2, hinv2, hpos2, hep2, hrd2, hsp2, hcnt2, hqe2, hli2, hll2⟩ :=
      subscribe_pres hinv1
    refine ⟨q2, rs1 ++ [r2], ?_, ?_, ?_, ?_, ?_, ?_, ?_, ?_, ?_, ?_⟩
    · rw [subscribeN, heq]
      dsimp only
      rw [heq2]
    · simp [hlen]
    · rw [← List.append_assoc]
      exact hinv2
    · rw [hsp2, hsp1]
    · rw [hcnt2, hcnt1]
    · rw [hqe2, hqe1]
    · rw [hli2, hli1]
    · rw [hll2, hll1]
    · rw [hrd2, hrd1]
      omega
    · intro r hr
      rcases List.mem_append.mp hr with h1 | h1
      · exact hpos1 r h1
      · have hre : r = r2 := by simpa using h1
        subst hre
        constructor
        · rw [hpos2, hli1, hll1]
        · rw [hep2, hqe1]

/-- Draining every reader once in sequence: when every pending reader
has the current epoch cached and sees exactly ws as the remaining
suffix under its cursor, every traversal returns ws. -/
theorem drainAll_run (s : Settings) (ws : List α) :
    ∀ (pending done : List EventReader) (q : EventQueue α),
      Inv (Sys.mk q (done ++ pending)) →
      (∀ r ∈ pending, r.start_position_epoch = qEpoch q ∧
        suffixFrom q.chunks (posId r) r.position.index = ws) →
      ∃ q2 rs2, drainAll s q pending = some (List.replicate pending.length ws, q2, rs2)
  | [], done, q, hinv, hall => ⟨q, [], rfl⟩
  | r :: rest, done, q, hinv, hall => by
    have hinv' : Inv (Sys.mk q (done ++ r :: rest)) := hinv
    obtain ⟨hre, hrs⟩ := hall r (by simp)
    obtain ⟨⟨out, q1, r1⟩, hcol⟩ := readerCollect_total hinv' s (fun hne => absurd hre hne)
    obtain ⟨hinv1, hrd1, hsp1, hcnt1, hqe1, hli1, hll1, hhd1, hsub1, hlen1, hsuf1,
      hpos1, hep1, hfast1, hslow1⟩ := readerCollect_pres s hinv' hcol
    have hout : out = ws := by
      rw [hfast1 hre]
      exact hrs
    have hinvrec : Inv (Sys.mk q1 ((done ++ [r1]) ++ rest)) := by
      rw [List.append_assoc]
      simpa using hinv1
    have hcond : ∀ r' ∈ rest, r'.start_position_epoch = qEpoch q1 ∧
        suffixFrom q1.chunks (posId r') r'.position.index = ws := by
      intro r' hr'
      obtain ⟨ha, hb⟩ := hall r' (List.mem_cons_of_mem _ hr')
      have hmem' : posId r' ∈ q1.chunks.map Chunk.id := by
        have hrwf' := hinv1.2.2.1 r' (by simp [hr'])
        have := hrwf'.2.1
        simpa using this
      refine ⟨by rw [hqe1]; exact ha, ?_⟩
      rw [hsuf1 _ _ hmem']
      exact hb
    have hcond2 : ∀ r' ∈ rest, r'.start_position_epoch = qEpoch q1 ∧
        suffixFrom q1.chunks (posId r') r'.position.index = ws := hcond
    obtain ⟨q2, rs2, hrec⟩ := drainAll_run s ws rest (done ++ [r1]) q1 hinvrec hcond2
    refine ⟨q2, r1 :: rs2, ?_⟩
    rw [drainAll, hcol]
    dsimp only
    rw [hrec]
    rw [List.length_cons, List.replicate_succ, hout]

/-- fetch_add on a live chunk: addRct changes exactly the counter of
the chunks whose ids are listed. -/
theorem rctOfId_addRct_mem {q : EventQueue α} {ids : List Nat} {i : Nat} (δ : Int)
    {c : Chunk α} (hfind : q.chunks.find? (fun c => c.id == i) = some c)
    (hmem : i ∈ ids) :
    rctOfId (addRct δ ids q) i = rctOfId q i + δ := by
  have hcid : c.id = i := by
    have hh := List.find?_some hfind
    simpa using hh
  unfold rctOfId addRct
  dsimp only
  have hcomp : ((fun x : Chunk α => x.id == i) ∘ (fun c : Chunk α =>
      if c.id ∈ ids then { c with read_completely_times := c.read_completely_times + δ }
      else c)) = (fun x : Chunk α => x.id == i) := by
    funext x
    by_cases h : x.id ∈ ids
    · simp [Function.comp, h]
    · simp [Function.comp, h]
  rw [List.find?_map, hcomp, hfind]
  dsimp only [Option.map]
  rw [if_pos (by rw [hcid]; exact hmem)]
  rfl

/-- C4: growth schedule.  A newly allocated chunk has capacity
min(2c, MAX_CHUNK_SIZE) when penult_chunk_size equals the tail
capacity c, and c otherwise; with MIN_CHUNK_SIZE 2 and MAX_CHUNK_SIZE
8 the successively allocated chunk capacities are 2, 2, 4, 4, 8, 8, 8. -/
theorem growth_schedule {α : Type} (s : Settings) (q : EventQueue α) (node : Chunk α)
    (h : q.chunks.getLast? = some node) :
    (add_chunk s q).chunks.getLast? = some (Chunk.mk (q.chunk_id_counter + 1)
      (if q.penult_chunk_size = node.capacity then min (node.capacity * 2) s.MAX_CHUNK_SIZE
       else node.capacity) [] node.epoch 0) ∧
    (((fun qq => add_chunk (Settings.mk 2 8 true) qq)^[6]
        (EventQueue.new (Settings.mk 2 8 true) Unit)).chunks.map Chunk.capacity =
      [2, 2, 4, 4, 8, 8, 8]) := by
  constructor
  · rw [add_chunk, h]
    dsimp only
    rw [List.getLast?_concat]
  · decide

theorem growth_schedule_witness :
    ((EventQueue.new (Settings.mk 2 8 true) Unit).chunks.getLast? =
      some (Chunk.mk 0 2 [] 0 0)) ∧
    ((add_chunk (Settings.mk 2 8 true)
        (EventQueue.new (Settings.mk 2 8 true) Unit)).chunks.getLast? =
      some (Chunk.mk 1 2 [] 0 0)) :=
  ⟨by decide, by
    have h := (growth_schedule (Settings.mk 2 8 true)
      (EventQueue.new (Settings.mk 2 8 true) Unit) (Chunk.mk 0 2 [] 0 0) (by decide)).1
    simpa using h⟩

/-- C9: a positive target id with no matching live chunk leaves the
found pointer null, so truncate_front installs a start position whose
chunk pointer is null; every later cursor comparison against it
dereferences that null pointer (undefined behaviour, modelled as
none). -/
theorem truncate_null_start_cursor {α : Type} (s : Settings) (q : EventQueue α) (k : Nat)
    (hpos : 0 < (q.chunk_id_counter : Int) - (k : Int) + 1)
    (hnone : q.chunks.find? (fun c =>
      c.id == ((q.chunk_id_counter : Int) - (k : Int) + 1).toNat) = none) :
    (truncate_front s q k).2.start_position = Cursor.mk none 0 ∧
    (∀ x : Cursor, cursorCmp? x ((truncate_front s q k).2.start_position) = none ∧
      cursorLt? x ((truncate_front s q k).2.start_position) = none) := by
  have hspfix : ∀ p : Cursor, (set_start_position s q p).start_position = p := by
    intro p
    rw [set_start_position]
    dsimp only
    split
    · rfl
    · rfl
  have hmain : (truncate_front s q k).2.start_position = Cursor.mk none 0 := by
    rw [truncate_front]
    rw [if_neg (by omega)]
    dsimp only
    rw [hnone]
    exact hspfix _
  refine ⟨hmain, ?_⟩
  intro x
  rw [hmain]
  constructor
  · cases hx : x.chunk with
    | none => rw [cursorCmp?, hx]
    | some i => rw [cursorCmp?, hx]
  · cases hx : x.chunk with
    | none => rw [cursorLt?, hx]
    | some i => rw [cursorLt?, hx]

theorem truncate_null_start_cursor_witness :
    let sw : Settings := Settings.mk 1 1 true
    let qw : EventQueue Nat := EventQueue.mk [Chunk.mk 0 1 [] 0 0] 0 0 0 (Cursor.mk (some 0) 0)
    (0 : Int) < (qw.chunk_id_counter : Int) - (0 : Nat) + 1 ∧
    (truncate_front sw qw 0).2.start_position = Cursor.mk none 0 := by
  intro sw qw
  refine ⟨by decide, ?_⟩
  exact (truncate_null_start_cursor sw qw 0 (by decide) (by decide)).1

/-- C10: when the current chunk is exhausted and sealed and its
successor publishes length 0, Iter::next returns none but has already
moved the iterator to (successor, 0); dropping the iterator therefore
walks past the exhausted chunk and increments its
read_completely_times even though that next call yielded nothing. -/
theorem iter_next_empty_successor {α : Type} (s : Settings) {q : EventQueue α}
    {r : EventReader} {c d : Chunk α} (hqwf : QWF q) (hc : c ∈ q.chunks)
    (hnext : nextInList q.chunks c.id = some d) (hd0 : d.slots.length = 0)
    (hr : r.position = Cursor.mk (some c.id) c.slots.length) :
    iterNext q (IterState.mk (Cursor.mk (some c.id) c.slots.length) c.slots.length) =
      (none, IterState.mk (Cursor.mk (some d.id) 0) 0) ∧
    ∃ q2, iterDrop s q r (IterState.mk (Cursor.mk (some d.id) 0) 0) =
        some (q2, { r with position := Cursor.mk (some d.id) 0 }) ∧
      (s.AUTO_CLEANUP = false → rctOfId q2 c.id = rctOfId q c.id + 1) := by
  obtain ⟨hne, hids, hlast, hall, hseal⟩ := hqwf
  have hfind : q.chunks.find? (fun x => x.id == c.id) = some c := find_id_of_mem hids hc
  have hfindC : findChunk? q (some c.id) = some c := by
    unfold findChunk?
    simpa using hfind
  obtain ⟨hdid, hdmem⟩ := next_id_succ hids hc hnext
  have hcm := (mem_ids_iff hids c.id).mp (List.mem_map_of_mem Chunk.id hc)
  have hdm := (mem_ids_iff hids d.id).mp (List.mem_map_of_mem Chunk.id hdmem)
  constructor
  · rw [iterNext, if_pos rfl, hfindC]
    dsimp only
    rw [hnext]
    dsimp only
    rw [if_neg (by simp)]
    rw [if_pos hd0, hd0]
  · rw [iterDrop, set_forward_position]
    rw [if_neg (by simp)]
    dsimp only
    have hrc : r.position.chunk = some c.id := by
      rw [hr]
    rw [hrc]
    dsimp only
    have hwalk : walkIds q.chunks c.id (some d.id) = [c.id] := by
      have hw := walkIds_spec q.chunks (headId q) (c.id - headId q) d.id hids
        (by omega) (by omega) (by omega)
      rw [Nat.add_sub_cancel' hcm.1] at hw
      rw [hw, hdid]
      simp [List.range']
    rw [hwalk]
    refine ⟨_, rfl, ?_⟩
    intro hauto
    rw [hauto]
    simp only [Bool.false_and, Bool.false_eq_true, if_false]
    exact rctOfId_addRct_mem 1 hfind (by simp)

theorem iter_next_empty_successor_witness :
    let qw : EventQueue Nat := EventQueue.mk
      [Chunk.mk 0 1 [7] 0 0, Chunk.mk 1 1 [] 0 0] 1 1 1 (Cursor.mk (some 0) 0)
    QWF qw ∧
    iterNext qw (IterState.mk (Cursor.mk (some 0) 1) 1) =
      (none, IterState.mk (Cursor.mk (some 1) 0) 0) := by
  intro qw
  refine ⟨by decide, ?_⟩
  have h := (iter_next_empty_successor (Settings.mk 1 1 false) (q := qw)
    (r := EventReader.mk (Cursor.mk (some 0) 1) 0)
    (c := Chunk.mk 0 1 [7] 0 0) (d := Chunk.mk 1 1 [] 0 0)
    (by decide) (by decide) (by decide) (by decide) (by decide)).1
  simpa using h

/-- C6: in every state reachable by any sequence of queue and reader
operations, every chunk whose next pointer is non-null has published
length equal to its capacity: a chunk is sealed before a successor is
linked. -/
theorem sealed_before_link {α : Type} {s : Settings} (hmin : 1 ≤ s.MIN_CHUNK_SIZE)
    (hmax : 1 ≤ s.MAX_CHUNK_SIZE) {sys : Sys α} (hreach : Reachable s sys) :
    ∀ c ∈ sys.q.chunks, nextInList sys.q.chunks c.id ≠ none →
      c.slots.length = c.capacity := by
  have hinv := reachable_inv hmin hmax hreach
  obtain ⟨⟨hne, hids, hlast, hall, hseal⟩, -, -, -, -⟩ := hinv
  intro c hc hnx
  exact hseal c (next_imp_dropLast hids hc hnx)

theorem sealed_before_link_witness :
    (1 ≤ (2 : Nat)) ∧
    ∀ c ∈ (initSys (Settings.mk 2 8 true) Nat).q.chunks,
      nextInList (initSys (Settings.mk 2 8 true) Nat).q.chunks c.id ≠ none →
      c.slots.length = c.capacity :=
  ⟨by decide, @sealed_before_link Nat (Settings.mk 2 8 true) (by decide) (by decide)
    (initSys (Settings.mk 2 8 true) Nat) Relation.ReflTransGen.refl⟩

/-- C7: in every reachable state, every live chunk has
0 ≤ read_completely_times ≤ readers, and a chunk reclaimed by cleanup
had read_completely_times equal to the readers count. -/
theorem rct_bounds {α : Type} {s : Settings} (hmin : 1 ≤ s.MIN_CHUNK_SIZE)
    (hmax : 1 ≤ s.MAX_CHUNK_SIZE) {sys : Sys α} (hreach : Reachable s sys) :
    ∀ c ∈ sys.q.chunks,
      (0 ≤ c.read_completely_times ∧ c.read_completely_times ≤ (sys.q.readers : Int)) ∧
      (c ∉ (cleanup sys.q).chunks →
        c.read_completely_times = (sys.q.readers : Int)) := by
  have hinv := reachable_inv hmin hmax hreach
  have hinv2 : Inv (Sys.mk sys.q sys.rs) := hinv
  have hdrop := (cleanup_pres hinv2).2.2.2.2.2.2.2.2.2.2.1
  intro c hc
  have hcnt := hinv.2.2.2.1 c hc
  refine ⟨⟨?_, ?_⟩, ?_⟩
  · rw [hcnt]
    exact Int.ofNat_nonneg _
  · rw [hcnt, hinv.2.1]
    exact_mod_cast List.countP_le_length _
  · intro hnot
    exact hdrop c hc hnot

theorem rct_bounds_witness :
    (1 ≤ (2 : Nat)) ∧
    ∀ c ∈ (initSys (Settings.mk 2 8 true) Nat).q.chunks,
      (0 ≤ c.read_completely_times ∧
        c.read_completely_times ≤ ((initSys (Settings.mk 2 8 true) Nat).q.readers : Int)) ∧
      (c ∉ (cleanup (initSys (Settings.mk 2 8 true) Nat).q).chunks →
        c.read_completely_times = ((initSys (Settings.mk 2 8 true) Nat).q.readers : Int)) :=
  ⟨by decide, @rct_bounds Nat (Settings.mk 2 8 true) (by decide) (by decide)
    (initSys (Settings.mk 2 8 true) Nat) Relation.ReflTransGen.refl⟩

/-- C8: update_position is idempotent: with no intervening producer
activity, a second call returns the same queue and reader unchanged,
leaving every cursor, cached epoch and read-completion counter as it
was after the first call. -/
theorem update_position_idempotent {α : Type} (s : Settings) {q q1 : EventQueue α}
    {A B : List EventReader} {r r1 : EventReader}
    (hinv : Inv (Sys.mk q (A ++ r :: B)))
    (h1 : update_position s q r = some (q1, r1)) :
    update_position s q1 r1 = some (q1, r1) := by
  cases hu : update_start_position_and_get_len s q r with
  | none =>
    rw [update_position, hu] at h1
    simp at h1
  | some y =>
    obtain ⟨qq, rr, len⟩ := y
    rw [update_position, hu] at h1
    dsimp only [Option.map] at h1
    obtain ⟨e1, e2⟩ : qq = q1 ∧ rr = r1 := by
      injection h1 with hh
      injection hh with ha hb
      exact ⟨ha, hb⟩
    subst e1
    subst e2
    obtain ⟨hainv, har, hasp, hacnt, haqe, hali, hall2, hahd, hasub, halen, hasuf,
      hafwd, haep, halenval, hafast, halands⟩ := update_len_pres s hinv hu
    have hfast := update_len_fast hainv (haep.trans haqe.symm) s
    rw [update_position, hfast]
    rfl

theorem update_position_idempotent_witness :
    let sw : Settings := Settings.mk 2 8 true
    let qw : EventQueue Nat := EventQueue.mk [Chunk.mk 0 2 [1, 2] 0 0] 0 0 1 (Cursor.mk (some 0) 0)
    let rw0 : EventReader := EventReader.mk (Cursor.mk (some 0) 0) 0
    Inv (Sys.mk qw ([] ++ rw0 :: [])) ∧
    update_position sw qw rw0 = some (qw, rw0) ∧
    update_position sw qw rw0 = some (qw, rw0) := by
  intro sw qw rw0
  refine ⟨by decide, by decide, ?_⟩
  exact @update_position_idempotent Nat sw qw qw [] [] rw0 rw0 (by decide) (by decide)

/-- C2 (amended): truncate_front computes the signed target id
chunk_id_counter - k + 1 and bails out returning (0, unchanged) only
when that target is not positive; the claimed guard target ≤ head.id
is not what the code checks.  Past the guard the returned count is the
wrapping usize difference target - head id, and the start position is
set to the possibly dangling found chunk at index 0; only when the
head id does not exceed the target does the returned count equal the
number of chunks with id strictly below the target. -/
theorem truncate_front_semantics {α : Type} (s : Settings) {q : EventQueue α}
    {rs : List EventReader} (hinv : Inv (Sys.mk q rs)) (k : Nat)
    (hfit : q.chunk_id_counter + 1 < 2 ^ 64) :
    (((q.chunk_id_counter : Int) - (k : Int) + 1 ≤ 0) → truncate_front s q k = (0, q)) ∧
    (0 < (q.chunk_id_counter : Int) - (k : Int) + 1 →
      (truncate_front s q k).1 =
        usizeSub ((q.chunk_id_counter : Int) - (k : Int) + 1).toNat (headId q) ∧
      (truncate_front s q k).2 = set_start_position s q
        (Cursor.mk ((q.chunks.find? (fun c =>
          c.id == ((q.chunk_id_counter : Int) - (k : Int) + 1).toNat)).map Chunk.id) 0) ∧
      (headId q ≤ ((q.chunk_id_counter : Int) - (k : Int) + 1).toNat →
        (truncate_front s q k).1 =
          q.chunks.countP (fun c =>
            decide (c.id < ((q.chunk_id_counter : Int) - (k : Int) + 1).toNat)))) := by
  obtain ⟨hne, hids, hlast, hall, hseal⟩ := hinv.1
  dsimp only at hne hids hlast
  have hn1 : 0 < q.chunks.length := List.length_pos.mpr hne
  have hlidv : lastId q = headId q + q.chunks.length - 1 := by
    unfold lastId
    rw [lastId_ids hids hne]
    rfl
  constructor
  · intro hle
    rw [truncate_front, if_pos hle]
  · intro hgt
    have hneg : ¬ ((q.chunk_id_counter : Int) - (k : Int) + 1 ≤ 0) := by omega
    refine ⟨?_, ?_, ?_⟩
    · rw [truncate_front, if_neg hneg]
    · rw [truncate_front, if_neg hneg]
    · intro hhead
      rw [truncate_front, if_neg hneg]
      dsimp only
      have htle : ((q.chunk_id_counter : Int) - (k : Int) + 1).toNat ≤
          q.chunk_id_counter + 1 := by omega
      have hhc : headId q ≤ q.chunk_id_counter := by omega
      have hcount := countP_id_lt q.chunks (headId q)
        ((q.chunk_id_counter : Int) - (k : Int) + 1).toNat hids hhead (by omega)
      rw [hcount]
      unfold usizeSub
      omega

/-- Counterexample to the guard claimed for C2: a queue reachable by
three pushes at chunk capacity 1 followed by a cleanup has a single
chunk with id 2 and id counter 2.  truncate_front 2 computes target id
1, which is at most the head id, so the claimed behaviour is to change
nothing and return 0; the code instead returns the wrapped difference
2 ^ 64 - 1 and installs a null start cursor. -/
theorem truncate_front_claim_counterexample :
    let sw : Settings := Settings.mk 1 1 true
    let qw : EventQueue Nat := cleanup (List.foldl (push sw) (EventQueue.new sw Nat) [10, 20, 30])
    (0 : Int) < (qw.chunk_id_counter : Int) - (2 : Nat) + 1 ∧
    ((qw.chunk_id_counter : Int) - (2 : Nat) + 1).toNat ≤ headId qw ∧
    (truncate_front sw qw 2).1 = 2 ^ 64 - 1 ∧
    (truncate_front sw qw 2).2.start_position = Cursor.mk none 0 ∧
    (truncate_front sw qw 2).2.start_position ≠ qw.start_position := by
  intro sw qw
  refine ⟨by decide, by decide, by decide, by decide, by decide⟩

theorem truncate_front_semantics_witness :
    let sw : Settings := Settings.mk 2 8 true
    let qw : EventQueue Nat := EventQueue.mk [Chunk.mk 0 2 [5, 6] 0 0] 0 0 0 (Cursor.mk (some 0) 0)
    Inv (Sys.mk qw ([] : List EventReader)) ∧ qw.chunk_id_counter + 1 < 2 ^ 64 ∧
    truncate_front sw qw 2 = (0, qw) := by
  intro sw qw
  refine ⟨by decide, by decide, ?_⟩
  exact (@truncate_front_semantics Nat sw qw ([] : List EventReader) (by decide) 2
    (by decide)).1 (by decide)

/-- C3: subscription is not retroactive: after any sequence of pushes,
subscribe parks the new reader at the producer current tail end, and
its first full traversal, with no pushes in between, returns no
values. -/
theorem subscribe_not_retroactive {α : Type} (s : Settings) (hmin : 1 ≤ s.MIN_CHUNK_SIZE)
    (hmax : 1 ≤ s.MAX_CHUNK_SIZE) (vs : List α) :
    ∃ q1 r, subscribe (List.foldl (push s) (EventQueue.new s α) vs) = some (q1, r) ∧
      r.position = Cursor.mk (some (lastId (List.foldl (push s) (EventQueue.new s α) vs)))
        (lastLen (List.foldl (push s) (EventQueue.new s α) vs)) ∧
      ∃ q2 r2, readerCollect s q1 r = some ([], q2, r2) := by
  have hinit : Inv (Sys.mk (EventQueue.new s α) ([] : List EventReader)) := init_inv s hmin α
  obtain ⟨hinvP, hev⟩ := foldl_push_pres hmax vs (EventQueue.new s α) [] hinit
  obtain ⟨q1, r, heq, hinv1, hpos, hep, hrd, hsp, hcnt, hqe, hli, hll⟩ := subscribe_pres hinvP
  have hinv1' : Inv (Sys.mk q1 ([] ++ r :: [])) := hinv1
  have hepq : r.start_position_epoch = qEpoch q1 := hep.trans hqe.symm
  obtain ⟨⟨out, q2, r2⟩, hcol⟩ := readerCollect_total hinv1' s (fun hne => absurd hepq hne)
  obtain ⟨h1, h2, h3, h4, h5, h6, h7, h8, h9, h10, h11, h12, h13, hfast, hslow⟩ :=
    readerCollect_pres s hinv1' hcol
  have hppos : posId r = lastId q1 := by
    unfold posId
    rw [hpos]
    rw [hli]
    rfl
  have hpidx : r.position.index = lastLen q1 := by
    rw [hpos, hll]
  have hout : out = [] := by
    rw [hfast hepq, hppos, hpidx]
    exact (last_chunk_facts hinv1'.1).2.2.2.1
  exact ⟨q1, r, heq, hpos, q2, r2, by rw [← hout]; exact hcol⟩

theorem subscribe_not_retroactive_witness :
    (1 ≤ (2 : Nat)) ∧
    ∃ q1 r, subscribe (List.foldl (push (Settings.mk 2 8 true))
        (EventQueue.new (Settings.mk 2 8 true) Nat) [1, 2]) = some (q1, r) ∧
      r.position = Cursor.mk
        (some (lastId (List.foldl (push (Settings.mk 2 8 true))
          (EventQueue.new (Settings.mk 2 8 true) Nat) [1, 2])))
        (lastLen (List.foldl (push (Settings.mk 2 8 true))
          (EventQueue.new (Settings.mk 2 8 true) Nat) [1, 2])) ∧
      ∃ q2 r2, readerCollect (Settings.mk 2 8 true) q1 r = some ([], q2, r2) :=
  ⟨by decide, subscribe_not_retroactive (Settings.mk 2 8 true) (by decide) (by decide) [1, 2]⟩

/-- C5: clear sets the start position to the end-of-tail cursor; for
every reader alive at that moment a fresh iterator yields nothing
until a subsequent push, and values pushed after the clear are
delivered in full (after push 1, push 2, clear, push 3, push 4 a
pre-existing reader collects exactly 3, 4). -/
theorem clear_semantics {α : Type} (s : Settings) (hmax : 1 ≤ s.MAX_CHUNK_SIZE)
    {q : EventQueue α} {A B : List EventReader} {r : EventReader}
    (hinv : Inv (Sys.mk q (A ++ r :: B))) (ws : List α) :
    (clear s q).start_position = Cursor.mk (some (lastId q)) (lastLen q) ∧
    (∃ qc rc, iterNew s (clear s q) r = some (qc, rc,
        IterState.mk (Cursor.mk (some (lastId qc)) (lastLen qc)) (lastLen qc)) ∧
      iterNext qc (IterState.mk (Cursor.mk (some (lastId qc)) (lastLen qc)) (lastLen qc)) =
        (none, IterState.mk (Cursor.mk (some (lastId qc)) (lastLen qc)) (lastLen qc))) ∧
    (∃ q3 r3, readerCollect s (List.foldl (push s) (clear s q) ws) r =
        some (ws, q3, r3)) := by
  obtain ⟨hinvc, hspc, hrdc, hcntc, hqec, hlic, hllc, hhdc, hpresc⟩ := clear_pres hinv s
  obtain ⟨hidsc, hheadc, hlenc, hsufc⟩ := hpresc (by simp)
  obtain ⟨hr1, hr2, hr3, hr4, hr5⟩ := hinv.2.2.1 r (by simp)
  dsimp only at hr2 hr3 hr4 hr5
  have hstale : r.start_position_epoch ≠ qEpoch (clear s q) := by
    rw [hqec]
    omega
  refine ⟨hspc, ?_, ?_⟩
  · obtain ⟨⟨qc0, rc0, len0⟩, hu⟩ := update_len_total hinvc s (fun _ => by rw [hspc]; simp)
    obtain ⟨hainv, har, hasp, hacnt, haqe, hali, hall2, hahd, hasub, halen, hasuf,
      hafwd, haep, halenval, hafast, halands⟩ := update_len_pres s hinvc hu
    obtain ⟨hpe, hpix⟩ := halands hstale (lastId q) (lastLen q) hspc hr4
    have hrcchunk : rc0.position.chunk = some (posId rc0) := (hainv.2.2.1 rc0 (by simp)).1
    have hliq : lastId qc0 = lastId q := by rw [hali, hlic]
    have hllq : lastLen qc0 = lastLen q := by rw [hall2, hllc]
    have hposeq : rc0.position = Cursor.mk (some (lastId qc0)) (lastLen qc0) := by
      cases hp : rc0.position with
      | mk ch ix =>
        have h1 : ch = some (posId rc0) := by
          have hh := hrcchunk
          rw [hp] at hh
          exact hh
        have h2 : ix = lastLen q := by
          have hh := hpix
          rw [hp] at hh
          exact hh
        rw [h1, h2, hpe, hliq, hllq]
    have hlen0 : len0 = lastLen qc0 := by
      rw [halenval, hpe, ← hliq]
      exact (last_chunk_facts hainv.1).2.1
    refine ⟨qc0, rc0, ?_, iterNext_at_end hainv.1⟩
    rw [iterNew, hu]
    dsimp only [Option.map]
    rw [hposeq, hlen0]
  · obtain ⟨hinvp, hevp⟩ := foldl_push_pres hmax ws (clear s q) (A ++ r :: B) hinvc
    obtain ⟨e1, e2, e3, e4, e5, e6, e7, e8, e9⟩ := hevp
    have hspp : (List.foldl (push s) (clear s q) ws).start_position =
        Cursor.mk (some (lastId q)) (lastLen q) := by
      rw [e2, hspc]
    have hstale2 : r.start_position_epoch ≠ qEpoch (List.foldl (push s) (clear s q) ws) := by
      rw [e3, hqec]
      omega
    obtain ⟨⟨out, q3, r3⟩, hcol⟩ := readerCollect_total hinvp s (fun _ => by rw [hspp]; simp)
    obtain ⟨g1, g2, g3, g4, g5, g6, g7, g8, g9, g10, g11, g12, g13, gfast, gslow⟩ :=
      readerCollect_pres s hinvp hcol
    have hout : out = ws := by
      rw [gslow hstale2 (lastId q) (lastLen q) hspp hr4]
      obtain ⟨hlmc, hlen2c, hnext2c, hsfx2c, hfindc⟩ := last_chunk_facts hinvc.1
      have hmemc : lastId q ∈ (clear s q).chunks.map Chunk.id := by
        rw [← hlic]
        exact hlmc
      have hlenc2 : lastLen q ≤ lenOfId (clear s q) (lastId q) := by
        rw [← hlic, hlen2c, hllc]
      rw [e9 (lastId q) (lastLen q) hmemc hlenc2]
      rw [show suffixFrom (clear s q).chunks (lastId q) (lastLen q) = [] from by
        rw [← hlic, ← hllc]
        exact hsfx2c]
      simp
    refine ⟨q3, r3, ?_⟩
    rw [hcol, hout]

theorem clear_semantics_witness :
    let sw : Settings := Settings.mk 2 8 true
    let qw : EventQueue Nat := EventQueue.mk [Chunk.mk 0 2 [1, 2] 0 0] 0 0 1 (Cursor.mk (some 0) 0)
    let rw0 : EventReader := EventReader.mk (Cursor.mk (some 0) 0) 0
    (1 ≤ sw.MAX_CHUNK_SIZE ∧ Inv (Sys.mk qw ([] ++ rw0 :: []))) ∧
    ((clear sw qw).start_position = Cursor.mk (some (lastId qw)) (lastLen qw) ∧
      ∃ q3 r3, readerCollect sw (List.foldl (push sw) (clear sw qw) [3, 4]) rw0 =
        some ([3, 4], q3, r3)) := by
  intro sw qw rw0
  refine ⟨⟨by decide, by decide⟩, ?_⟩
  have h := clear_semantics sw (by decide) (q := qw) (A := []) (B := []) (r := rw0)
    (by decide) [3, 4]
  exact ⟨h.1, h.2.2⟩

/-- C1: broadcast FIFO.  Starting from a fresh queue, subscribe any
number m of readers before any push, then push the values vs in order
with no further subscriptions; draining every reader to completion
yields exactly vs, in push order, for every reader. -/
theorem broadcast_fifo (s : Settings) (hmin : 1 ≤ s.MIN_CHUNK_SIZE)
    (hmax : 1 ≤ s.MAX_CHUNK_SIZE) (α : Type) (m : Nat) (vs : List α) :
    ∃ q1 rs1 q2 rs2,
      subscribeN (EventQueue.new s α) m = some (q1, rs1) ∧ rs1.length = m ∧
      drainAll s (List.foldl (push s) q1 vs) rs1 =
        some (List.replicate m vs, q2, rs2) := by
  have hinit : Inv (Sys.mk (EventQueue.new s α) ([] : List EventReader)) := init_inv s hmin α
  obtain ⟨q1, rs1, heq, hlen, hinv1, hsp1, hcnt1, hqe1, hli1, hll1, hrd1, hpos1⟩ :=
    subscribeN_pres hinit m
  have hinv1' : Inv (Sys.mk q1 rs1) := by simpa using hinv1
  obtain ⟨hinv2, hev⟩ := foldl_push_pres hmax vs q1 rs1 hinv1'
  obtain ⟨e1, e2, e3, e4, e5, e6, e7, e8, e9⟩ := hev
  obtain ⟨hlm1, hlen21, hnext21, hsfx21, hfl1⟩ := last_chunk_facts hinv1'.1
  have hcond : ∀ r ∈ rs1, r.start_position_epoch =
      qEpoch (List.foldl (push s) q1 vs) ∧
      suffixFrom (List.foldl (push s) q1 vs).chunks (posId r) r.position.index = vs := by
    intro r hr
    obtain ⟨hp, he⟩ := hpos1 r hr
    constructor
    · rw [e3, hqe1]
      exact he
    · have hppos : posId r = lastId q1 := by
        unfold posId
        rw [hp]
        rw [hli1]
        rfl
      have hpidx : r.position.index = lastLen q1 := by
        rw [hp, hll1]
      rw [hppos, hpidx]
      rw [e9 (lastId q1) (lastLen q1) hlm1 (by rw [hlen21])]
      rw [hsfx21]
      simp
  obtain ⟨q3, rs3, hdrain⟩ := drainAll_run s vs rs1 [] (List.foldl (push s) q1 vs)
    (by simpa using hinv2) hcond
  refine ⟨q1, rs1, q3, rs3, heq, hlen, ?_⟩
  rw [← hlen]
  exact hdrain

theorem broadcast_fifo_witness :
    (1 ≤ (2 : Nat)) ∧
    ∃ q1 rs1 q2 rs2,
      subscribeN (EventQueue.new (Settings.mk 2 8 true) Nat) 2 = some (q1, rs1) ∧
      rs1.length = 2 ∧
      drainAll (Settings.mk 2 8 true) (List.foldl (push (Settings.mk 2 8 true)) q1 [10, 20, 30]) rs1 =
        some (List.replicate 2 [10, 20, 30], q2, rs2) :=
  ⟨by decide, broadcast_fifo (Settings.mk 2 8 true) (by decide) (by decide) Nat 2 [10, 20, 30]⟩

end EventQueueModel
